import Mathlib

/-!
Rocket plug-in: effect chain order, modulation matrix and module DSP

A shallow embedding of the ordering logic of `FxChain`, of `ModMatrix`, and of
the parts of the effect modules and of `DemoFxChain` that the specification
talks about, for both variants kept in the repository (`RocketRemake` and
`The Rocket`), with the properties of the specification proved or refuted
against it.

Conventions of the embedding

* `juce::StringArray` and `juce::Array<T>` are lists; their `int` indices are
  `Int`, and the JUCE calls used by the code (`operator[]`, `remove`, `insert`,
  `contains`, `isPositiveAndBelow`, `jlimit`) follow the JUCE documentation.
* `float` values are exact rationals (`ℚ`): rounding is not modelled. Setter
  arguments that may be NaN or infinite, and the samples of the global blend
  of `DemoFxChain::process`, have the type `Juce.Fl`.
* The functions of the C math library (`sin`, `tanh`, `pow`) are parameters
  (`Juce.MathFns`); processing done inside JUCE's DSP classes is represented by
  the samples it leaves in the buffer.
* An audio buffer is the list of its channels; a loop over sample indices is a
  fold over `List.range`.
* The set of modules of a chain is fixed by its constructor, so a chain state
  is its `order`; a modulation matrix state is its macro value and its
  assignment list.
-/

namespace Juce

/-- The JUCE range test `isPositiveAndBelow (v, n)`: `0 <= v && v < n`. -/
def isPositiveAndBelow (v : Int) (n : Nat) : Bool :=
  decide (0 ≤ v) && decide (v < (n : Int))

/-- The JUCE clamp `jlimit (lo, hi, v)`. -/
def jlimit (lo hi v : ℚ) : ℚ :=
  if v < lo then lo else if hi < v then hi else v

/-- Indexing `StringArray::operator[]`: the empty string outside the array. -/
def stringAt (a : List String) (i : Int) : String :=
  if isPositiveAndBelow i a.length then a.getD i.toNat "" else ""

/-- Removal `Array::remove (index)`: nothing happens outside the array. -/
def remove {α : Type} (a : List α) (i : Int) : List α :=
  if isPositiveAndBelow i a.length then a.eraseIdx i.toNat else a

/-- Insertion `Array::insert (index, x)`: an index that is negative or larger
than the size appends at the end. -/
def insert {α : Type} (a : List α) (i : Int) (x : α) : List α :=
  if decide (0 ≤ i) && decide (i ≤ (a.length : Int)) then a.insertIdx i.toNat x
  else a ++ [x]

/-- A `juce::var`, represented by the results of the conversions the code
applies to it (`toString ()`, the cast to `double`, the cast to `bool`). -/
structure Var where
  toString : String
  toDouble : ℚ
  toBool : Bool
deriving DecidableEq, Repr

/-- A `juce::ValueTree`: the invalid tree, or a node with a type name, named
properties and child trees. -/
inductive ValueTree where
  | invalid : ValueTree
  | node (type : String) (properties : List (String × Var))
      (children : List ValueTree) : ValueTree

/-- The test `ValueTree::isValid`. -/
def ValueTree.isValid : ValueTree → Bool
  | .invalid => false
  | .node _ _ _ => true

/-- The test `ValueTree::hasType`. -/
def ValueTree.hasType : ValueTree → String → Bool
  | .invalid, _ => false
  | .node type _ _, name => type == name

/-- The children of a tree, in index order (`getNumChildren`, `getChild`). -/
def ValueTree.children : ValueTree → List ValueTree
  | .invalid => []
  | .node _ _ children => children

/-- The lookup `ValueTree::getChildWithName`: the first child of that type, or
the invalid tree. -/
def ValueTree.getChildWithName (t : ValueTree) (name : String) : ValueTree :=
  (t.children.find? (fun child => child.hasType name)).getD ValueTree.invalid

/-- The lookup `ValueTree::getProperty`: `none` stands for the void `var` an
absent property gives (or for the default value passed by the caller). -/
def ValueTree.getProperty : ValueTree → String → Option Var
  | .invalid, _ => none
  | .node _ properties _, name =>
      (properties.find? (fun kv => kv.1 == name)).map Prod.snd

/-- A `juce::AudioBuffer<float>`: its channels, each a list of samples of the
buffer's length. -/
abbrev Buffer := List (List ℚ)

/-- The sample `buffer.getSample (ch, i)` (0 outside the buffer, where the C++
read is not defined). -/
def getSample (buffer : Buffer) (ch i : Nat) : ℚ :=
  (buffer.getD ch []).getD i 0

/-- The buffer after some in-place processing wrote the value `wet ch i` to
every sample position: the shape stays, the contents are whatever the
processing produced. -/
def overwrite (buffer : Buffer) (wet : Nat → Nat → ℚ) : Buffer :=
  buffer.mapIdx (fun ch channel => channel.mapIdx (fun i _ => wet ch i))

/-- The clamp `jlimit (lo, hi, v)` on `int` values. -/
def jlimitInt (lo hi v : Int) : Int :=
  if v < lo then lo else if hi < v then hi else v

/-- The rounding `std::round`: to the nearest integer, halves away from zero. -/
def stdRound (x : ℚ) : Int :=
  if 0 ≤ x then Int.floor (x + 1 / 2) else -Int.floor (-x + 1 / 2)

/-- A `float` argument that may be non-finite: NaN, an infinity, or a finite
value (an exact rational, rounding not modelled). -/
inductive Fl where
  | nan
  | negInf
  | posInf
  | finite (q : ℚ)
deriving DecidableEq, Repr

/-- The test `std::isfinite`. -/
def Fl.isFinite : Fl → Bool
  | .finite _ => true
  | _ => false

/-- The comparison `a < b` of IEEE floats: false as soon as one side is NaN. -/
def Fl.lt : Fl → Fl → Bool
  | .finite a, .finite b => decide (a < b)
  | .negInf, .finite _ => true
  | .negInf, .posInf => true
  | .finite _, .posInf => true
  | _, _ => false

/-- The clamp `jlimit (lo, hi, v)` on floats that may be non-finite, as JUCE
writes it: `v < lo ? lo : (hi < v ? hi : v)`. -/
def jlimitF (lo hi v : Fl) : Fl :=
  if v.lt lo then lo else if hi.lt v then hi else v

/-- The rational a float holds when it is finite (0 otherwise); applied only
to results of `clampSafe` with finite bounds, which are finite. -/
def Fl.toRat : Fl → ℚ
  | .finite q => q
  | _ => 0

/-- The cast of a float to an integer type: truncation towards zero. -/
def truncToInt (x : ℚ) : Int :=
  if 0 ≤ x then Int.floor x else -Int.floor (-x)

/-- The remainder `std::fmod (x, y)`: `x` minus `y` times the quotient
truncated towards zero. -/
def stdFmod (x y : ℚ) : ℚ :=
  x - (truncToInt (x / y) : ℚ) * y

/-- The functions of the C math library the DSP code calls and the float
constants for pi, as parameters of the embedding. -/
structure MathFns where
  sin : ℚ → ℚ
  tanh : ℚ → ℚ
  pow : ℚ → ℚ → ℚ
  pi : ℚ
  twoPi : ℚ

/-- The sample count `buffer.getNumSamples ()`. -/
def numSamples (buffer : Buffer) : Nat :=
  (buffer.getD 0 []).length

/-- The write `buffer.setSample (ch, i, v)`. -/
def setSample (buffer : Buffer) (ch i : Nat) (v : ℚ) : Buffer :=
  buffer.set ch ((buffer.getD ch []).set i v)

/-- Math functions for evaluating the code on concrete inputs: `pow (b, e)`
is exact for an integral exponent `e`; `sin` and `tanh` are placeholders, and
no statement evaluated with these functions depends on their values. -/
def exampleFns : MathFns :=
  { sin := fun _ => 0
    tanh := fun _ => 0
    pow := fun b e => b ^ Int.floor e
    pi := 355 / 113
    twoPi := 710 / 113 }

/-- The map `jmap (value0To1, targetRangeMin, targetRangeMax)`. -/
def jmap (value0To1 targetRangeMin targetRangeMax : ℚ) : ℚ :=
  targetRangeMin + value0To1 * (targetRangeMax - targetRangeMin)

/-- A `NormalisableRange<float>` with skew 1 and no custom conversion
functions, as a parameter declared with a start and an end value has it;
`finish` is the field `end`. -/
structure NormalisableRange where
  start : ℚ
  finish : ℚ
deriving DecidableEq, Repr

/-- The method `NormalisableRange::convertTo0to1` of such a range:
`clampTo0To1 ((v - start) / (end - start))`. -/
def NormalisableRange.convertTo0to1 (r : NormalisableRange) (v : ℚ) : ℚ :=
  jlimit 0 1 ((v - r.start) / (r.finish - r.start))

/-- The method `NormalisableRange::convertFrom0to1` of such a range:
`start + (end - start) * clampTo0To1 (proportion)`. -/
def NormalisableRange.convertFrom0to1 (r : NormalisableRange) (proportion : ℚ) : ℚ :=
  r.start + (r.finish - r.start) * jlimit 0 1 proportion

/-- The negation of a float that may be non-finite. -/
def Fl.neg : Fl → Fl
  | .nan => .nan
  | .negInf => .posInf
  | .posInf => .negInf
  | .finite q => .finite (-q)

/-- The sum `a + b` of IEEE floats: NaN as soon as one side is NaN, NaN for
infinities of opposite sign; a finite sum is exact (rounding and overflow are
not modelled). -/
def Fl.add : Fl → Fl → Fl
  | .nan, _ => .nan
  | _, .nan => .nan
  | .finite a, .finite b => .finite (a + b)
  | .posInf, .negInf => .nan
  | .negInf, .posInf => .nan
  | .posInf, _ => .posInf
  | .negInf, _ => .negInf
  | _, .posInf => .posInf
  | _, .negInf => .negInf

/-- The difference `a - b` of IEEE floats. -/
def Fl.sub (a b : Fl) : Fl :=
  a.add b.neg

/-- The product `a * b` of IEEE floats: NaN as soon as one side is NaN, NaN for
zero times an infinity; a finite product is exact. -/
def Fl.mul : Fl → Fl → Fl
  | .nan, _ => .nan
  | _, .nan => .nan
  | .finite a, .finite b => .finite (a * b)
  | .finite a, .posInf => if a = 0 then .nan else if 0 < a then .posInf else .negInf
  | .finite a, .negInf => if a = 0 then .nan else if 0 < a then .negInf else .posInf
  | .posInf, .finite b => if b = 0 then .nan else if 0 < b then .posInf else .negInf
  | .negInf, .finite b => if b = 0 then .nan else if 0 < b then .negInf else .posInf
  | .posInf, .posInf => .posInf
  | .posInf, .negInf => .negInf
  | .negInf, .posInf => .negInf
  | .negInf, .negInf => .posInf

/-- An audio buffer whose samples may be non-finite floats. -/
abbrev FlBuffer := List (List Fl)

/-- The sample `buffer.getSample (ch, i)` of such a buffer (0 outside the
buffer, where the C++ read is not defined). -/
def getSampleFl (buffer : FlBuffer) (ch i : Nat) : Fl :=
  (buffer.getD ch []).getD i (.finite 0)

/-- Such a buffer after some in-place processing wrote the value `wet ch i` to
every sample position. -/
def overwriteFl (buffer : FlBuffer) (wet : Nat → Nat → Fl) : FlBuffer :=
  buffer.mapIdx (fun ch channel => channel.mapIdx (fun i _ => wet ch i))

end Juce

namespace RocketRemake

/-- The two kinds of module, `enum class ModuleKind`. -/
inductive ModuleKind where
  | Effect
  | Generator
deriving DecidableEq, Repr

/-- A `ModuleEntry` of the chain, reduced to what the ordering logic reads: the
identifier returned by `module->getId()` and the entry's kind. -/
structure ModuleEntry where
  id : String
  kind : ModuleKind
deriving DecidableEq, Repr

/-- The modules added by the constructor `FxChain::FxChain`, in the order of
the `modules.add` calls; the identifiers are the ones the module constructors
in `Modules.cpp` pass to `FxModule`. -/
def modules : List ModuleEntry :=
  [ ⟨"reverb", .Effect⟩, ⟨"delay1", .Effect⟩, ⟨"delay2", .Effect⟩,
    ⟨"filter_lp", .Effect⟩, ⟨"filter_hp", .Effect⟩, ⟨"flanger", .Effect⟩,
    ⟨"phaser", .Effect⟩, ⟨"bitcrush", .Effect⟩, ⟨"distortion", .Effect⟩,
    ⟨"eq", .Effect⟩, ⟨"tremolo", .Effect⟩, ⟨"ringmod", .Effect⟩,
    ⟨"noisegen", .Generator⟩, ⟨"tonegen", .Generator⟩ ]

/-- The state of an `FxChain` that the ordering operations read and write. -/
structure FxChain where
  order : List String
deriving DecidableEq, Repr

/-- One step of the loop of `buildDefaultOrder`. -/
def defaultOrderStep (order : List String) (entry : ModuleEntry) : List String :=
  if entry.kind = ModuleKind.Effect then order ++ [entry.id] else order

/-- The method `FxChain::buildDefaultOrder`: the identifiers of the effect
entries, in module order. -/
def buildDefaultOrder : List String :=
  modules.foldl defaultOrderStep []

/-- The constructor `FxChain::FxChain`: it ends with `buildDefaultOrder ()`. -/
def FxChain.new : FxChain :=
  ⟨buildDefaultOrder⟩

/-- The method `FxChain::findModuleById`: the first entry with that identifier,
of either kind. -/
def findModuleById (id : String) : Option ModuleEntry :=
  modules.find? (fun entry => entry.id == id)

/-- The method `FxChain::getModuleOrder`. -/
def FxChain.getModuleOrder (c : FxChain) : List String :=
  c.order

/-- The method `FxChain::moveModule`. -/
def FxChain.moveModule (c : FxChain) (fromIndex toIndex : Int) : FxChain :=
  if !Juce.isPositiveAndBelow fromIndex c.order.length
      || !Juce.isPositiveAndBelow toIndex c.order.length
      || fromIndex == toIndex then c
  else
    let id := Juce.stringAt c.order fromIndex
    ⟨Juce.insert (Juce.remove c.order fromIndex) toIndex id⟩

/-- One step of the first loop of `setModuleOrder`: keep an identifier that
`findModuleById` finds. -/
def validStep (validOrder : List String) (id : String) : List String :=
  if (findModuleById id).isSome then validOrder ++ [id] else validOrder

/-- One step of the second loop of `setModuleOrder`: append an effect entry
whose identifier the list does not contain yet. -/
def missingStep (validOrder : List String) (entry : ModuleEntry) : List String :=
  if entry.kind = ModuleKind.Effect ∧ ¬ validOrder.contains entry.id = true then
    validOrder ++ [entry.id]
  else validOrder

/-- The method `FxChain::setModuleOrder`. The previous order is not read. -/
def FxChain.setModuleOrder (_c : FxChain) (newOrder : List String) : FxChain :=
  let validOrder := newOrder.foldl validStep []
  ⟨modules.foldl missingStep validOrder⟩

/-- The identifiers of the twelve effect modules the constructor creates. -/
def effectIds : List String :=
  ["reverb", "delay1", "delay2", "filter_lp", "filter_hp", "flanger", "phaser",
   "bitcrush", "distortion", "eq", "tremolo", "ringmod"]

/-- A mutation of the chain order through the public interface. -/
inductive ChainOp where
  | setOrder (candidate : List String)
  | move (fromIndex toIndex : Int)

/-- Apply one mutation. -/
def FxChain.apply (c : FxChain) : ChainOp → FxChain
  | .setOrder candidate => c.setModuleOrder candidate
  | .move fromIndex toIndex => c.moveModule fromIndex toIndex

/-- Apply a sequence of mutations, first to last. -/
def FxChain.run (c : FxChain) (ops : List ChainOp) : FxChain :=
  ops.foldl FxChain.apply c

/-- The closure property of an order under which `setModuleOrder` changes
nothing: every entry names a module and every effect identifier occurs. -/
def Closed (order : List String) : Prop :=
  (∀ id ∈ order, (findModuleById id).isSome = true)
    ∧ ∀ e ∈ modules, e.kind = ModuleKind.Effect → e.id ∈ order

/-- The record `ModMatrix::Assignment`: the fields `ModMatrix.cpp` reads and
writes, with the defaults of the declaration (`amount` 0, `useRange` false,
`min` 0, `max` 1). -/
structure Assignment where
  paramID : String
  amount : ℚ := 0
  useRange : Bool := false
  min : ℚ := 0
  max : ℚ := 1
deriving DecidableEq, Repr

/-- The state of a `ModMatrix`: the macro value and the assignment list. -/
structure ModMatrix where
  macroValue : ℚ := 0
  assignments : List Assignment := []
deriving DecidableEq, Repr

/-- The method `ModMatrix::setMacroValue`. -/
def ModMatrix.setMacroValue (m : ModMatrix) (macroIn : ℚ) : ModMatrix :=
  { m with macroValue := Juce.jlimit 0 1 macroIn }

/-- The value `getModulatedParamValue` computes from the first assignment whose
`paramID` matches (the body of the `if` inside the loop, up to the `break`). -/
def modulatedBy (macroValue : ℚ) (a : Assignment) (baseValue : ℚ) : ℚ :=
  if a.useRange then
    let t := macroValue * a.amount
    if a.amount ≥ 0 then a.min + t * (a.max - a.min)
    else a.max + (-t) * (a.min - a.max)
  else
    baseValue + a.amount * macroValue

/-- The loop of `getModulatedParamValue` over the assignments still to visit:
the first match decides and ends the loop; without a match `modded` keeps the
base value. -/
def modulatedLoop (macroValue : ℚ) (paramID : String) (baseValue : ℚ) :
    List Assignment → ℚ
  | [] => baseValue
  | a :: rest =>
      if a.paramID == paramID then modulatedBy macroValue a baseValue
      else modulatedLoop macroValue paramID baseValue rest

/-- The method `ModMatrix::getModulatedParamValue`. -/
def ModMatrix.getModulatedParamValue (m : ModMatrix) (paramID : String)
    (baseValue : ℚ) : ℚ :=
  modulatedLoop m.macroValue paramID baseValue m.assignments

/-- The loop of `addAssignment`, `for (int i = size; --i >= 0;)`: the first
argument counts the indices still to visit, so the index visited next is one
below it; a matching element is removed in place. -/
def removeMatching (paramID : String) : Nat → List Assignment → List Assignment
  | 0, assignments => assignments
  | i + 1, assignments =>
      removeMatching paramID i
        (match assignments[i]? with
          | some x => if x.paramID == paramID then Juce.remove assignments (i : Int)
                      else assignments
          | none => assignments)

/-- The method `ModMatrix::addAssignment`. -/
def ModMatrix.addAssignment (m : ModMatrix) (a : Assignment) : ModMatrix :=
  { m with
    assignments := removeMatching a.paramID m.assignments.length m.assignments ++ [a] }

/-- The method `ModMatrix::removeAssignment`. -/
def ModMatrix.removeAssignment (m : ModMatrix) (index : Int) : ModMatrix :=
  if Juce.isPositiveAndBelow index m.assignments.length then
    { m with assignments := Juce.remove m.assignments index }
  else m

/-- The method `ModMatrix::clear`. -/
def ModMatrix.clear (m : ModMatrix) : ModMatrix :=
  { m with assignments := [] }

/-- The assignment `restoreFromState` reads from one `ASSIGNMENT` child; an
absent property gives the default of the `getProperty` call (the void `var`,
hence the empty string, for `paramID`). -/
def readAssignment (asg : Juce.ValueTree) : Assignment :=
  { paramID := ((asg.getProperty "paramID").map Juce.Var.toString).getD ""
    amount := ((asg.getProperty "amount").map Juce.Var.toDouble).getD 0
    useRange := ((asg.getProperty "useRange").map Juce.Var.toBool).getD false
    min := ((asg.getProperty "min").map Juce.Var.toDouble).getD 0
    max := ((asg.getProperty "max").map Juce.Var.toDouble).getD 1 }

/-- One step of the loop of `restoreFromState`. -/
def restoreStep (assignments : List Assignment) (asg : Juce.ValueTree) :
    List Assignment :=
  if asg.hasType "ASSIGNMENT" then assignments ++ [readAssignment asg]
  else assignments

/-- The method `ModMatrix::restoreFromState`. -/
def ModMatrix.restoreFromState (m : ModMatrix) (parent : Juce.ValueTree) : ModMatrix :=
  let modTree := parent.getChildWithName "MODMATRIX"
  if !modTree.isValid then m
  else { m with assignments := modTree.children.foldl restoreStep [] }

/-- The parameter store read through `apvts.getRawParameterValue (id)`: the
current raw value of a registered parameter, `none` for the null pointer an
unknown identifier gives. -/
abbrev Apvts := String → Option ℚ

/-- The method `FxModule::getMix` of `Modules.cpp`. -/
def FxModule.getMix (apvts : Apvts) (moduleID : String) (modMatrix : ModMatrix) : ℚ :=
  match apvts (moduleID ++ "_mix") with
  | some p => modMatrix.getModulatedParamValue (moduleID ++ "_mix") p
  | none => 1

/-- The record `FxTransportInfo`, with the defaults of its declaration. -/
structure FxTransportInfo where
  bpm : ℚ := 120
  isPlaying : Bool := false
  ppqPosition : Int := 0
  sampleRate : ℚ := 44100
deriving DecidableEq, Repr

/-- What the host's play head reports for a block (`getPosition ()`): each of
the tempo and the position may be absent. -/
structure PositionInfo where
  bpm : Option ℚ
  isPlaying : Bool
  ppqPosition : Option ℚ
deriving DecidableEq, Repr

/-- The transport part of `TheRocketAudioProcessor::processBlock`: the outer
option is the play head pointer, the inner one the result of `getPosition ()`;
`sampleRate` is what `getSampleRate ()` returns. -/
def processBlockTransport (playHead : Option (Option PositionInfo)) (sampleRate : ℚ) :
    FxTransportInfo :=
  let transport : FxTransportInfo := {}
  let transport :=
    match playHead with
    | some (some pos) =>
        let t1 := match pos.bpm with
          | some bpm => { transport with bpm := bpm }
          | none => transport
        let t2 := { t1 with isPlaying := pos.isPlaying }
        match pos.ppqPosition with
        | some ppq => { t2 with ppqPosition := Juce.truncToInt (ppq * 1000) }
        | none => t2
    | _ => transport
  { transport with sampleRate := sampleRate }

/-- The table `rhythmValues` of `DelayModule::process` and of
`TremoloModule::process`. -/
def rhythmValues : List ℚ :=
  [1 / 16, 1 / 8, 1 / 4, 1 / 2, 3 / 4, 1, 3 / 2, 2]

/-- The choice labels of the `rhythm` parameters (`addParameters`), by index. -/
def rhythmLabels : List String :=
  ["1/16", "1/8", "1/4", "1/2", "3/4", "1", "1.5", "2"]

/-- The table lookup `rhythmValues[juce::jlimit (0, 7, rhythm)]`. -/
def rhythmBeats (rhythm : Int) : ℚ :=
  rhythmValues.getD (Juce.jlimitInt 0 7 rhythm).toNat 0

/-- The delay length of `DelayModule::process` before the clamp: `sync` and
`rhythm` are the values read from the parameters, `timeL` the modulated time. -/
def DelayModule.delaySamplesUnclamped (sync : Bool) (rhythm : Int) (timeL : ℚ)
    (transport : FxTransportInfo) (sampleRate : ℚ) : ℚ :=
  if sync = true ∧ transport.bpm > 0 then
    let beats := rhythmBeats rhythm
    let secondsPerBeat := 60 / transport.bpm
    beats * secondsPerBeat * sampleRate
  else
    timeL * sampleRate

/-- The delay length `DelayModule::process` hands to `setDelay`. -/
def DelayModule.delaySamples (sync : Bool) (rhythm : Int) (timeL : ℚ)
    (transport : FxTransportInfo) (sampleRate : ℚ) : ℚ :=
  Juce.jlimit 1 (sampleRate * 2 - 1)
    (DelayModule.delaySamplesUnclamped sync rhythm timeL transport sampleRate)

/-- The frequency `TremoloModule::process` computes: `rate` is the modulated
rate parameter. -/
def TremoloModule.frequency (sync : Bool) (rhythm : Int) (rate : ℚ)
    (transport : FxTransportInfo) : ℚ :=
  if sync = true ∧ transport.bpm > 0 then
    let beats := rhythmBeats rhythm
    let secondsPerBeat := 60 / transport.bpm
    1 / (beats * secondsPerBeat)
  else
    rate

/-- The stage count of `FilterModule::process`: the `switch` on the rounded
slope parameter. -/
def FilterModule.stages (slope : Int) : Int :=
  if slope = 0 then 1
  else if slope = 1 then 2
  else if slope = 2 then 4
  else if slope = 3 then 16
  else 4

/-- The size of the filter bank `std::array<FilterStage, 16> filters`. -/
def FilterModule.bankSize : Int := 16

/-- A parameter store that holds the single parameter `reverb_mix`. -/
def reverbMixStore (value : ℚ) : Apvts :=
  fun id => if id = "reverb_mix" then some value else none

/-- The tempo the host reports for a block, if it reports one. -/
def hostTempo (playHead : Option (Option PositionInfo)) : Option ℚ :=
  match playHead with
  | some (some pos) => pos.bpm
  | _ => none

/-- The phase update that closes every iteration of the sample loop of
`FlangerModule::process`, `TremoloModule::process`, `RingModModule::process`
and `ToneGenModule::process`: `phase += phaseInc; if (phase >= 1.0f) phase -= 1.0f;`. -/
def phaseStep (phaseInc phase : ℚ) : ℚ :=
  let phase := phase + phaseInc
  if phase ≥ 1 then phase - 1 else phase

/-- The phase of such a module after the sample loop of one `process` call
over `numSamples` samples with the increment `phaseInc` (`rate / sampleRate`,
computed once per call). A call that returns before the loop is a block of
0 samples. -/
def phaseAfterBlock (phaseInc : ℚ) (numSamples : Nat) (phase : ℚ) : ℚ :=
  (List.range numSamples).foldl (fun p _ => phaseStep phaseInc p) phase

/-- The phase after successive `process` calls, each given by its increment
and its sample count. -/
def phaseAfterBlocks (blocks : List (ℚ × Nat)) (phase : ℚ) : ℚ :=
  blocks.foldl (fun p b => phaseAfterBlock b.1 b.2 p) phase

/-- The phase `reset` (and `prepare`) of these modules sets. -/
def phaseAtReset : ℚ := 0

/-- An `ASSIGNMENT` child as `appendState` writes it. -/
def assignmentNode (a : Assignment) : Juce.ValueTree :=
  .node "ASSIGNMENT"
    [("paramID", ⟨a.paramID, 0, false⟩), ("amount", ⟨"", a.amount, false⟩),
     ("useRange", ⟨"", 0, a.useRange⟩), ("min", ⟨"", a.min, false⟩),
     ("max", ⟨"", a.max, false⟩)] []

/-- A persisted state whose `MODMATRIX` child holds two `ASSIGNMENT` records
for the same target `reverb_mix`. -/
def repeatedTargetState : Juce.ValueTree :=
  .node "STATE" []
    [.node "MODMATRIX" []
      [assignmentNode { paramID := "reverb_mix", amount := 1 / 2 },
       assignmentNode { paramID := "reverb_mix", amount := 1 }]]

/-- A mutation of the assignment list through the public interface. -/
inductive MatrixOp where
  | add (a : Assignment)
  | remove (index : Int)
  | clear
  | restore (parent : Juce.ValueTree)

/-- Apply one mutation. -/
def ModMatrix.apply (m : ModMatrix) : MatrixOp → ModMatrix
  | .add a => m.addAssignment a
  | .remove index => m.removeAssignment index
  | .clear => m.clear
  | .restore parent => m.restoreFromState parent

/-- Apply a sequence of mutations, first to last. -/
def ModMatrix.run (m : ModMatrix) (ops : List MatrixOp) : ModMatrix :=
  ops.foldl ModMatrix.apply m

/-- The property "at most one assignment per target parameter". -/
def OnePerTarget (assignments : List Assignment) : Prop :=
  (assignments.map Assignment.paramID).Nodup

end RocketRemake

namespace TheRocket

/-- The two kinds of module, `enum class ModuleKind`. -/
inductive ModuleKind where
  | Effect
  | Generator
deriving DecidableEq, Repr

/-- A `ModuleEntry` of the chain: the module's identifier and the kind. -/
structure ModuleEntry where
  id : String
  kind : ModuleKind
deriving DecidableEq, Repr

/-- The modules added by the constructor `FxChain::FxChain` of The Rocket, in
the order of the `modules.add` calls, with the identifiers of `Modules.cpp`. -/
def modules : List ModuleEntry :=
  [ ⟨"reverb", .Effect⟩, ⟨"delay", .Effect⟩, ⟨"lpf", .Effect⟩, ⟨"hpf", .Effect⟩,
    ⟨"flanger", .Effect⟩, ⟨"phaser", .Effect⟩, ⟨"bitcrusher", .Effect⟩,
    ⟨"distortion", .Effect⟩, ⟨"eq", .Effect⟩, ⟨"tremolo", .Effect⟩,
    ⟨"ringmod", .Effect⟩, ⟨"noise", .Generator⟩, ⟨"tone", .Generator⟩ ]

/-- The state of an `FxChain` that the ordering operations read and write. -/
structure FxChain where
  order : List String
deriving DecidableEq, Repr

/-- One step of the loop of `buildDefaultOrder`. -/
def defaultOrderStep (order : List String) (entry : ModuleEntry) : List String :=
  if entry.kind = ModuleKind.Effect then order ++ [entry.id] else order

/-- The method `FxChain::buildDefaultOrder`. -/
def buildDefaultOrder : List String :=
  modules.foldl defaultOrderStep []

/-- The constructor `FxChain::FxChain`. -/
def FxChain.new : FxChain :=
  ⟨buildDefaultOrder⟩

/-- The method `FxChain::setModuleOrder` of The Rocket: `order = newOrder`. -/
def FxChain.setModuleOrder (_c : FxChain) (newOrder : List String) : FxChain :=
  ⟨newOrder⟩

/-- The string `getProperty ("id").toString ()` of a child: empty when the
property is absent. -/
def childId (child : Juce.ValueTree) : String :=
  ((child.getProperty "id").map Juce.Var.toString).getD ""

/-- One step of the loop of `restoreFromState`: the `id` string of the child is
added, whatever the child's type and whatever the string. -/
def restoreStep (newOrder : List String) (child : Juce.ValueTree) : List String :=
  newOrder ++ [childId child]

/-- The method `FxChain::restoreFromState` of The Rocket. -/
def FxChain.restoreFromState (c : FxChain) (parent : Juce.ValueTree) : FxChain :=
  let chain := parent.getChildWithName "FX_CHAIN"
  if !chain.isValid then c
  else
    let newOrder := chain.children.foldl restoreStep []
    if newOrder.length > 0 then ⟨newOrder⟩ else c

/-- The identifiers of the eleven effect modules the constructor creates. -/
def effectIds : List String :=
  ["reverb", "delay", "lpf", "hpf", "flanger", "phaser", "bitcrusher",
   "distortion", "eq", "tremolo", "ringmod"]

/-- The parameter store read through `apvts.getRawParameterValue (id)`. -/
abbrev Apvts := String → Option ℚ

/-- The blend `applyMix (buffer, dry, mix)` of `Modules.cpp`: nothing happens
for `mix >= 0.999`, otherwise every sample becomes `d + mix * (wet - d)`. -/
def applyMix (buffer dry : Juce.Buffer) (mix : ℚ) : Juce.Buffer :=
  if mix ≥ 999 / 1000 then buffer
  else
    buffer.mapIdx (fun ch wet =>
      wet.mapIdx (fun i w =>
        let d := Juce.getSample dry ch i
        d + mix * (w - d)))

/-- The method `FxModule::isEnabled`: the `<id>_enabled` parameter above 0.5,
and `true` when there is no such parameter. -/
def FxModule.isEnabled (apvts : Apvts) (moduleID : String) : Bool :=
  match apvts (moduleID ++ "_enabled") with
  | some p => decide (p > 1 / 2)
  | none => true

/-- The shape shared by `process` of the eleven effect modules
(`ReverbModule` to `RingModModule`): return at once when the module is
disabled; otherwise copy the buffer to `dry`, process the buffer in place, and
finish with `applyMix (buffer, dry, getMix (modMatrix))`. The in-place processing
differs per module and runs through JUCE's DSP classes and the C math library;
it is represented by the samples `wet ch i` it leaves in the buffer.
`effectiveMix` is the value `getMix (modMatrix)` returns. -/
def effectProcess (apvts : Apvts) (moduleID : String) (effectiveMix : ℚ)
    (wet : Nat → Nat → ℚ) (buffer : Juce.Buffer) : Juce.Buffer :=
  if !FxModule.isEnabled apvts moduleID then buffer
  else
    let dry := buffer
    applyMix (Juce.overwrite buffer wet) dry effectiveMix

/-- The stage count of `FilterModule::process` of The Rocket, from the
modulated `slope` value. -/
def FilterModule.stages (slope : ℚ) : Int :=
  let slopeIndex : Int := Juce.jlimitInt 0 3 (Juce.stdRound slope)
  if slopeIndex = 0 then 1 else if slopeIndex = 1 then 2
  else if slopeIndex = 2 then 4 else 16

/-- The size of the filter bank `std::array<FilterStage, 16> filters`. -/
def FilterModule.bankSize : Int := 16

/-- The function `divisionToBeats`. -/
def divisionToBeats (divIndex : Int) : ℚ :=
  if divIndex = 0 then 4
  else if divIndex = 1 then 2
  else if divIndex = 2 then 1
  else if divIndex = 3 then 1 / 2
  else if divIndex = 4 then 1 / 4
  else 1

/-- The length `DelayModule::process` hands to `setDelay` of one line:
`transportBpm` is `transport.bpm`, `timeMs` the modulated time of the line. -/
def DelayModule.delaySamples (sampleRate transportBpm timeMs : ℚ) (sync : Bool)
    (div : Int) : ℚ :=
  let bpm := if transportBpm > 0 then transportBpm else 120
  let secondsPerBeat := 60 / bpm
  if sync then
    Juce.jlimit 1 (sampleRate * 2) (divisionToBeats div * secondsPerBeat * sampleRate)
  else
    Juce.jlimit 1 (sampleRate * 2) (timeMs * (1 / 1000) * sampleRate)

/-- The capacity of `delayL` and `delayR`, the constructor argument in
`Modules.h`; `DelayModule::prepare` does not change it. -/
def DelayModule.capacity : ℚ := 192000

/-- The value `DelayModule::process` passes to `delayL.setDelay` (and, with the
second line's settings, to `delayR.setDelay`), or `none` when the module is
disabled and the call returns before. -/
def DelayModule.setDelayArgument (enabled : Bool) (sampleRate transportBpm timeMs : ℚ)
    (sync : Bool) (div : Int) : Option ℚ :=
  if !enabled then none
  else some (DelayModule.delaySamples sampleRate transportBpm timeMs sync div)

/-- The rate in Hz of `TremoloModule::process` of The Rocket when
`tremolo_sync` is on: `transportBpm` is `transport.bpm`, `div` the rounded
`tremolo_div` parameter. -/
def TremoloModule.syncedRate (transportBpm : ℚ) (div : Int) : ℚ :=
  let bpm := if transportBpm > 0 then transportBpm else 120
  let quarterHz := bpm / 60
  let mult : ℚ :=
    if div = 0 then 1 / 4 else if div = 1 then 1 / 2 else if div = 2 then 1
    else if div = 3 then 2 else 4
  quarterHz * mult

/-- The rate `TremoloModule::process` uses: the modulated `tremolo_rate`
parameter, replaced by the synced rate when `tremolo_sync` is on. -/
def TremoloModule.rate (sync : Bool) (transportBpm : ℚ) (div : Int)
    (modulatedRate : ℚ) : ℚ :=
  if sync then TremoloModule.syncedRate transportBpm div else modulatedRate

/-- The struct `ModMatrix::Assignment` of The Rocket. -/
structure Assignment where
  paramID : String
  amount : ℚ := 0
  useRange : Bool := false
  min : ℚ := 0
  max : ℚ := 1
deriving DecidableEq, Repr

/-- The state of The Rocket's `ModMatrix`. `params` stands for the parameter
store: `apvts.getParameter (paramID)` followed by `getNormalisableRange ()`,
`none` for an identifier that is not registered. -/
structure ModMatrix where
  params : String → Option Juce.NormalisableRange
  macroValue : ℚ := 0
  assignments : List Assignment := []

/-- The method `ModMatrix::setMacroValue` of The Rocket. -/
def ModMatrix.setMacroValue (m : ModMatrix) (macroIn : ℚ) : ModMatrix :=
  { m with macroValue := Juce.jlimit 0 1 macroIn }

/-- The method `ModMatrix::addAssignment` of The Rocket. -/
def ModMatrix.addAssignment (m : ModMatrix) (a : Assignment) : ModMatrix :=
  { m with assignments := m.assignments ++ [a] }

/-- One iteration of the loop over the assignments in
`ModMatrix::getModulatedParamValue` of The Rocket: the new value of `norm`. -/
def modulationStep (range : Juce.NormalisableRange) (macroValue : ℚ) (paramID : String)
    (norm : ℚ) (a : Assignment) : ℚ :=
  if a.paramID ≠ paramID then norm
  else
    let depth := Juce.jlimit 0 1 |a.amount|
    let direction : ℚ := if a.amount ≥ 0 then 1 else -1
    if a.useRange then
      let minV := if direction < 0 then a.max else a.min
      let maxV := if direction < 0 then a.min else a.max
      let targetValue := Juce.jmap macroValue minV maxV
      let targetNorm := range.convertTo0to1 targetValue
      norm + depth * (targetNorm - norm)
    else
      Juce.jlimit 0 1 (norm + direction * depth * macroValue)

/-- The method `ModMatrix::getModulatedParamValue` of The Rocket. -/
def ModMatrix.getModulatedParamValue (m : ModMatrix) (paramID : String)
    (baseValue : ℚ) : ℚ :=
  match m.params paramID with
  | none => baseValue
  | some range =>
    let norm := range.convertTo0to1 baseValue
    range.convertFrom0to1
      (m.assignments.foldl (modulationStep range m.macroValue paramID) norm)

/-- The constant `kPresetPopGuardHalfSamples`. -/
def kPresetPopGuardHalfSamples : Int := 256

/-- The constant `kPresetPopGuardTotalSamples`. -/
def kPresetPopGuardTotalSamples : Int := kPresetPopGuardHalfSamples * 2

/-- The value `notifyPresetLoaded` stores in `presetPopGuardSamples`. -/
def notifyPresetLoaded : Int := kPresetPopGuardTotalSamples

/-- The gain `g` of one iteration of the pop-guard loop of `processBlock`,
from the value of `remaining` at that iteration. -/
def popGuardGain (remaining : Int) : ℚ :=
  let progressed : Int := kPresetPopGuardTotalSamples - remaining
  if progressed < kPresetPopGuardHalfSamples then
    1 - (progressed : ℚ) / (kPresetPopGuardHalfSamples : ℚ)
  else
    ((progressed - kPresetPopGuardHalfSamples : Int) : ℚ) / (kPresetPopGuardHalfSamples : ℚ)

/-- One iteration of the pop-guard loop at sample index `i`, on the pair of
`remaining` and the buffer. The loop condition `remaining > 0` is the test
here: once it fails the loop is over and the later indices change nothing. -/
def popGuardStep (s : Int × Juce.Buffer) (i : Nat) : Int × Juce.Buffer :=
  if s.1 > 0 then
    (s.1 - 1, s.2.map (fun channel => channel.set i (channel.getD i 0 * popGuardGain s.1)))
  else s

/-- The pop guard that closes `processBlock` of The Rocket: from the value of
`presetPopGuardSamples` and the buffer to the value stored back and the
buffer. -/
def popGuard (presetPopGuardSamples : Int) (buffer : Juce.Buffer) : Int × Juce.Buffer :=
  if presetPopGuardSamples > 0 then
    (List.range (Juce.numSamples buffer)).foldl popGuardStep (presetPopGuardSamples, buffer)
  else (presetPopGuardSamples, buffer)

/-- The pop guard over successive blocks: the counter that is left and the
blocks as they leave `processBlock`. -/
def popGuardBlocks (remaining : Int) : List Juce.Buffer → Int × List Juce.Buffer
  | [] => (remaining, [])
  | b :: bs =>
    let r := popGuard remaining b
    let rest := popGuardBlocks r.1 bs
    (rest.1, r.2 :: rest.2)

/-- The gain the specification states for the `k`-th sample after a preset
load, counted from 0: `1 - k / 256` below 256, `(k - 256) / 256` from 256 to
511, and no scaling, the factor 1, from 512 on. -/
def popGuardSpecGain (k : Nat) : ℚ :=
  if k < 256 then 1 - (k : ℚ) / 256
  else if k < 512 then ((k : ℚ) - 256) / 256
  else 1

/-- The state of The Rocket's `BitcrusherModule`; the defaults are what
`prepare` and `reset` set. -/
structure BitcrusherModule where
  downsampleCounter : Int := 0
  heldSampleL : ℚ := 0
  heldSampleR : ℚ := 0
deriving DecidableEq, Repr

/-- The method `BitcrusherModule::reset`. -/
def BitcrusherModule.reset (_m : BitcrusherModule) : BitcrusherModule :=
  { downsampleCounter := 0, heldSampleL := 0, heldSampleR := 0 }

/-- The lambda `crush` of `BitcrusherModule::process`. -/
def BitcrusherModule.crush (step s : ℚ) : ℚ :=
  (Int.floor (s / step) : ℚ) * step

/-- One iteration of the sample loop of `BitcrusherModule::process`:
`if (downsampleCounter++ >= hold)` compares the old counter. -/
def BitcrusherModule.sampleStep (hold : Int) (step : ℚ)
    (s : BitcrusherModule × Juce.Buffer) (i : Nat) : BitcrusherModule × Juce.Buffer :=
  let m : BitcrusherModule :=
    if s.1.downsampleCounter ≥ hold then
      let heldL := Juce.getSample s.2 0 i
      { downsampleCounter := 0
        heldSampleL := heldL
        heldSampleR := if s.2.length > 1 then Juce.getSample s.2 1 i else heldL }
    else
      { s.1 with downsampleCounter := s.1.downsampleCounter + 1 }
  let buffer1 := Juce.setSample s.2 0 i (BitcrusherModule.crush step m.heldSampleL)
  let buffer2 :=
    if s.2.length > 1 then
      Juce.setSample buffer1 1 i (BitcrusherModule.crush step m.heldSampleR)
    else buffer1
  (m, buffer2)

/-- The method `BitcrusherModule::process`: the new state and the buffer.
`bitDepth`, `downsample` and `effectiveMix` are the modulated values of
`bitcrusher_bits`, `bitcrusher_downsample` and of the mix. -/
def BitcrusherModule.process (fns : Juce.MathFns) (apvts : Apvts)
    (bitDepth downsample effectiveMix : ℚ) (m : BitcrusherModule)
    (buffer : Juce.Buffer) : BitcrusherModule × Juce.Buffer :=
  if !FxModule.isEnabled apvts "bitcrusher" then (m, buffer)
  else
    let dry := buffer
    let hold : Int := Juce.truncToInt (Juce.jlimit 1 32 (Juce.stdRound downsample : ℚ))
    let step : ℚ := 1 / fns.pow 2 bitDepth
    let out := (List.range (Juce.numSamples buffer)).foldl
      (BitcrusherModule.sampleStep hold step) (m, buffer)
    (out.1, applyMix out.2 dry effectiveMix)

/-- A `MODULE` child as `appendState` writes it. -/
def moduleNode (id : String) : Juce.ValueTree :=
  .node "MODULE" [("id", ⟨id, 0, false⟩)] []

/-- A saved state whose `FX_CHAIN` child lists the given identifiers. -/
def savedState (ids : List String) : Juce.ValueTree :=
  .node "STATE" [] [.node "FX_CHAIN" [] (ids.map moduleNode)]

/-- The factory-preset order `kOrder_Default` of `PresetManager.cpp`. -/
def kOrder_Default : List String :=
  ["lpf", "distortion", "delay", "reverb"]

end TheRocket

namespace DemoFxChain

/-- The blend `mixWet (buffer, dry, mix)` of `DemoFxChain.cpp` on finite
samples, as the sub-processors use it on their own wet signal. -/
def mixWet (buffer dry : Juce.Buffer) (mix : ℚ) : Juce.Buffer :=
  let mix := Juce.jlimit 0 1 mix
  if mix ≥ 999 / 1000 then buffer
  else
    buffer.mapIdx (fun ch wet =>
      wet.mapIdx (fun i w =>
        let d := Juce.getSample dry ch i
        d + mix * (w - d)))

/-- The helper `clampSafe (v, lo, hi)`. -/
def clampSafe (v lo hi : Juce.Fl) : Juce.Fl :=
  if !v.isFinite then lo else Juce.jlimitF lo hi v

/-- The helper `rhythmToBeats`. -/
def rhythmToBeats (idx : Int) : ℚ :=
  if idx = 0 then 4
  else if idx = 1 then 2
  else if idx = 2 then 1
  else if idx = 3 then 1 / 2
  else if idx = 4 then 1 / 4
  else 1

/-- The blend `mixWet (buffer, dry, mix)` of `DemoFxChain.cpp` in float
arithmetic, on samples that may be non-finite: every sample becomes
`d + mix * (wet - d)` unless `mix >= 0.999`. -/
def mixWetFl (buffer dry : Juce.FlBuffer) (mix : ℚ) : Juce.FlBuffer :=
  let mix := Juce.jlimit 0 1 mix
  if mix ≥ 999 / 1000 then buffer
  else
    buffer.mapIdx (fun ch wet =>
      wet.mapIdx (fun i w =>
        let d := Juce.getSampleFl dry ch i
        d.add ((Juce.Fl.finite mix).mul (w.sub d))))

/-- The method `DemoFxChain::process`. `amountStart` and `amountEnd` are the
values the smoothed Amount gives at the start and at the end of the block
(`getNextValue ()`, and `getCurrentValue ()` after `skip`). Between the copy
to `dry` and the final blend the buffer is processed in place (input gain, the
thirteen sub-processors with their freshly set parameters, output gain); that
processing is represented by the samples `wet ch i` it leaves in the buffer,
which may be non-finite floats, as may the samples of the input block. -/
def process (amountStart amountEnd : ℚ) (wet : Nat → Nat → Juce.Fl)
    (buffer : Juce.FlBuffer) : Juce.FlBuffer :=
  let dry := buffer
  let amount := Juce.jlimit 0 1 (1 / 2 * (amountStart + amountEnd))
  let processed := Juce.overwriteFl buffer wet
  mixWetFl processed dry amount

/-- The values `Comp::setParams` forwards to the `juce::dsp::Compressor`
(`setThreshold`, `setRatio`, `setAttack`, `setRelease`). -/
structure CompSettings where
  threshold : Juce.Fl
  ratio : Juce.Fl
  attack : Juce.Fl
  release : Juce.Fl
deriving DecidableEq, Repr

/-- The method `Comp::setParams`. -/
def Comp.setParams (thresholdDb ratio attackMs releaseMs : Juce.Fl) : CompSettings :=
  { threshold := thresholdDb
    ratio := clampSafe ratio (.finite 1) (.finite 20)
    attack := clampSafe attackMs (.finite (1 / 10)) (.finite 200)
    release := clampSafe releaseMs (.finite 10) (.finite 2000) }

/-- The values `DeEsser::setParams` forwards: the cutoff of the high-pass
coefficients and the settings of the compressor. -/
structure DeEsserSettings where
  freqHz : Juce.Fl
  comp : CompSettings
deriving DecidableEq, Repr

/-- The method `DeEsser::setParams`. -/
def DeEsser.setParams (freqHz thresholdDb : Juce.Fl) : DeEsserSettings :=
  { freqHz := clampSafe freqHz (.finite 1000) (.finite 12000)
    comp := { threshold := thresholdDb, ratio := .finite 6, attack := .finite 2,
              release := .finite 80 } }

/-- The parameter fields of `DemoFxChain::Delay` and its sample rate. -/
structure Delay where
  enabled : Bool := true
  sampleRate : ℚ := 44100
  type : Int := 0
  sync : Bool := false
  rhythm : Int := 2
  timeMs : ℚ := 250
  feedback : ℚ := 3 / 10
  mix : ℚ := 0
  hpHz : ℚ := 20
  lpHz : ℚ := 20000
  lfoRate : ℚ := 0
  lfoDepth : ℚ := 0
  phase : ℚ := 0
deriving DecidableEq, Repr

/-- The method `Delay::setParams`. -/
def Delay.setParams (d : Delay) (t : Int) (s : Bool) (r : Int)
    (tm fb m hp lp lr ld : Juce.Fl) : Delay :=
  { d with
    type := Juce.jlimitInt 0 2 t
    sync := s
    rhythm := Juce.jlimitInt 0 4 r
    timeMs := (clampSafe tm (.finite 1) (.finite 2000)).toRat
    feedback := (clampSafe fb (.finite 0) (.finite (95 / 100))).toRat
    mix := (clampSafe m (.finite 0) (.finite 1)).toRat
    hpHz := (clampSafe hp (.finite 20) (.finite 20000)).toRat
    lpHz := (clampSafe lp (.finite 20) (.finite 20000)).toRat
    lfoRate := (clampSafe lr (.finite 0) (.finite 20)).toRat
    lfoDepth := (clampSafe ld (.finite 0) (.finite 1)).toRat }

/-- The length `Delay::process` hands to `setDelay` of both lines, for a call
that gets past the early return. -/
def Delay.delaySamples (fns : Juce.MathFns) (d : Delay) (bpm : ℚ) : ℚ :=
  let sr := d.sampleRate
  let secondsPerBeat := 60 / (if bpm > 0 then bpm else 120)
  let baseSamples :=
    if d.sync then rhythmToBeats d.rhythm * secondsPerBeat * sr
    else d.timeMs * (1 / 1000) * sr
  let lfo :=
    if d.lfoRate > 0 ∧ d.lfoDepth > 0 then fns.sin d.phase * (1 / 2) + 1 / 2 else 0
  let mod := 1 + d.lfoDepth * (1 / 10) * (2 * lfo - 1)
  Juce.jlimit 1 (sr * 2) (baseSamples * mod)

/-- The capacity of the lines `dl` and `dr` of `DemoFxChain::Delay`, the
constructor argument in `DemoFxChain.h`; `Delay::prepare` does not change it. -/
def Delay.capacity : ℚ := 192000

/-- The value `Delay::process` passes to `dl.setDelay` and `dr.setDelay`, or
`none` when the call returns before reaching them. -/
def Delay.setDelayArgument (fns : Juce.MathFns) (d : Delay) (bpm : ℚ) : Option ℚ :=
  if !d.enabled || decide (d.mix ≤ 1 / 10000) then none
  else some (d.delaySamples fns bpm)

/-- The fields of `DemoFxChain::BitCrush`, with the defaults of the
declaration. -/
structure BitCrush where
  depth : ℚ := 0
  freq : ℚ := 1
  hard : ℚ := 0
  mix : ℚ := 0
  counter : Int := 0
  heldL : ℚ := 0
  heldR : ℚ := 0
deriving DecidableEq, Repr

/-- The method `BitCrush::reset`. -/
def BitCrush.reset (bc : BitCrush) : BitCrush :=
  { bc with counter := 0, heldL := 0, heldR := 0 }

/-- The method `BitCrush::setParams`. -/
def BitCrush.setParams (bc : BitCrush) (d f h m : Juce.Fl) : BitCrush :=
  { bc with
    depth := (clampSafe d (.finite 0) (.finite 1)).toRat
    freq := (clampSafe f (.finite 0) (.finite 1)).toRat
    hard := (clampSafe h (.finite 0) (.finite 1)).toRat
    mix := (clampSafe m (.finite 0) (.finite 1)).toRat }

/-- The quantised value `std::floor (s / step) * step` of the lambda `crush`. -/
def BitCrush.quantise (step s : ℚ) : ℚ :=
  (Int.floor (s / step) : ℚ) * step

/-- The lambda `crush` of `BitCrush::process`. -/
def BitCrush.crush (fns : Juce.MathFns) (step hard s : ℚ) : ℚ :=
  let q := BitCrush.quantise step s
  if hard > 1 / 2 then Juce.jlimit (-1) 1 q
  else fns.tanh (q * (3 / 2))

/-- The state update at the head of one loop iteration of `BitCrush::process`:
`if (counter++ >= hold)` compares the old counter; inside, the counter restarts
at 0 and the sample at index `i` is captured. -/
def BitCrush.capture (hold : Int) (bc : BitCrush) (buffer : Juce.Buffer) (i : Nat) :
    BitCrush :=
  if bc.counter ≥ hold then
    let heldL := Juce.getSample buffer 0 i
    { bc with
      counter := 0
      heldL := heldL
      heldR := if buffer.length > 1 then Juce.getSample buffer 1 i else heldL }
  else
    { bc with counter := bc.counter + 1 }

/-- One iteration of the sample loop of `BitCrush::process`. -/
def BitCrush.sampleStep (fns : Juce.MathFns) (hold : Int) (step : ℚ)
    (s : BitCrush × Juce.Buffer) (i : Nat) : BitCrush × Juce.Buffer :=
  let bc := BitCrush.capture hold s.1 s.2 i
  let buffer1 := Juce.setSample s.2 0 i (BitCrush.crush fns step bc.hard bc.heldL)
  let buffer2 :=
    if s.2.length > 1 then
      Juce.setSample buffer1 1 i (BitCrush.crush fns step bc.hard bc.heldR)
    else buffer1
  (bc, buffer2)

/-- The step size of `BitCrush::process`: `1 / pow (2, 16 - depth * 14)`. -/
def BitCrush.step (fns : Juce.MathFns) (bc : BitCrush) : ℚ :=
  1 / fns.pow 2 (16 - bc.depth * 14)

/-- The hold factor of `BitCrush::process`. -/
def BitCrush.hold (bc : BitCrush) : Int :=
  Juce.jlimitInt 1 32 (Juce.stdRound (1 + (1 - bc.freq) * 31))

/-- The sample loop of `BitCrush::process` over the first `n` indices. -/
def BitCrush.loop (fns : Juce.MathFns) (bc : BitCrush) (buffer : Juce.Buffer)
    (n : Nat) : BitCrush × Juce.Buffer :=
  (List.range n).foldl (BitCrush.sampleStep fns bc.hold (bc.step fns)) (bc, buffer)

/-- The method `BitCrush::process`: the new state and the buffer. -/
def BitCrush.process (fns : Juce.MathFns) (bc : BitCrush) (buffer : Juce.Buffer) :
    BitCrush × Juce.Buffer :=
  if bc.mix ≤ 1 / 10000 then (bc, buffer)
  else
    let localDry := buffer
    let out := BitCrush.loop fns bc buffer (Juce.numSamples buffer)
    (out.1, mixWet out.2 localDry bc.mix)

/-- The held sample of a channel: `heldL` for channel 0, `heldR` otherwise. -/
def BitCrush.heldAt (ch : Nat) (bc : BitCrush) : ℚ :=
  if ch = 0 then bc.heldL else bc.heldR

/-- A bit crusher just reset, with depth 1 (2 bits, step `1 / 4`), freq 1
(hold factor 1), hard mode on and mix 1. -/
def BitCrush.fullHard : BitCrush :=
  { depth := 1, freq := 1, hard := 1, mix := 1 }

/-- The method `DeEsser::process`. The duplicate `hf` is processed in place
twice by JUCE's DSP classes: the high-pass filters leave the samples `H ch i`
in it, then the compressor leaves the samples `C ch i`. The loop that closes
the method reads `hf` after both. -/
def DeEsser.process (enabled : Bool) (H C : Nat → Nat → ℚ) (buffer : Juce.Buffer) :
    Juce.Buffer :=
  if !enabled then buffer
  else
    let hf := Juce.overwrite (Juce.overwrite buffer H) C
    buffer.mapIdx (fun ch channel =>
      channel.mapIdx (fun i x =>
        let hfDelta := x - Juce.getSample hf ch i
        x - hfDelta))

/-- The fields of `DemoFxChain::PitchShifter`: the ring buffer by channel, the
positions and the parameters. -/
structure PitchShifter where
  enabled : Bool := false
  sampleRate : ℚ := 44100
  numChannels : Nat := 2
  ring : Juce.Buffer := []
  writePos : Int := 0
  ringSize : Int := 0
  semitones : ℚ := 0
  mix : ℚ := 0
  readPosA : ℚ := 0
  readPosB : ℚ := 0
  speed : ℚ := 1
deriving DecidableEq, Repr

/-- The method `PitchShifter::prepare`. -/
def PitchShifter.prepare (ps : PitchShifter) (sr : ℚ) (ch : Nat) : PitchShifter :=
  let ringSize := Juce.jlimitInt 2048 131072 (Juce.stdRound (sr * (12 / 100)))
  { ps with
    sampleRate := sr
    numChannels := ch
    ringSize := ringSize
    ring := List.replicate ch (List.replicate ringSize.toNat 0)
    writePos := 0
    readPosA := 0
    readPosB := (ringSize : ℚ) * (1 / 2)
    speed := 1 }

/-- The method `PitchShifter::reset`. -/
def PitchShifter.reset (ps : PitchShifter) : PitchShifter :=
  { ps with
    ring := ps.ring.map (fun channel => channel.map (fun _ => 0))
    writePos := 0
    readPosA := 0
    readPosB := (ps.ringSize : ℚ) * (1 / 2) }

/-- The method `PitchShifter::setParams`. -/
def PitchShifter.setParams (fns : Juce.MathFns) (ps : PitchShifter) (st m : Juce.Fl) :
    PitchShifter :=
  let semitones := (clampSafe st (.finite (-24)) (.finite 24)).toRat
  { ps with
    semitones := semitones
    mix := (clampSafe m (.finite 0) (.finite 1)).toRat
    speed := fns.pow 2 (semitones / 12) }

/-- The read `r[i]` of a ring channel at an `int` index (0 outside the ring,
where the C++ read is not defined). -/
def ringAt (r : List ℚ) (i : Int) : ℚ :=
  if 0 ≤ i then r.getD i.toNat 0 else 0

/-- The lambda `readSample` of `PitchShifter::process`: linear interpolation
in the ring. -/
def PitchShifter.readSample (ps : PitchShifter) (ch : Nat) (pos : ℚ) : ℚ :=
  let i0 : Int := Int.floor pos
  let i1 : Int := Int.tmod (i0 + 1) ps.ringSize
  let frac : ℚ := pos - (i0 : ℚ)
  let r := ps.ring.getD ch []
  ringAt r i0 + frac * (ringAt r i1 - ringAt r i0)

/-- One iteration of the channel loop inside the sample loop of
`PitchShifter::process`. -/
def PitchShifter.channelStep (wA wB norm : ℚ) (i : Nat)
    (s : PitchShifter × Juce.Buffer) (ch : Nat) : PitchShifter × Juce.Buffer :=
  let input := Juce.getSample s.2 ch i
  let ps := { s.1 with ring := Juce.setSample s.1.ring ch s.1.writePos.toNat input }
  let yA := ps.readSample ch ps.readPosA
  let yB := ps.readSample ch ps.readPosB
  let y := (wA * yA + wB * yB) * norm
  (ps, Juce.setSample s.2 ch i y)

/-- The advance of the write and read positions at the end of one iteration
of the sample loop, with the guard that moves a read head half a ring on when
it is within 32 samples of the write head. -/
def PitchShifter.advance (ps : PitchShifter) : PitchShifter :=
  let rs : ℚ := (ps.ringSize : ℚ)
  let writePos : Int := Int.tmod (ps.writePos + 1) ps.ringSize
  let a1 := ps.readPosA + ps.speed
  let b1 := ps.readPosB + ps.speed
  let a2 := if a1 ≥ rs then a1 - rs else a1
  let b2 := if b1 ≥ rs then b1 - rs else b1
  let a3 := if |(writePos : ℚ) - a2| < 32 then Juce.stdFmod (a2 + rs * (1 / 2)) rs else a2
  let b3 := if |(writePos : ℚ) - b2| < 32 then Juce.stdFmod (b2 + rs * (1 / 2)) rs else b2
  { ps with writePos := writePos, readPosA := a3, readPosB := b3 }

/-- One iteration of the sample loop of `PitchShifter::process`. -/
def PitchShifter.sampleStep (fns : Juce.MathFns) (s : PitchShifter × Juce.Buffer)
    (i : Nat) : PitchShifter × Juce.Buffer :=
  let ps := s.1
  let rs : ℚ := (ps.ringSize : ℚ)
  let aDist := Juce.stdFmod ((ps.writePos : ℚ) - ps.readPosA + rs) rs
  let bDist := Juce.stdFmod ((ps.writePos : ℚ) - ps.readPosB + rs) rs
  let xfadeA := Juce.jlimit 0 1 (aDist / (rs * (1 / 2)))
  let xfadeB := Juce.jlimit 0 1 (bDist / (rs * (1 / 2)))
  let wA := fns.sin (xfadeA * fns.pi)
  let wB := fns.sin (xfadeB * fns.pi)
  let norm := if wA + wB > 1 / 10000 then 1 / (wA + wB) else 1
  let out := (List.range s.2.length).foldl (PitchShifter.channelStep wA wB norm i) s
  (out.1.advance, out.2)

/-- The method `PitchShifter::process`: the new state and the buffer. -/
def PitchShifter.process (fns : Juce.MathFns) (ps : PitchShifter)
    (buffer : Juce.Buffer) : PitchShifter × Juce.Buffer :=
  if !ps.enabled || decide (ps.mix ≤ 1 / 10000) || decide (|ps.semitones| < 1 / 1000) then
    (ps, buffer)
  else
    let localDry := buffer
    let out := (List.range (Juce.numSamples buffer)).foldl
      (PitchShifter.sampleStep fns) (ps, buffer)
    (out.1, mixWet out.2 localDry ps.mix)

/-- The method `PitchShifter::setEnabled`. -/
def PitchShifter.setEnabled (ps : PitchShifter) (e : Bool) : PitchShifter :=
  { ps with enabled := e }

/-- The write position and the two read positions of a pitch shifter. -/
def PitchShifter.heads (ps : PitchShifter) : Int × ℚ × ℚ :=
  (ps.writePos, ps.readPosA, ps.readPosB)

/-- The position update of `PitchShifter.advance` as a function of the three
positions, for a ring size and a speed: `advance` run on a shifter that holds
these values. -/
def advanceHeads (ringSize : Int) (speed : ℚ) (h : Int × ℚ × ℚ) : Int × ℚ × ℚ :=
  (PitchShifter.advance
    { writePos := h.1, readPosA := h.2.1, readPosB := h.2.2,
      ringSize := ringSize, speed := speed }).heads

/-- A pitch shifter with its ring and its three positions replaced: the
fields that `PitchShifter::process` writes. -/
def PitchShifter.withRingAndHeads (ps : PitchShifter) (ring : Juce.Buffer)
    (h : Int × ℚ × ℚ) : PitchShifter :=
  { ps with ring := ring, writePos := h.1, readPosA := h.2.1, readPosB := h.2.2 }

/-- A mono pitch shifter prepared at 44100 Hz, enabled, and set one octave
down at mix 1. -/
def PitchShifter.octaveDown : PitchShifter :=
  ((PitchShifter.prepare {} 44100 1).setEnabled true).setParams Juce.exampleFns
    (.finite (-12)) (.finite 1)

/-- The shifter `octaveDown` after processing a block of 1786 samples, then
set one octave up at mix 1. -/
def PitchShifter.octaveUpAfterDown : PitchShifter :=
  (PitchShifter.octaveDown.process Juce.exampleFns [List.replicate 1786 0]).1.setParams
    Juce.exampleFns (.finite 12) (.finite 1)

/-- The position bounds of a pitch shifter: the write position and both read
positions lie in `[0, ringSize)`. -/
def PitchShifter.PositionsValid (ps : PitchShifter) : Prop :=
  (0 ≤ ps.writePos ∧ ps.writePos < ps.ringSize)
    ∧ (0 ≤ ps.readPosA ∧ ps.readPosA < ps.ringSize)
    ∧ (0 ≤ ps.readPosB ∧ ps.readPosB < ps.ringSize)

/-- Every channel of the ring holds `ringSize` samples. -/
def PitchShifter.RingSized (ps : PitchShifter) : Prop :=
  ∀ c ∈ ps.ring, (c.length : Int) = ps.ringSize

/-- The state of a pitch shifter between calls, once prepared: the ring size
lies in `[2048, 131072]`, the speed in `[1/4, 4]`, the positions inside the
ring, and the ring channels have the ring size. -/
def PitchShifter.WellFormed (ps : PitchShifter) : Prop :=
  (2048 ≤ ps.ringSize ∧ ps.ringSize ≤ 131072)
    ∧ (1 / 4 ≤ ps.speed ∧ ps.speed ≤ 4)
    ∧ ps.PositionsValid
    ∧ ps.RingSized

/-- The two ring indices `i0` and `i1` the lambda `readSample` reads at a
position are valid: inside `[0, ringSize)` and inside every ring channel. -/
def PitchShifter.IndicesValid (ps : PitchShifter) (pos : ℚ) : Prop :=
  let i0 : Int := Int.floor pos
  let i1 : Int := Int.tmod (i0 + 1) ps.ringSize
  (0 ≤ i0 ∧ i0 < ps.ringSize) ∧ (0 ≤ i1 ∧ i1 < ps.ringSize)
    ∧ ∀ c ∈ ps.ring, i0.toNat < c.length ∧ i1.toNat < c.length

/-- The circular distance of a read position from the write position as the
specification measures it: the smaller of `(writePos - readPos) mod ringSize`
and `(readPos - writePos) mod ringSize`, with `x mod n = x - n * floor (x / n)`. -/
def circularDistance (ringSize writePos : Int) (readPos : ℚ) : ℚ :=
  let rs : ℚ := (ringSize : ℚ)
  let d1 : ℚ := (writePos : ℚ) - readPos
  let d2 : ℚ := readPos - (writePos : ℚ)
  min (d1 - rs * (Int.floor (d1 / rs) : ℚ)) (d2 - rs * (Int.floor (d2 / rs) : ℚ))

end DemoFxChain

namespace RocketRemake

/-! ## The two loops of `setModuleOrder` -/

theorem foldl_validStep (newOrder v : List String) :
    newOrder.foldl validStep v
      = v ++ newOrder.filter (fun id => (findModuleById id).isSome) := by
  induction newOrder generalizing v with
  | nil => simp
  | cons id rest ih =>
    rw [List.foldl_cons, ih]
    by_cases h : (findModuleById id).isSome = true
    · simp [validStep, h]
    · simp [validStep, h]

theorem missingStep_of_new {v : List String} {e : ModuleEntry}
    (hk : e.kind = ModuleKind.Effect) (hc : e.id ∉ v) :
    missingStep v e = v ++ [e.id] := by
  simp [missingStep, hk, hc]

theorem missingStep_of_mem {v : List String} {e : ModuleEntry} (hc : e.id ∈ v) :
    missingStep v e = v := by
  simp [missingStep, hc]

theorem missingStep_of_generator {v : List String} {e : ModuleEntry}
    (hk : ¬ e.kind = ModuleKind.Effect) : missingStep v e = v := by
  simp [missingStep, hk]

theorem foldl_missingStep_fixed (ms : List ModuleEntry) (v : List String)
    (h : ∀ e ∈ ms, e.kind = ModuleKind.Effect → e.id ∈ v) :
    ms.foldl missingStep v = v := by
  induction ms with
  | nil => rfl
  | cons e rest ih =>
    have hstep : missingStep v e = v := by
      by_cases hk : e.kind = ModuleKind.Effect
      · exact missingStep_of_mem (h e (List.mem_cons_self _ _) hk)
      · exact missingStep_of_generator hk
    rw [List.foldl_cons, hstep]
    exact ih (fun e' he' => h e' (List.mem_cons_of_mem _ he'))

theorem mem_missingStep_of_mem {v : List String} {e : ModuleEntry} {x : String}
    (hx : x ∈ v) : x ∈ missingStep v e := by
  unfold missingStep
  split
  · exact List.mem_append_left _ hx
  · exact hx

theorem mem_foldl_missingStep_of_mem (ms : List ModuleEntry) {v : List String}
    {x : String} (hx : x ∈ v) : x ∈ ms.foldl missingStep v := by
  induction ms generalizing v with
  | nil => exact hx
  | cons e rest ih => exact ih (mem_missingStep_of_mem hx)

theorem foldl_missingStep_mem (ms : List ModuleEntry) (v : List String) :
    ∀ e ∈ ms, e.kind = ModuleKind.Effect → e.id ∈ ms.foldl missingStep v := by
  induction ms generalizing v with
  | nil => intro e he; cases he
  | cons e0 rest ih =>
    intro e he hk
    rw [List.foldl_cons]
    rcases List.mem_cons.1 he with rfl | he
    · apply mem_foldl_missingStep_of_mem
      by_cases hc : e.id ∈ v
      · rw [missingStep_of_mem hc]; exact hc
      · rw [missingStep_of_new hk hc]; simp
    · exact ih _ e he hk

theorem foldl_missingStep_sub (ms : List ModuleEntry) (v : List String) :
    ∀ x ∈ ms.foldl missingStep v,
      x ∈ v ∨ ∃ e ∈ ms, e.kind = ModuleKind.Effect ∧ e.id = x := by
  induction ms generalizing v with
  | nil => intro x hx; exact Or.inl hx
  | cons e0 rest ih =>
    intro x hx
    rw [List.foldl_cons] at hx
    rcases ih _ x hx with h | ⟨e, he, hk, rfl⟩
    · by_cases hk : e0.kind = ModuleKind.Effect
      · by_cases hc : e0.id ∈ v
        · rw [missingStep_of_mem hc] at h; exact Or.inl h
        · rw [missingStep_of_new hk hc] at h
          rcases List.mem_append.1 h with h | h
          · exact Or.inl h
          · exact Or.inr ⟨e0, List.mem_cons_self _ _, hk, (List.mem_singleton.1 h).symm⟩
      · rw [missingStep_of_generator hk] at h; exact Or.inl h
    · exact Or.inr ⟨e, List.mem_cons_of_mem _ he, hk, rfl⟩

theorem foldl_missingStep_nodup (ms : List ModuleEntry) (v : List String)
    (hnd : (ms.map ModuleEntry.id).Nodup) :
    ms.foldl missingStep v
      = v ++ ((ms.filter (fun e => decide (e.kind = ModuleKind.Effect))).map
                ModuleEntry.id).filter (fun id => !v.contains id) := by
  induction ms generalizing v with
  | nil => simp
  | cons e rest ih =>
    rw [List.map_cons, List.nodup_cons] at hnd
    rw [List.foldl_cons, ih _ hnd.2]
    by_cases hk : e.kind = ModuleKind.Effect
    · by_cases hc : e.id ∈ v
      · rw [missingStep_of_mem hc]
        simp [hk, hc, List.filter_cons]
      · have h1 : ((rest.filter (fun e => decide (e.kind = ModuleKind.Effect))).map
              ModuleEntry.id).filter (fun id => !(v ++ [e.id]).contains id)
            = ((rest.filter (fun e => decide (e.kind = ModuleKind.Effect))).map
                ModuleEntry.id).filter (fun id => !v.contains id) := by
          apply List.filter_congr
          intro x hx
          have hxe : x ≠ e.id := by
            rintro rfl
            rcases List.mem_map.1 hx with ⟨y, hy, hyx⟩
            exact hnd.1 (List.mem_map.2 ⟨y, (List.mem_filter.1 hy).1, hyx⟩)
          simp [hxe]
        have h2 : (((e :: rest).filter (fun e => decide (e.kind = ModuleKind.Effect))).map
              ModuleEntry.id).filter (fun id => !v.contains id)
            = e.id :: ((rest.filter (fun e => decide (e.kind = ModuleKind.Effect))).map
                ModuleEntry.id).filter (fun id => !v.contains id) := by
          simp [List.filter_cons, hk, hc]
        rw [missingStep_of_new hk hc, h1, h2]
        simp
    · rw [missingStep_of_generator hk]
      simp [hk, List.filter_cons]

/-! ## `moveModule` -/

theorem moveModule_of_out_of_range (c : FxChain) (fromIndex toIndex : Int)
    (h : fromIndex < 0 ∨ (c.order.length : Int) ≤ fromIndex
          ∨ toIndex < 0 ∨ (c.order.length : Int) ≤ toIndex) :
    c.moveModule fromIndex toIndex = c := by
  have h' : Juce.isPositiveAndBelow fromIndex c.order.length = false
      ∨ Juce.isPositiveAndBelow toIndex c.order.length = false := by
    rcases h with h | h | h | h
    · left; simp [Juce.isPositiveAndBelow]; intro h0; omega
    · left; simp [Juce.isPositiveAndBelow]; intro _; omega
    · right; simp [Juce.isPositiveAndBelow]; intro h0; omega
    · right; simp [Juce.isPositiveAndBelow]; intro _; omega
  unfold FxChain.moveModule
  rcases h' with h' | h' <;> simp [h']

theorem moveModule_in_range (c : FxChain) (f t : Nat)
    (hf : f < c.order.length) (ht : t < c.order.length) (hne : f ≠ t) :
    (c.moveModule (f : Int) (t : Int)).order
      = (c.order.eraseIdx f).insertIdx t c.order[f] := by
  have h1 : Juce.isPositiveAndBelow (f : Int) c.order.length = true := by
    simp [Juce.isPositiveAndBelow, hf]
  have h2 : Juce.isPositiveAndBelow (t : Int) c.order.length = true := by
    simp [Juce.isPositiveAndBelow, ht]
  have h3 : ((f : Int) == (t : Int)) = false := by
    simp [hne]
  have hlen : (c.order.eraseIdx f).length = c.order.length - 1 := by
    rw [List.length_eraseIdx]; simp [hf]
  have h4 : (decide ((0 : Int) ≤ (t : Int))
      && decide ((t : Int) ≤ ((c.order.eraseIdx f).length : Int))) = true := by
    simp [hlen]; omega
  simp only [FxChain.moveModule, h1, h2, h3, Bool.not_true, Bool.or_self, Bool.false_eq_true,
    if_false, Juce.stringAt, Juce.remove, Juce.insert, if_true, Int.toNat_ofNat, h4]
  rw [List.getD_eq_getElem _ _ hf]

theorem moveModule_perm (c : FxChain) (fromIndex toIndex : Int) :
    (c.moveModule fromIndex toIndex).order.Perm c.order := by
  by_cases h : fromIndex < 0 ∨ (c.order.length : Int) ≤ fromIndex
          ∨ toIndex < 0 ∨ (c.order.length : Int) ≤ toIndex
  · rw [moveModule_of_out_of_range c _ _ h]
  · have hf0 : 0 ≤ fromIndex := by omega
    have ht0 : 0 ≤ toIndex := by omega
    obtain ⟨f, rfl⟩ := Int.eq_ofNat_of_zero_le hf0
    obtain ⟨t, rfl⟩ := Int.eq_ofNat_of_zero_le ht0
    have hf : f < c.order.length := by omega
    have ht : t < c.order.length := by omega
    by_cases hne : f = t
    · subst hne
      simp [FxChain.moveModule]
    · rw [moveModule_in_range c f t hf ht hne]
      have hlen : (c.order.eraseIdx f).length = c.order.length - 1 := by
        rw [List.length_eraseIdx]; simp [hf]
      refine (List.perm_insertIdx _ _ (by omega)).trans ?_
      rw [List.eraseIdx_eq_take_drop_succ]
      refine List.perm_middle.symm.trans ?_
      rw [← List.drop_eq_getElem_cons hf, List.take_append_drop]

/-! ## The chain order of `RocketRemake` -/

theorem effectIds_nodup : effectIds.Nodup := by decide

theorem modules_ids_nodup : (modules.map ModuleEntry.id).Nodup := by decide

theorem modules_effect_ids :
    (modules.filter (fun e => decide (e.kind = ModuleKind.Effect))).map ModuleEntry.id
      = effectIds := by decide

theorem findModuleById_isSome_iff (id : String) :
    (findModuleById id).isSome = true ↔ ∃ e ∈ modules, e.id = id := by
  simp [findModuleById, List.find?_isSome]

theorem findModuleById_of_effect {id : String} (h : id ∈ effectIds) :
    (findModuleById id).isSome = true := by
  rw [findModuleById_isSome_iff]
  rw [← modules_effect_ids] at h
  rcases List.mem_map.1 h with ⟨e, he, rfl⟩
  exact ⟨e, (List.mem_filter.1 he).1, rfl⟩

theorem setModuleOrder_order (c0 : FxChain) (newOrder : List String) :
    (c0.setModuleOrder newOrder).order
      = modules.foldl missingStep (newOrder.foldl validStep []) := by
  simp only [FxChain.setModuleOrder]

theorem setModuleOrder_of_closed (c0 : FxChain) {order : List String}
    (h : Closed order) : (c0.setModuleOrder order).order = order := by
  have hv : order.foldl validStep [] = order := by
    rw [foldl_validStep, List.nil_append, List.filter_eq_self]
    exact h.1
  rw [setModuleOrder_order, hv]
  exact foldl_missingStep_fixed modules order h.2

theorem closed_setModuleOrder (c0 : FxChain) (candidate : List String) :
    Closed (c0.setModuleOrder candidate).order := by
  rw [setModuleOrder_order]
  constructor
  · intro id hid
    rcases foldl_missingStep_sub modules (candidate.foldl validStep []) id hid with
      h | ⟨e, he, _, rfl⟩
    · rw [foldl_validStep, List.nil_append] at h
      exact (List.mem_filter.1 h).2
    · exact (findModuleById_isSome_iff e.id).2 ⟨e, he, rfl⟩
  · exact foldl_missingStep_mem modules (candidate.foldl validStep [])

theorem closed_new : Closed FxChain.new.order := by
  constructor
  · intro id hid
    have : FxChain.new.order = effectIds := by decide
    rw [this] at hid
    exact findModuleById_of_effect hid
  · intro e he hk
    have : FxChain.new.order = effectIds := by decide
    rw [this, ← modules_effect_ids]
    exact List.mem_map.2 ⟨e, List.mem_filter.2 ⟨he, by simp [hk]⟩, rfl⟩

theorem closed_moveModule (c : FxChain) (fromIndex toIndex : Int)
    (h : Closed c.order) : Closed (c.moveModule fromIndex toIndex).order := by
  have hp := moveModule_perm c fromIndex toIndex
  exact ⟨fun id hid => h.1 id (hp.mem_iff.1 hid),
    fun e he hk => hp.mem_iff.2 (h.2 e he hk)⟩

theorem closed_run (ops : List ChainOp) (c : FxChain) (h : Closed c.order) :
    Closed (c.run ops).order := by
  induction ops generalizing c with
  | nil => exact h
  | cons op rest ih =>
    apply ih
    cases op with
    | setOrder candidate => exact closed_setModuleOrder c candidate
    | move fromIndex toIndex => exact closed_moveModule c _ _ h

theorem filter_eq_singleton {l : List String} {p : String → Bool} {x : String}
    (hnd : l.Nodup) (hx : x ∈ l) (hp : ∀ y ∈ l, p y = true ↔ y = x) :
    l.filter p = [x] := by
  have h1 : l.filter p = l.filter (fun y => y == x) := by
    apply List.filter_congr
    intro y hy
    by_cases hyx : y = x
    · simp [hyx, (hp x hx).2 rfl]
    · have : p y = false := by
        cases hpy : p y
        · rfl
        · exact absurd ((hp y hy).1 hpy) hyx
      simp [hyx, this]
  rw [h1, List.filter_beq, List.count_eq_one_of_mem hnd hx]
  rfl

/-- Claim C1, evaluated on the code: `setModuleOrder` keeps every identifier
that `findModuleById` finds, so a candidate naming the generator `noisegen`
leaves a generator identifier in the order (thirteen entries, not a
permutation of the twelve effect identifiers), and a candidate repeating
`reverb` leaves it twice in the order; `moveModule` does not repair either. -/
theorem setModuleOrder_keeps_generator_and_repeats :
    (FxChain.new.setModuleOrder ["noisegen"]).order = "noisegen" :: effectIds
      ∧ ¬ (FxChain.new.setModuleOrder ["noisegen"]).order.Perm effectIds
      ∧ (FxChain.new.setModuleOrder ["reverb", "reverb"]).order.count "reverb" = 2
      ∧ ((FxChain.new.setModuleOrder ["noisegen"]).moveModule 0 12).order
          = effectIds ++ ["noisegen"] := by
  refine ⟨by decide, ?_, by decide, by decide⟩
  intro h
  have := h.length_eq
  revert this
  decide

/-- Claim C2: for a duplicate-free candidate of effect identifiers,
`setModuleOrder` yields the candidate followed by the effect identifiers absent
from it, in construction order, and the result is a permutation of the effect
identifiers; when exactly one effect identifier `x` is missing, the result is
the candidate followed by `x`, which occurs once, as the last entry. -/
theorem setModuleOrder_appends_missing (c0 : FxChain) (candidate : List String)
    (hnd : candidate.Nodup) (heff : ∀ id ∈ candidate, id ∈ effectIds) :
    (c0.setModuleOrder candidate).order
        = candidate ++ effectIds.filter (fun id => !candidate.contains id)
      ∧ (c0.setModuleOrder candidate).order.Perm effectIds
      ∧ ∀ x, x ∈ effectIds → x ∉ candidate →
          (∀ y ∈ effectIds, y ≠ x → y ∈ candidate) →
          (c0.setModuleOrder candidate).order = candidate ++ [x]
            ∧ (c0.setModuleOrder candidate).order.count x = 1
            ∧ (c0.setModuleOrder candidate).order.getLast? = some x := by
  have hv : candidate.foldl validStep [] = candidate := by
    rw [foldl_validStep, List.nil_append, List.filter_eq_self]
    exact fun id hid => findModuleById_of_effect (heff id hid)
  have horder : (c0.setModuleOrder candidate).order
      = candidate ++ effectIds.filter (fun id => !candidate.contains id) := by
    rw [setModuleOrder_order, hv, foldl_missingStep_nodup modules candidate modules_ids_nodup,
      modules_effect_ids]
  refine ⟨horder, ?_, ?_⟩
  · rw [horder]
    have hnd2 : (candidate ++ effectIds.filter (fun id => !candidate.contains id)).Nodup := by
      refine List.Nodup.append hnd (effectIds_nodup.filter _) ?_
      intro a ha hb
      have := (List.mem_filter.1 hb).2
      simp [ha] at this
    refine (List.perm_ext_iff_of_nodup hnd2 effectIds_nodup).2 ?_
    intro a
    constructor
    · intro ha
      rcases List.mem_append.1 ha with ha | ha
      · exact heff a ha
      · exact (List.mem_filter.1 ha).1
    · intro ha
      by_cases hc : a ∈ candidate
      · exact List.mem_append_left _ hc
      · exact List.mem_append_right _ (List.mem_filter.2 ⟨ha, by simp [hc]⟩)
  · intro x hx hxc hall
    have hf : effectIds.filter (fun id => !candidate.contains id) = [x] := by
      apply filter_eq_singleton effectIds_nodup hx
      intro y hy
      constructor
      · intro hy2
        by_contra hne
        have := hall y hy hne
        simp [this] at hy2
      · rintro rfl
        simp [hxc]
    rw [horder, hf]
    refine ⟨rfl, ?_, List.getLast?_concat _⟩
    rw [List.count_append, List.count_eq_zero_of_not_mem hxc]
    simp

/-- Witness of C2: the default order without `ringmod`, moved around. -/
theorem setModuleOrder_appends_missing_witness :
    (FxChain.new.setModuleOrder ["eq", "reverb", "delay1", "delay2", "filter_lp",
        "filter_hp", "flanger", "phaser", "bitcrush", "distortion", "tremolo"]).order
      = ["eq", "reverb", "delay1", "delay2", "filter_lp", "filter_hp", "flanger",
          "phaser", "bitcrush", "distortion", "tremolo"] ++ ["ringmod"] :=
  ((setModuleOrder_appends_missing FxChain.new
      ["eq", "reverb", "delay1", "delay2", "filter_lp", "filter_hp", "flanger",
        "phaser", "bitcrush", "distortion", "tremolo"]
      (by decide) (by decide)).2.2 "ringmod" (by decide) (by decide) (by decide)).1

/-- Claim C3: `setModuleOrder` is idempotent. Feeding the order produced by
`setModuleOrder candidate` back through `setModuleOrder (getModuleOrder ())`
leaves it as it is, for every candidate; and the same holds in every state
reached from the constructor by `setModuleOrder` and `moveModule` calls. -/
theorem setModuleOrder_getModuleOrder_idempotent :
    (∀ (c0 : FxChain) (candidate : List String),
        ((c0.setModuleOrder candidate).setModuleOrder
            (c0.setModuleOrder candidate).getModuleOrder)
          = c0.setModuleOrder candidate)
      ∧ ∀ ops : List ChainOp,
          (FxChain.new.run ops).setModuleOrder (FxChain.new.run ops).getModuleOrder
            = FxChain.new.run ops := by
  constructor
  · intro c0 candidate
    have h := setModuleOrder_of_closed (c0.setModuleOrder candidate)
      (closed_setModuleOrder c0 candidate)
    cases hc : c0.setModuleOrder candidate with
    | mk order =>
      rw [hc] at h
      cases hr : FxChain.setModuleOrder ⟨order⟩ (FxChain.getModuleOrder ⟨order⟩) with
      | mk order2 =>
        simp only [FxChain.getModuleOrder] at hr h
        rw [hr] at h
        simpa using h
  · intro ops
    have h := setModuleOrder_of_closed (FxChain.new.run ops) (closed_run ops _ closed_new)
    cases hc : FxChain.new.run ops with
    | mk order =>
      rw [hc] at h
      cases hr : FxChain.setModuleOrder ⟨order⟩ (FxChain.getModuleOrder ⟨order⟩) with
      | mk order2 =>
        simp only [FxChain.getModuleOrder] at hr h
        rw [hr] at h
        simpa using h

/-- Claim C4: `moveModule (from, to)` leaves the order unchanged when either
index is negative or not below the length; with both indices in range the
result has the same length, holds at index `to` the entry that was at index
`from`, coincides with the previous order once that entry is taken out of both
(the other entries keep their relative order), and is a permutation of the
previous order. -/
theorem moveModule_repositions_one_entry (c : FxChain) (fromIndex toIndex : Int) :
    ((fromIndex < 0 ∨ (c.order.length : Int) ≤ fromIndex
        ∨ toIndex < 0 ∨ (c.order.length : Int) ≤ toIndex) →
      c.moveModule fromIndex toIndex = c)
    ∧ (0 ≤ fromIndex → fromIndex < (c.order.length : Int) →
        0 ≤ toIndex → toIndex < (c.order.length : Int) →
        (c.moveModule fromIndex toIndex).order.length = c.order.length
          ∧ (∃ id, c.order[fromIndex.toNat]? = some id
              ∧ (c.moveModule fromIndex toIndex).order[toIndex.toNat]? = some id)
          ∧ (c.moveModule fromIndex toIndex).order.eraseIdx toIndex.toNat
              = c.order.eraseIdx fromIndex.toNat
          ∧ (c.moveModule fromIndex toIndex).order.Perm c.order) := by
  refine ⟨moveModule_of_out_of_range c fromIndex toIndex, ?_⟩
  intro hf0 hfn ht0 htn
  obtain ⟨f, rfl⟩ := Int.eq_ofNat_of_zero_le hf0
  obtain ⟨t, rfl⟩ := Int.eq_ofNat_of_zero_le ht0
  have hf : f < c.order.length := by omega
  have ht : t < c.order.length := by omega
  have hp := moveModule_perm c (f : Int) (t : Int)
  refine ⟨hp.length_eq, ?_, ?_, hp⟩
  · refine ⟨c.order[f], ?_, ?_⟩
    · simp [hf]
    · by_cases hne : f = t
      · subst hne
        simp [FxChain.moveModule, hf]
      · have hlen : (c.order.eraseIdx f).length = c.order.length - 1 := by
          rw [List.length_eraseIdx]; simp [hf]
        have hle : t ≤ (c.order.eraseIdx f).length := by omega
        have hlt : t < ((c.order.eraseIdx f).insertIdx t c.order[f]).length := by
          rw [List.length_insertIdx _ _ hle]; omega
        rw [moveModule_in_range c f t hf ht hne, Int.toNat_ofNat,
          List.getElem?_eq_getElem hlt, List.getElem_insertIdx_self _ _ _ hle]
  · by_cases hne : f = t
    · subst hne
      simp [FxChain.moveModule]
    · rw [moveModule_in_range c f t hf ht hne, Int.toNat_ofNat, Int.toNat_ofNat,
        List.eraseIdx_insertIdx]

/-- Witness of C4: moving the first entry of the default order to the end, and
an out-of-range move. -/
theorem moveModule_repositions_one_entry_witness :
    FxChain.new.moveModule 3 12 = FxChain.new
      ∧ (FxChain.new.moveModule 0 11).order.length = FxChain.new.order.length
      ∧ (FxChain.new.moveModule 0 11).order.eraseIdx (11 : Int).toNat
          = FxChain.new.order.eraseIdx (0 : Int).toNat :=
  ⟨(moveModule_repositions_one_entry FxChain.new 3 12).1 (by decide),
   ((moveModule_repositions_one_entry FxChain.new 0 11).2
      (by decide) (by decide) (by decide) (by decide)).1,
   ((moveModule_repositions_one_entry FxChain.new 0 11).2
      (by decide) (by decide) (by decide) (by decide)).2.2.1⟩

end RocketRemake

namespace TheRocket

/-! ## The chain order of The Rocket -/

theorem foldl_restoreStep (children : List Juce.ValueTree) (acc : List String) :
    children.foldl restoreStep acc = acc ++ children.map childId := by
  induction children generalizing acc with
  | nil => simp
  | cons child rest ih => simp [List.foldl_cons, ih, restoreStep]

/-- Counterexample to C5: restoring the four-entry factory order
`kOrder_Default` leaves exactly those four entries as the chain order, which is
not a permutation of the eleven effect identifiers (nothing is appended), and
`setModuleOrder` stores a list as it is given. -/
theorem restoreFromState_short_order_not_completed :
    (FxChain.new.restoreFromState (savedState kOrder_Default)).order
        = ["lpf", "distortion", "delay", "reverb"]
      ∧ ¬ (FxChain.new.restoreFromState (savedState kOrder_Default)).order.Perm effectIds
      ∧ ¬ (FxChain.new.setModuleOrder kOrder_Default).order.Perm effectIds := by
  refine ⟨by decide, ?_, ?_⟩
  · intro h
    have := h.length_eq
    revert this
    decide
  · intro h
    have := h.length_eq
    revert this
    decide

/-- Claim C5 as amended: in The Rocket `setModuleOrder` stores the list it is
given, and `restoreFromState` replaces the order by the `id` strings of the
children of the first `FX_CHAIN` child, in their order, when there is at least
one child, validating and appending nothing; without an `FX_CHAIN` child, or
with one that has no children, the chain is left as it was. -/
theorem restoreFromState_replaces_order (c : FxChain) (parent : Juce.ValueTree) :
    (∀ newOrder : List String, (c.setModuleOrder newOrder).order = newOrder)
      ∧ ((parent.getChildWithName "FX_CHAIN").isValid = true →
          (parent.getChildWithName "FX_CHAIN").children ≠ [] →
          (c.restoreFromState parent).order
            = (parent.getChildWithName "FX_CHAIN").children.map childId)
      ∧ (((parent.getChildWithName "FX_CHAIN").isValid = false
            ∨ (parent.getChildWithName "FX_CHAIN").children = []) →
          c.restoreFromState parent = c) := by
  refine ⟨fun _ => rfl, ?_, ?_⟩
  · intro hv hne
    have hlen : 0 < (parent.getChildWithName "FX_CHAIN").children.length :=
      List.length_pos.2 hne
    simp only [FxChain.restoreFromState, hv, foldl_restoreStep, List.nil_append]
    simp [hlen]
  · rintro (hv | hc)
    · simp [FxChain.restoreFromState, hv]
    · simp [FxChain.restoreFromState, hc]

/-- Witness of C5 as amended: the saved default factory order. -/
theorem restoreFromState_replaces_order_witness :
    (FxChain.new.restoreFromState (savedState kOrder_Default)).order
      = ((savedState kOrder_Default).getChildWithName "FX_CHAIN").children.map childId :=
  (restoreFromState_replaces_order FxChain.new (savedState kOrder_Default)).2.1
    (by decide) (fun h => absurd (congrArg List.length h) (by decide))

end TheRocket

namespace RocketRemake

/-! ## The modulation matrix of `RocketRemake` -/

theorem jlimit_unit_of_mem {v : ℚ} (h0 : 0 ≤ v) (h1 : v ≤ 1) : Juce.jlimit 0 1 v = v := by
  unfold Juce.jlimit
  rw [if_neg (not_lt.2 h0), if_neg (not_lt.2 h1)]

theorem modulatedLoop_first_match (mv base : ℚ) (a : Assignment)
    (pre post : List Assignment) (hpre : ∀ x ∈ pre, x.paramID ≠ a.paramID) :
    modulatedLoop mv a.paramID base (pre ++ a :: post) = modulatedBy mv a base := by
  induction pre with
  | nil => simp [modulatedLoop]
  | cons x rest ih =>
    have hx : x.paramID ≠ a.paramID := hpre x (List.mem_cons_self _ _)
    have ih' := ih (fun y hy => hpre y (List.mem_cons_of_mem _ hy))
    simp [modulatedLoop, hx, ih']

theorem removeMatching_eq (paramID : String) (i : Nat) (assignments : List Assignment)
    (hi : i ≤ assignments.length) :
    removeMatching paramID i assignments
      = (assignments.take i).filter (fun x => !(x.paramID == paramID))
          ++ assignments.drop i := by
  induction i generalizing assignments with
  | zero => simp [removeMatching]
  | succ i ih =>
    have hlt : i < assignments.length := hi
    have hget : assignments[i]? = some assignments[i] := List.getElem?_eq_getElem hlt
    have htake : assignments.take (i + 1) = assignments.take i ++ [assignments[i]] := by
      rw [List.take_succ, hget]; rfl
    have hrange : Juce.isPositiveAndBelow (i : Int) assignments.length = true := by
      simp [Juce.isPositiveAndBelow, hlt]
    simp only [removeMatching, hget]
    by_cases hm : assignments[i].paramID = paramID
    · have hlen : i ≤ (assignments.eraseIdx i).length := by
        rw [List.length_eraseIdx]; simp [hlt]; omega
      have ht : (assignments.eraseIdx i).take i = assignments.take i := by
        rw [List.eraseIdx_eq_take_drop_succ, List.take_append_of_le_length (by simp; omega)]
        simp [List.take_take]
      have hd : (assignments.eraseIdx i).drop i = assignments.drop (i + 1) := by
        rw [List.eraseIdx_eq_take_drop_succ, List.drop_append_of_le_length (by simp; omega)]
        have : (List.take i assignments).length = i := by simp; omega
        rw [List.drop_of_length_le (by omega)]
        simp
      simp only [hm, beq_self_eq_true, if_true, Juce.remove, hrange, Int.toNat_ofNat]
      rw [ih _ hlen, ht, hd, htake, List.filter_append]
      simp [hm]
    · have hb : (assignments[i].paramID == paramID) = false := by simpa using hm
      simp only [hb, Bool.false_eq_true, if_false]
      rw [ih _ (le_of_lt hlt), htake, List.filter_append, List.drop_eq_getElem_cons hlt]
      simp [hb]

theorem addAssignment_assignments (m : ModMatrix) (a : Assignment) :
    (m.addAssignment a).assignments
      = m.assignments.filter (fun x => !(x.paramID == a.paramID)) ++ [a] := by
  simp [ModMatrix.addAssignment, removeMatching_eq a.paramID _ _ (le_refl _)]

/-- Claim C6: with an empty assignment list `getModulatedParamValue (id, x)`
returns `x`, for every identifier, base value and macro value, whether the
macro value is held as it is or set through `setMacroValue`. -/
theorem getModulatedParamValue_without_assignments (macroValue : ℚ)
    (paramID : String) (x : ℚ) :
    (ModMatrix.mk macroValue []).getModulatedParamValue paramID x = x
      ∧ ((ModMatrix.mk 0 []).setMacroValue macroValue).getModulatedParamValue paramID x
          = x :=
  ⟨rfl, rfl⟩

/-- Claim C7: after `addAssignment (a)`, whatever the list held before, the
list is the previous list without the assignments for `a.paramID`, followed by
`a`: exactly one assignment targets `a.paramID`, it is `a` and it is the last
element, the assignments for other targets are the previous ones in their
previous order, and the macro value is untouched. -/
theorem addAssignment_replaces_target (m : ModMatrix) (a : Assignment) :
    (m.addAssignment a).assignments
        = m.assignments.filter (fun x => !(x.paramID == a.paramID)) ++ [a]
      ∧ (m.addAssignment a).assignments.filter (fun x => x.paramID == a.paramID) = [a]
      ∧ (m.addAssignment a).assignments.getLast? = some a
      ∧ (m.addAssignment a).assignments.filter (fun x => !(x.paramID == a.paramID))
          = m.assignments.filter (fun x => !(x.paramID == a.paramID))
      ∧ (m.addAssignment a).macroValue = m.macroValue := by
  refine ⟨addAssignment_assignments m a, ?_, ?_, ?_, rfl⟩
  · rw [addAssignment_assignments, List.filter_append, List.filter_filter]
    simp
  · rw [addAssignment_assignments]
    exact List.getLast?_concat _
  · rw [addAssignment_assignments, List.filter_append, List.filter_filter]
    simp

theorem onePerTarget_addAssignment (m : ModMatrix) (a : Assignment)
    (h : OnePerTarget m.assignments) : OnePerTarget (m.addAssignment a).assignments := by
  unfold OnePerTarget at *
  rw [addAssignment_assignments, List.map_append]
  refine List.Nodup.append (h.sublist ((List.filter_sublist _).map _)) (by simp) ?_
  intro p hp hq
  rcases List.mem_map.1 hp with ⟨x, hx, rfl⟩
  have hx2 := (List.mem_filter.1 hx).2
  have hq2 : x.paramID = a.paramID := by simpa using hq
  simp [hq2] at hx2

theorem onePerTarget_removeAssignment (m : ModMatrix) (index : Int)
    (h : OnePerTarget m.assignments) :
    OnePerTarget (m.removeAssignment index).assignments := by
  unfold OnePerTarget at *
  unfold ModMatrix.removeAssignment
  split
  · rename_i hr
    simp only [Juce.remove, hr, if_true]
    exact h.sublist ((List.eraseIdx_sublist _ _).map _)
  · exact h

theorem onePerTarget_clear (m : ModMatrix) : OnePerTarget m.clear.assignments := by
  simp [OnePerTarget, ModMatrix.clear]

/-- Claim C8, evaluated on the code: `restoreFromState` appends every
`ASSIGNMENT` child with `assignments.add`, without the removal `addAssignment`
performs, so a persisted `MODMATRIX` tree with two records for `reverb_mix`
leaves two assignments for that target in the list; the first one decides the
modulated value. -/
theorem restoreFromState_keeps_repeated_target :
    (((ModMatrix.mk 0 []).restoreFromState repeatedTargetState).assignments.map
        Assignment.paramID) = ["reverb_mix", "reverb_mix"]
      ∧ ¬ OnePerTarget ((ModMatrix.mk 0 []).restoreFromState repeatedTargetState).assignments
      ∧ ¬ OnePerTarget
          ((ModMatrix.mk 0 []).run [MatrixOp.restore repeatedTargetState]).assignments := by
  have h : (((ModMatrix.mk 0 []).restoreFromState repeatedTargetState).assignments.map
      Assignment.paramID) = ["reverb_mix", "reverb_mix"] := by decide
  refine ⟨h, ?_, ?_⟩
  · unfold OnePerTarget
    rw [h]
    decide
  · have hrun : (ModMatrix.mk 0 []).run [MatrixOp.restore repeatedTargetState]
        = (ModMatrix.mk 0 []).restoreFromState repeatedTargetState := rfl
    unfold OnePerTarget
    rw [hrun, h]
    decide

/-- Claim C9: for a ranged assignment with amount 1 that is the first one for
its target, and a macro value in `[0, 1]` set through `setMacroValue`,
`getModulatedParamValue` returns `min + m * (max - min)` whatever the base
value; with `min = 0`, `max = 1` and macro `1 / 2` the result is `1 / 2` for
every base value. -/
theorem ranged_full_depth_overrides_base :
    (∀ (a : Assignment) (pre post : List Assignment) (previous mv base : ℚ),
        (∀ x ∈ pre, x.paramID ≠ a.paramID) → a.useRange = true → a.amount = 1 →
        0 ≤ mv → mv ≤ 1 →
        ((ModMatrix.mk previous (pre ++ a :: post)).setMacroValue
            mv).getModulatedParamValue a.paramID base
          = a.min + mv * (a.max - a.min))
      ∧ ∀ (paramID : String) (base : ℚ),
          ((ModMatrix.mk 0 [Assignment.mk paramID 1 true 0 1]).setMacroValue
            (1 / 2)).getModulatedParamValue paramID base = 1 / 2 := by
  have key : ∀ (a : Assignment) (pre post : List Assignment) (previous mv base : ℚ),
      (∀ x ∈ pre, x.paramID ≠ a.paramID) → a.useRange = true → a.amount = 1 →
      0 ≤ mv → mv ≤ 1 →
      ((ModMatrix.mk previous (pre ++ a :: post)).setMacroValue
          mv).getModulatedParamValue a.paramID base
        = a.min + mv * (a.max - a.min) := by
    intro a pre post previous mv base hpre hr ha h0 h1
    simp only [ModMatrix.getModulatedParamValue, ModMatrix.setMacroValue,
      jlimit_unit_of_mem h0 h1]
    rw [modulatedLoop_first_match mv base a pre post hpre]
    simp [modulatedBy, hr, ha]
  refine ⟨key, ?_⟩
  intro paramID base
  have := key (Assignment.mk paramID 1 true 0 1) [] [] 0 (1 / 2) base (by simp) rfl rfl
    (by norm_num) (by norm_num)
  simpa using this

/-- Witness of C9: a full-depth ranged assignment on `[1 / 5, 3 / 5]` behind a
direct assignment for another target, macro `1 / 2`, base value 7. -/
theorem ranged_full_depth_overrides_base_witness :
    ((ModMatrix.mk 0 ([Assignment.mk "eq_low_gain" (1 / 4) false 0 1]
          ++ Assignment.mk "reverb_mix" 1 true (1 / 5) (3 / 5) :: [])).setMacroValue
        (1 / 2)).getModulatedParamValue "reverb_mix" 7
      = 1 / 5 + 1 / 2 * (3 / 5 - 1 / 5) :=
  ranged_full_depth_overrides_base.1 (Assignment.mk "reverb_mix" 1 true (1 / 5) (3 / 5))
    [Assignment.mk "eq_low_gain" (1 / 4) false 0 1] [] 0 (1 / 2) 7
    (by decide) rfl rfl (by norm_num) (by norm_num)

/-- Counterexample to C10: with amount `1 / 2`, range `[0, 1]`, macro value 1
and base value 1 the code returns `1 / 2`, while blending the target
`T = 0 + 1 * (1 - 0) = 1` into the base by the depth gives
`1 + |1 / 2| * (T - 1) = 1`. -/
theorem ranged_half_depth_ignores_base :
    ((ModMatrix.mk 0 [Assignment.mk "reverb_mix" (1 / 2) true 0 1]).setMacroValue
        1).getModulatedParamValue "reverb_mix" 1 = 1 / 2
      ∧ ((ModMatrix.mk 0 [Assignment.mk "reverb_mix" (1 / 2) true 0 1]).setMacroValue
        1).getModulatedParamValue "reverb_mix" 1
          ≠ 1 + |(1 / 2 : ℚ)| * ((0 + 1 * (1 - 0)) - 1) := by
  have h : ((ModMatrix.mk 0 [Assignment.mk "reverb_mix" (1 / 2) true 0 1]).setMacroValue
      1).getModulatedParamValue "reverb_mix" 1 = 1 / 2 := by
    simp only [ModMatrix.getModulatedParamValue, ModMatrix.setMacroValue,
      jlimit_unit_of_mem (v := 1) (by norm_num) (by norm_num)]
    simp [modulatedLoop, modulatedBy]
  refine ⟨h, ?_⟩
  rw [h]
  norm_num

/-- Claim C10 as amended: for a ranged assignment with amount `a` that is the
first one for its target, a macro value `m` in `[0, 1]` and any base value,
`getModulatedParamValue` returns `min + (m * a) * (max - min)` when `a >= 0`
and `max + (m * |a|) * (min - max)` when `a < 0`: the depth scales the macro
position along the range and the base value does not enter the result. -/
theorem ranged_depth_scales_macro_position (a : Assignment)
    (pre post : List Assignment) (previous mv base : ℚ)
    (hpre : ∀ x ∈ pre, x.paramID ≠ a.paramID) (hr : a.useRange = true)
    (h0 : 0 ≤ mv) (h1 : mv ≤ 1) :
    (0 ≤ a.amount →
        ((ModMatrix.mk previous (pre ++ a :: post)).setMacroValue
            mv).getModulatedParamValue a.paramID base
          = a.min + (mv * a.amount) * (a.max - a.min))
      ∧ (a.amount < 0 →
        ((ModMatrix.mk previous (pre ++ a :: post)).setMacroValue
            mv).getModulatedParamValue a.paramID base
          = a.max + (mv * |a.amount|) * (a.min - a.max)) := by
  have hval : ((ModMatrix.mk previous (pre ++ a :: post)).setMacroValue
      mv).getModulatedParamValue a.paramID base = modulatedBy mv a base := by
    simp only [ModMatrix.getModulatedParamValue, ModMatrix.setMacroValue,
      jlimit_unit_of_mem h0 h1]
    exact modulatedLoop_first_match mv base a pre post hpre
  constructor
  · intro ha
    rw [hval]
    simp [modulatedBy, hr, ha]
  · intro ha
    rw [hval, abs_of_neg ha]
    simp [modulatedBy, hr, not_le.2 ha]

/-- Witness of C10 as amended: depth `-1 / 2` on the range `[0, 1]`, macro
value 1, base value 1. -/
theorem ranged_depth_scales_macro_position_witness :
    ((ModMatrix.mk 0 ([] ++ Assignment.mk "reverb_mix" (-1 / 2) true 0 1 :: [])).setMacroValue
        1).getModulatedParamValue "reverb_mix" 1
      = 1 + (1 * |(-1 / 2 : ℚ)|) * (0 - 1) :=
  (ranged_depth_scales_macro_position (Assignment.mk "reverb_mix" (-1 / 2) true 0 1)
    [] [] 0 1 1 (by simp) rfl (by norm_num) (by norm_num)).2 (by norm_num)

end RocketRemake

namespace RocketRemake

/-! ## Direct modulation, tempo sync and filter stages of `RocketRemake` -/

theorem getModulatedParamValue_first_match (a : Assignment) (pre post : List Assignment)
    (previous mv base : ℚ) (hpre : ∀ x ∈ pre, x.paramID ≠ a.paramID)
    (h0 : 0 ≤ mv) (h1 : mv ≤ 1) :
    ((ModMatrix.mk previous (pre ++ a :: post)).setMacroValue mv).getModulatedParamValue
        a.paramID base = modulatedBy mv a base := by
  simp only [ModMatrix.getModulatedParamValue, ModMatrix.setMacroValue,
    jlimit_unit_of_mem h0 h1]
  exact modulatedLoop_first_match mv base a pre post hpre

/-- Counterexample to C11: a direct assignment of amount 1 on `reverb_mix`
(valid range `[0, 1]`), macro value 1 and base value `4 / 5` give `9 / 5`, both
from `getModulatedParamValue` and from `getMix`; the value clamped to the range
would be 1. -/
theorem direct_offset_leaves_valid_range :
    ((ModMatrix.mk 0 [Assignment.mk "reverb_mix" 1 false 0 1]).setMacroValue
        1).getModulatedParamValue "reverb_mix" (4 / 5) = 9 / 5
      ∧ FxModule.getMix (reverbMixStore (4 / 5)) "reverb"
          ((ModMatrix.mk 0 [Assignment.mk "reverb_mix" 1 false 0 1]).setMacroValue 1)
        = 9 / 5
      ∧ (9 / 5 : ℚ) ≠ Juce.jlimit 0 1 (4 / 5 + 1 * 1)
      ∧ ¬ ((9 / 5 : ℚ) ≤ 1) := by
  have h : ((ModMatrix.mk 0 [Assignment.mk "reverb_mix" 1 false 0 1]).setMacroValue
      1).getModulatedParamValue "reverb_mix" (4 / 5) = 9 / 5 := by
    have := getModulatedParamValue_first_match (Assignment.mk "reverb_mix" 1 false 0 1)
      [] [] 0 1 (4 / 5) (by simp) (by norm_num) (by norm_num)
    simp only [List.nil_append] at this
    rw [this]
    norm_num [modulatedBy]
  have hid : "reverb" ++ "_mix" = "reverb_mix" := by decide
  refine ⟨h, ?_, ?_, by norm_num⟩
  · simp only [FxModule.getMix, hid, reverbMixStore, if_true]
    exact h
  · norm_num [Juce.jlimit]

/-- Claim C11 as amended: for a direct-offset assignment (`useRange = false`)
with amount `a` that is the first one for its target, a macro value `m` in
`[0, 1]` and a base value `b`, `getModulatedParamValue` returns exactly
`b + a * m`; nothing clamps it to the parameter's range, and `getMix` returns
that value for the `<id>_mix` parameter. -/
theorem direct_offset_is_unclamped_sum (a : Assignment) (pre post : List Assignment)
    (previous mv base : ℚ) (hpre : ∀ x ∈ pre, x.paramID ≠ a.paramID)
    (hr : a.useRange = false) (h0 : 0 ≤ mv) (h1 : mv ≤ 1) :
    ((ModMatrix.mk previous (pre ++ a :: post)).setMacroValue mv).getModulatedParamValue
        a.paramID base = base + a.amount * mv
      ∧ ∀ (apvts : Apvts) (moduleID : String),
          a.paramID = moduleID ++ "_mix" → apvts (moduleID ++ "_mix") = some base →
          FxModule.getMix apvts moduleID
              ((ModMatrix.mk previous (pre ++ a :: post)).setMacroValue mv)
            = base + a.amount * mv := by
  have h : ((ModMatrix.mk previous (pre ++ a :: post)).setMacroValue
      mv).getModulatedParamValue a.paramID base = base + a.amount * mv := by
    rw [getModulatedParamValue_first_match a pre post previous mv base hpre h0 h1]
    simp [modulatedBy, hr]
  refine ⟨h, ?_⟩
  intro apvts moduleID hid hp
  simp only [FxModule.getMix, hp]
  rw [← hid]
  exact h

/-- Witness of C11 as amended: amount `1 / 2` on `reverb_mix`, macro value 1,
base value `4 / 5`. -/
theorem direct_offset_is_unclamped_sum_witness :
    ((ModMatrix.mk 0 ([] ++ Assignment.mk "reverb_mix" (1 / 2) false 0 1
        :: [])).setMacroValue 1).getModulatedParamValue "reverb_mix" (4 / 5)
      = 4 / 5 + 1 / 2 * 1 :=
  (direct_offset_is_unclamped_sum (Assignment.mk "reverb_mix" (1 / 2) false 0 1) [] [] 0 1
    (4 / 5) (by simp) rfl (by norm_num) (by norm_num)).1

theorem rhythmBeats_two : rhythmBeats 2 = 1 / 4 := by
  simp [rhythmBeats, Juce.jlimitInt, rhythmValues]

theorem rhythmBeats_five : rhythmBeats 5 = 1 := by
  simp [rhythmBeats, Juce.jlimitInt, rhythmValues]

/-- Claim C13, evaluated on the code: the rhythm index 2 carries the label
`1/4`, and at 120 BPM and 48000 Hz the synced delay length before the clamp is
6000 samples, an eighth of the sample rate, not half of it (24000): the table
entry for the quarter note is `0.25` beat, where a quarter note is one beat. -/
theorem synced_delay_index_two_is_eighth :
    rhythmLabels.getD 2 "" = "1/4"
      ∧ DelayModule.delaySamplesUnclamped true 2 (1 / 4) { bpm := 120 } 48000 = 6000
      ∧ (6000 : ℚ) ≠ 1 / 2 * 48000 := by
  refine ⟨by decide, ?_, by norm_num⟩
  simp only [DelayModule.delaySamplesUnclamped, rhythmBeats_two]
  norm_num

/-- The synced delay length before the clamp, for a tempo `BPM > 0`: the
table entry of the clamped index times `60 / BPM` times the sample rate; at
120 BPM index 2 gives `sr / 8` and index 5 gives `sr / 2`. -/
theorem synced_delay_length_from_table (rhythm : Int) (timeL sr : ℚ)
    (transport : FxTransportInfo) (hbpm : 0 < transport.bpm) :
    DelayModule.delaySamplesUnclamped true rhythm timeL transport sr
        = rhythmBeats rhythm * (60 / transport.bpm) * sr
      ∧ (transport.bpm = 120 →
          DelayModule.delaySamplesUnclamped true 2 timeL transport sr = 1 / 8 * sr
            ∧ DelayModule.delaySamplesUnclamped true 5 timeL transport sr = 1 / 2 * sr) := by
  have h : ∀ r : Int, DelayModule.delaySamplesUnclamped true r timeL transport sr
      = rhythmBeats r * (60 / transport.bpm) * sr := by
    intro r
    simp [DelayModule.delaySamplesUnclamped, hbpm]
  refine ⟨h rhythm, ?_⟩
  intro h120
  rw [h 2, h 5, rhythmBeats_two, rhythmBeats_five, h120]
  constructor <;> ring

/-- Counterexample to C18: when the host reports the tempo 0, `processBlock`
stores 0 in the transport, and the synced delay and tremolo (rhythm index 5,
one beat) take their free-running values, `timeL * sr = 12000` samples and the
rate 4 Hz, not the values `24000` samples and 2 Hz of 120 BPM. -/
theorem zero_tempo_disables_sync :
    (processBlockTransport (some (some ⟨some 0, true, none⟩)) 48000).bpm = 0
      ∧ DelayModule.delaySamplesUnclamped true 5 (1 / 4)
          (processBlockTransport (some (some ⟨some 0, true, none⟩)) 48000) 48000 = 12000
      ∧ (12000 : ℚ) ≠ rhythmBeats 5 * (60 / 120) * 48000
      ∧ TremoloModule.frequency true 5 4
          (processBlockTransport (some (some ⟨some 0, true, none⟩)) 48000) = 4
      ∧ (4 : ℚ) ≠ 1 / (rhythmBeats 5 * (1 / 2)) := by
  have hb : (processBlockTransport (some (some ⟨some 0, true, none⟩)) 48000).bpm = 0 := rfl
  refine ⟨hb, ?_, ?_, ?_, ?_⟩
  · simp only [DelayModule.delaySamplesUnclamped, hb]
    norm_num
  · rw [rhythmBeats_five]; norm_num
  · simp only [TremoloModule.frequency, hb]
    norm_num
  · rw [rhythmBeats_five]; norm_num

theorem processBlockTransport_bpm (playHead : Option (Option PositionInfo)) (sr : ℚ) :
    (processBlockTransport playHead sr).bpm = (hostTempo playHead).getD 120 := by
  unfold processBlockTransport hostTempo
  rcases playHead with _ | _ | pos
  · rfl
  · rfl
  · rcases pos with ⟨bpm, playing, ppq⟩
    cases bpm <;> cases ppq <;> rfl

/-- Claim C18 as amended: when the host reports no tempo (no play head, no
position, or a position without tempo) the transport keeps the default 120
BPM, so a synced delay lasts `beats * (60 / 120) * sampleRate` samples and a
synced tremolo runs at `1 / (beats * 0.5)` Hz; when the host reports a tempo
that is not positive, that tempo is stored and the modules skip the synced
branch: the delay lasts `time * sampleRate` samples and the tremolo runs at its
rate parameter. -/
theorem tempo_default_and_sync_gate (playHead : Option (Option PositionInfo))
    (sr timeL rate : ℚ) (rhythm : Int) :
    (hostTempo playHead = none →
        (processBlockTransport playHead sr).bpm = 120
          ∧ DelayModule.delaySamplesUnclamped true rhythm timeL
              (processBlockTransport playHead sr) sr
            = rhythmBeats rhythm * (60 / 120) * sr
          ∧ TremoloModule.frequency true rhythm rate (processBlockTransport playHead sr)
            = 1 / (rhythmBeats rhythm * (1 / 2)))
      ∧ (∀ bpm : ℚ, hostTempo playHead = some bpm → bpm ≤ 0 →
          (processBlockTransport playHead sr).bpm = bpm
            ∧ DelayModule.delaySamplesUnclamped true rhythm timeL
                (processBlockTransport playHead sr) sr = timeL * sr
            ∧ TremoloModule.frequency true rhythm rate (processBlockTransport playHead sr)
              = rate) := by
  constructor
  · intro hnone
    have hb : (processBlockTransport playHead sr).bpm = 120 := by
      rw [processBlockTransport_bpm, hnone]; rfl
    refine ⟨hb, ?_, ?_⟩
    · simp only [DelayModule.delaySamplesUnclamped, hb]
      norm_num
    · simp only [TremoloModule.frequency, hb]
      norm_num
  · intro bpm hsome hle
    have hb : (processBlockTransport playHead sr).bpm = bpm := by
      rw [processBlockTransport_bpm, hsome]; rfl
    have hnot : ¬ bpm > 0 := not_lt.2 hle
    refine ⟨hb, ?_, ?_⟩
    · simp [DelayModule.delaySamplesUnclamped, hb, hnot]
    · simp [TremoloModule.frequency, hb, hnot]

/-- Witness of C18 as amended: no play head at 48000 Hz, rhythm index 5. -/
theorem tempo_default_and_sync_gate_witness :
    (processBlockTransport none 48000).bpm = 120
      ∧ DelayModule.delaySamplesUnclamped true 5 (1 / 4)
          (processBlockTransport none 48000) 48000
        = rhythmBeats 5 * (60 / 120) * 48000
      ∧ TremoloModule.frequency true 5 4 (processBlockTransport none 48000)
        = 1 / (rhythmBeats 5 * (1 / 2)) :=
  (tempo_default_and_sync_gate none 48000 (1 / 4) 4 5).1 rfl

end RocketRemake

namespace TheRocket

/-! ## Filter stages, module bypass and delay length of The Rocket -/

theorem stdRound_mono {x y : ℚ} (h : x ≤ y) : Juce.stdRound x ≤ Juce.stdRound y := by
  unfold Juce.stdRound
  by_cases hx : 0 ≤ x
  · have hy : 0 ≤ y := le_trans hx h
    rw [if_pos hx, if_pos hy]
    exact Int.floor_le_floor (by linarith)
  · by_cases hy : 0 ≤ y
    · rw [if_neg hx, if_pos hy]
      have h1 : (0 : Int) ≤ Int.floor (-x + 1 / 2) := Int.floor_nonneg.2 (by linarith)
      have h2 : (0 : Int) ≤ Int.floor (y + 1 / 2) := Int.floor_nonneg.2 (by linarith)
      omega
    · rw [if_neg hx, if_neg hy]
      have : Int.floor (-y + 1 / 2) ≤ Int.floor (-x + 1 / 2) :=
        Int.floor_le_floor (by linarith)
      omega

theorem jlimitInt_mem (lo hi v : Int) (h : lo ≤ hi) :
    lo ≤ Juce.jlimitInt lo hi v ∧ Juce.jlimitInt lo hi v ≤ hi := by
  unfold Juce.jlimitInt
  split
  · exact ⟨le_refl _, h⟩
  · split
    · exact ⟨h, le_refl _⟩
    · constructor <;> omega

theorem jlimitInt_mono (lo hi : Int) (hlh : lo ≤ hi) {v w : Int} (h : v ≤ w) :
    Juce.jlimitInt lo hi v ≤ Juce.jlimitInt lo hi w := by
  unfold Juce.jlimitInt
  split <;> split <;> (try split) <;> (try split) <;> omega

theorem stages_of_index (i : Int) :
    (if i = 0 then (1 : Int) else if i = 1 then 2 else if i = 2 then 4 else 16) ≥ 1
      ∧ (if i = 0 then (1 : Int) else if i = 1 then 2 else if i = 2 then 4 else 16) ≤ 16 := by
  split <;> (try split) <;> (try split) <;> omega

/-- Claim C14: in both variants the slope indices 0, 1, 2, 3 give 1, 2, 4, 16
cascaded stages, the count does not decrease from one of these indices to a
larger one, and for every slope value whatsoever the count lies between 1 and
16, the size of the filter bank (in The Rocket the count is non-decreasing in
the slope value over all values). -/
theorem filter_stage_counts :
    (RocketRemake.FilterModule.stages 0 = 1 ∧ RocketRemake.FilterModule.stages 1 = 2
        ∧ RocketRemake.FilterModule.stages 2 = 4 ∧ RocketRemake.FilterModule.stages 3 = 16)
      ∧ (∀ i j : Int, 0 ≤ i → i ≤ j → j ≤ 3 →
          RocketRemake.FilterModule.stages i ≤ RocketRemake.FilterModule.stages j)
      ∧ (∀ slope : Int, 1 ≤ RocketRemake.FilterModule.stages slope
          ∧ RocketRemake.FilterModule.stages slope ≤ RocketRemake.FilterModule.bankSize)
      ∧ (FilterModule.stages 0 = 1 ∧ FilterModule.stages 1 = 2
          ∧ FilterModule.stages 2 = 4 ∧ FilterModule.stages 3 = 16)
      ∧ (∀ x y : ℚ, x ≤ y → FilterModule.stages x ≤ FilterModule.stages y)
      ∧ (∀ slope : ℚ, 1 ≤ FilterModule.stages slope
          ∧ FilterModule.stages slope ≤ FilterModule.bankSize) := by
  refine ⟨⟨by decide, by decide, by decide, by decide⟩, ?_, ?_, ?_, ?_, ?_⟩
  · intro i j hi hij hj
    have hi' : i = 0 ∨ i = 1 ∨ i = 2 ∨ i = 3 := by omega
    have hj' : j = 0 ∨ j = 1 ∨ j = 2 ∨ j = 3 := by omega
    rcases hi' with rfl | rfl | rfl | rfl <;> rcases hj' with rfl | rfl | rfl | rfl <;>
      first
        | (exfalso; omega)
        | decide
  · intro slope
    unfold RocketRemake.FilterModule.stages RocketRemake.FilterModule.bankSize
    split <;> (try split) <;> (try split) <;> (try split) <;> omega
  · have r0 : Juce.stdRound 0 = 0 := by norm_num [Juce.stdRound]
    have r1 : Juce.stdRound 1 = 1 := by
      norm_num [Juce.stdRound, Int.floor_eq_iff]
    have r2 : Juce.stdRound 2 = 2 := by
      norm_num [Juce.stdRound, Int.floor_eq_iff]
    have r3 : Juce.stdRound 3 = 3 := by
      norm_num [Juce.stdRound, Int.floor_eq_iff]
    refine ⟨?_, ?_, ?_, ?_⟩
    · simp [FilterModule.stages, r0, Juce.jlimitInt]
    · simp [FilterModule.stages, r1, Juce.jlimitInt]
    · simp [FilterModule.stages, r2, Juce.jlimitInt]
    · simp [FilterModule.stages, r3, Juce.jlimitInt]
  · intro x y hxy
    have hm := jlimitInt_mono 0 3 (by norm_num) (stdRound_mono hxy)
    have hx := jlimitInt_mem 0 3 (Juce.stdRound x) (by norm_num)
    have hy := jlimitInt_mem 0 3 (Juce.stdRound y) (by norm_num)
    simp only [FilterModule.stages]
    generalize Juce.jlimitInt 0 3 (Juce.stdRound x) = a at hm hx ⊢
    generalize Juce.jlimitInt 0 3 (Juce.stdRound y) = b at hm hy ⊢
    have ha : a = 0 ∨ a = 1 ∨ a = 2 ∨ a = 3 := by omega
    have hb : b = 0 ∨ b = 1 ∨ b = 2 ∨ b = 3 := by omega
    rcases ha with rfl | rfl | rfl | rfl <;> rcases hb with rfl | rfl | rfl | rfl <;>
      first
        | (exfalso; omega)
        | decide
  · intro slope
    simp only [FilterModule.stages, FilterModule.bankSize]
    exact stages_of_index _

/-- Witness of C14: from index 1 to index 3 in `RocketRemake`, and from the
slope value `1 / 2` to `5 / 2` in The Rocket. -/
theorem filter_stage_counts_witness :
    RocketRemake.FilterModule.stages 1 ≤ RocketRemake.FilterModule.stages 3
      ∧ FilterModule.stages (1 / 2) ≤ FilterModule.stages (5 / 2) :=
  ⟨filter_stage_counts.2.1 1 3 (by decide) (by decide) (by decide),
   filter_stage_counts.2.2.2.2.1 (1 / 2) (5 / 2) (by norm_num)⟩

theorem getSample_eq_getElem (buffer : Juce.Buffer) (ch i : Nat)
    (hch : ch < buffer.length) (hi : i < buffer[ch].length) :
    Juce.getSample buffer ch i = buffer[ch][i] := by
  unfold Juce.getSample
  rw [List.getD_eq_getElem _ _ hch, List.getD_eq_getElem _ _ hi]

theorem blend_zero_restores_dry (buffer : Juce.Buffer) (wet : Nat → Nat → ℚ) :
    (Juce.overwrite buffer wet).mapIdx (fun ch w =>
        w.mapIdx (fun i x =>
          Juce.getSample buffer ch i + 0 * (x - Juce.getSample buffer ch i)))
      = buffer := by
  apply List.ext_getElem
  · simp [Juce.overwrite]
  · intro ch h1 h2
    rw [List.getElem_mapIdx]
    apply List.ext_getElem
    · simp [Juce.overwrite]
    · intro i h3 h4
      rw [List.getElem_mapIdx, getSample_eq_getElem buffer ch i h2 h4]
      ring

end TheRocket

namespace TheRocket

/-- Claim C12: in each effect module of The Rocket, when the `<id>_enabled`
parameter is off (not above 0.5) or the effective mix is exactly 0, `process`
leaves every sample of the buffer as it was, whatever the in-place processing
wrote before the final `applyMix` (exact arithmetic: `d + 0 * (wet - d) = d`). -/
theorem disabled_or_zero_mix_keeps_buffer (apvts : Apvts) (moduleID : String)
    (effectiveMix : ℚ) (wet : Nat → Nat → ℚ) (buffer : Juce.Buffer)
    (h : (∃ p, apvts (moduleID ++ "_enabled") = some p ∧ p ≤ 1 / 2) ∨ effectiveMix = 0) :
    effectProcess apvts moduleID effectiveMix wet buffer = buffer := by
  rcases h with ⟨p, hp, hle⟩ | hmix
  · have : FxModule.isEnabled apvts moduleID = false := by
      simp only [FxModule.isEnabled, hp]
      exact decide_eq_false (not_lt.2 hle)
    simp [effectProcess, this]
  · subst hmix
    unfold effectProcess
    split
    · rfl
    · have hlt : ¬ ((0 : ℚ) ≥ 999 / 1000) := by norm_num
      simp only [applyMix, hlt, if_false]
      exact blend_zero_restores_dry buffer wet

/-- Witness of C12: the reverb module with `reverb_enabled` at 0, and the
delay module enabled with mix 0, on a stereo block of two samples. -/
theorem disabled_or_zero_mix_keeps_buffer_witness :
    effectProcess (fun _ => some 0) "reverb" (1 / 2) (fun _ _ => 7) [[1, 2], [3, 4]]
        = [[1, 2], [3, 4]]
      ∧ effectProcess (fun _ => some 1) "delay" 0 (fun _ _ => 7) [[1, 2], [3, 4]]
        = [[1, 2], [3, 4]] :=
  ⟨disabled_or_zero_mix_keeps_buffer (fun _ => some 0) "reverb" (1 / 2) (fun _ _ => 7)
      [[1, 2], [3, 4]] (Or.inl ⟨0, rfl, by norm_num⟩),
   disabled_or_zero_mix_keeps_buffer (fun _ => some 1) "delay" 0 (fun _ _ => 7)
      [[1, 2], [3, 4]] (Or.inr rfl)⟩

end TheRocket

namespace DemoFxChain

/-! ## The demo chain: final blend, setters, pitch shifter and bit crusher -/

theorem clampSafe_finite (q lo hi : ℚ) :
    clampSafe (.finite q) (.finite lo) (.finite hi) = .finite (Juce.jlimit lo hi q) := by
  unfold clampSafe Juce.jlimitF Juce.jlimit
  simp only [Juce.Fl.isFinite, Bool.not_true, Bool.false_eq_true, if_false, Juce.Fl.lt,
    decide_eq_true_eq]
  split
  · rfl
  · split <;> rfl

theorem clampSafe_nonfinite (v lo hi : Juce.Fl) (h : v.isFinite = false) :
    clampSafe v lo hi = lo := by
  simp [clampSafe, h]

theorem getSampleFl_eq_getElem (buffer : Juce.FlBuffer) (ch i : Nat)
    (hch : ch < buffer.length) (hi : i < buffer[ch].length) :
    Juce.getSampleFl buffer ch i = buffer[ch][i] := by
  unfold Juce.getSampleFl
  rw [List.getD_eq_getElem _ _ hch, List.getD_eq_getElem _ _ hi]

theorem zero_amount_returns_finite_dry (wet : Nat → Nat → Juce.Fl) (buffer : Juce.FlBuffer)
    (hb : ∀ c ∈ buffer, ∀ x ∈ c, x.isFinite = true)
    (hw : ∀ ch i, (wet ch i).isFinite = true) :
    process 0 0 wet buffer = buffer := by
  have h0 : Juce.jlimit 0 1 (1 / 2 * ((0 : ℚ) + 0)) = 0 := by
    norm_num [Juce.jlimit]
  have h1 : Juce.jlimit 0 1 (0 : ℚ) = 0 := by norm_num [Juce.jlimit]
  have hlt : ¬ ((0 : ℚ) ≥ 999 / 1000) := by norm_num
  simp only [process, mixWetFl, h0, h1, hlt, if_false]
  apply List.ext_getElem
  · simp [Juce.overwriteFl]
  · intro ch h1 h2
    rw [List.getElem_mapIdx]
    apply List.ext_getElem
    · simp [Juce.overwriteFl]
    · intro i h3 h4
      rw [List.getElem_mapIdx, getSampleFl_eq_getElem buffer ch i h2 h4]
      have hd := hb _ (List.getElem_mem h2) _ (List.getElem_mem h4)
      simp only [Juce.overwriteFl, List.getElem_mapIdx]
      have hwi := hw ch i
      generalize buffer[ch][i] = d at hd
      generalize wet ch i = w at hwi
      cases d with
      | finite q =>
        cases w with
        | finite r => simp [Juce.Fl.add, Juce.Fl.mul, Juce.Fl.sub, Juce.Fl.neg]
        | nan => simp [Juce.Fl.isFinite] at hwi
        | negInf => simp [Juce.Fl.isFinite] at hwi
        | posInf => simp [Juce.Fl.isFinite] at hwi
      | nan => simp [Juce.Fl.isFinite] at hd
      | negInf => simp [Juce.Fl.isFinite] at hd
      | posInf => simp [Juce.Fl.isFinite] at hd

/-- Claim C19, evaluated on failing inputs, with the smoothed Amount 0 at the
start and at the end of the block. A mono block holding the sample 1
whose processing left `+Inf` in the buffer comes out as NaN, not as 1; so does
one whose processing left NaN; and a block holding `+Inf` that the processing
left as it was comes out as NaN, not as `+Inf`: the final blend computes
`d + 0 * (wet - d)` for every sample, and `0 * Inf` and `Inf - Inf` are NaN. -/
theorem zero_amount_leaks_nonfinite_wet :
    process 0 0 (fun _ _ => .posInf) [[.finite 1]] = [[.nan]]
      ∧ process 0 0 (fun _ _ => .nan) [[.finite 1]] = [[.nan]]
      ∧ process 0 0 (fun _ _ => .posInf) [[.posInf]] = [[.nan]]
      ∧ ([[.nan]] : Juce.FlBuffer) ≠ [[.finite 1]]
      ∧ ([[.nan]] : Juce.FlBuffer) ≠ [[.posInf]] := by
  have h0 : Juce.jlimit 0 1 (1 / 2 * ((0 : ℚ) + 0)) = 0 := by
    norm_num [Juce.jlimit]
  have h1 : Juce.jlimit 0 1 (0 : ℚ) = 0 := by norm_num [Juce.jlimit]
  have hlt : ¬ ((0 : ℚ) ≥ 999 / 1000) := by norm_num
  refine ⟨?_, ?_, ?_, by decide, by decide⟩
  · simp only [process, mixWetFl, h0, h1, hlt, if_false]
    simp [Juce.overwriteFl, Juce.getSampleFl, Juce.Fl.add, Juce.Fl.mul, Juce.Fl.sub,
      Juce.Fl.neg]
  · simp only [process, mixWetFl, h0, h1, hlt, if_false]
    simp [Juce.overwriteFl, Juce.getSampleFl, Juce.Fl.add, Juce.Fl.mul, Juce.Fl.sub,
      Juce.Fl.neg]
  · simp only [process, mixWetFl, h0, h1, hlt, if_false]
    simp [Juce.overwriteFl, Juce.getSampleFl, Juce.Fl.add, Juce.Fl.mul, Juce.Fl.sub,
      Juce.Fl.neg]

/-- Claim C17, evaluated on the code: `Comp::setParams` passes `thresholdDb` to
`setThreshold` as it is, so a NaN threshold reaches the compressor while the
ratio, attack and release next to it are clamped; `DeEsser::setParams` does
the same with its threshold, here `+Inf`. -/
theorem setParams_forwards_nonfinite_threshold :
    (Comp.setParams .nan (.finite 4) (.finite 10) (.finite 100)).threshold = .nan
      ∧ (Comp.setParams .nan (.finite 4) (.finite 10) (.finite 100)).threshold.isFinite
          = false
      ∧ (Comp.setParams .nan .nan .posInf .negInf).ratio = .finite 1
      ∧ (DeEsser.setParams (.finite 6000) .posInf).comp.threshold = .posInf
      ∧ (DeEsser.setParams (.finite 6000) .posInf).comp.threshold.isFinite = false :=
  ⟨rfl, rfl, rfl, rfl, rfl⟩

/-- Claim C16: after `setParams (0, m)`, for every mix argument and every
enabled flag, `PitchShifter::process` returns the buffer it was given and
leaves the shifter's state (ring, write position, read positions) as it was. -/
theorem zero_semitones_bypasses (fns : Juce.MathFns) (ps : PitchShifter) (m : Juce.Fl)
    (buffer : Juce.Buffer) :
    (ps.setParams fns (.finite 0) m).process fns buffer
      = (ps.setParams fns (.finite 0) m, buffer) := by
  have hs : (ps.setParams fns (.finite 0) m).semitones = 0 := by
    simp only [PitchShifter.setParams, clampSafe_finite]
    norm_num [Juce.jlimit, Juce.Fl.toRat]
  unfold PitchShifter.process
  rw [hs]
  have : decide (|(0 : ℚ)| < 1 / 1000) = true := by norm_num
  simp [this]

theorem jlimit_of_mem {lo hi v : ℚ} (h1 : lo ≤ v) (h2 : v ≤ hi) :
    Juce.jlimit lo hi v = v := by
  unfold Juce.jlimit
  rw [if_neg (not_lt.2 h1), if_neg (not_lt.2 h2)]

theorem jlimit_le_upper {lo hi : ℚ} (v : ℚ) (h : lo ≤ hi) : Juce.jlimit lo hi v ≤ hi := by
  unfold Juce.jlimit
  split
  · exact h
  · split
    · exact le_refl _
    · rename_i h2
      exact not_lt.1 h2

/-- Claim C20, evaluated on the code: at a sample rate of 192000 Hz an
unsynced time of 2000 ms makes The Rocket's `DelayModule::process` hand
`2 * sr = 384000` samples to `setDelay`, and `DemoFxChain::Delay::process`
does the same after `setParams` with that time; both exceed the capacity
192000 of the lines. -/
theorem delay_length_exceeds_capacity :
    TheRocket.DelayModule.setDelayArgument true 192000 120 2000 false 2 = some 384000
      ∧ TheRocket.DelayModule.capacity < 384000
      ∧ (({ sampleRate := 192000 } : Delay).setParams 0 false 2 (.finite 2000)
            (.finite (3 / 10)) (.finite 1) (.finite 20) (.finite 20000) (.finite 0)
            (.finite 0)).setDelayArgument Juce.exampleFns 120 = some 384000
      ∧ Delay.capacity < 384000 := by
  refine ⟨?_, by norm_num [TheRocket.DelayModule.capacity], ?_,
    by norm_num [Delay.capacity]⟩
  · simp only [TheRocket.DelayModule.setDelayArgument, TheRocket.DelayModule.delaySamples,
      Bool.not_true, Bool.false_eq_true, if_false]
    rw [jlimit_of_mem (by norm_num) (by norm_num)]
    norm_num
  · simp only [Delay.setDelayArgument, Delay.setParams, Delay.delaySamples,
      clampSafe_finite, Juce.Fl.toRat]
    rw [@jlimit_of_mem 1 2000 2000 (by norm_num) (by norm_num),
      @jlimit_of_mem 0 1 1 (by norm_num) (by norm_num),
      @jlimit_of_mem 0 20 0 (by norm_num) (by norm_num),
      @jlimit_of_mem 0 1 0 (by norm_num) (by norm_num)]
    norm_num [Juce.jlimit]

/-- The lengths handed to `setDelay` stay within the capacity 192000 whenever
the sample rate is at most 96000 Hz. -/
theorem delay_length_within_capacity_up_to_96k (sr bpm timeMs : ℚ) (sync : Bool)
    (div : Int) (h0 : 1 ≤ 2 * sr) (h : sr ≤ 96000) :
    TheRocket.DelayModule.delaySamples sr bpm timeMs sync div
      ≤ TheRocket.DelayModule.capacity := by
  have hb : sr * 2 ≤ 192000 := by linarith
  unfold TheRocket.DelayModule.delaySamples TheRocket.DelayModule.capacity
  cases sync
  · exact le_trans (jlimit_le_upper _ (by linarith)) hb
  · exact le_trans (jlimit_le_upper _ (by linarith)) hb

end DemoFxChain

namespace Juce

/-! ## Reading and writing buffer samples -/

theorem getD_set_channel (b : Juce.Buffer) (ch ch' : Nat) (c : List ℚ) :
    (b.set ch c).getD ch' [] = if ch = ch' ∧ ch < b.length then c else b.getD ch' [] := by
  simp only [List.getD_eq_getElem?_getD, List.getElem?_set]
  by_cases h : ch = ch'
  · subst h
    by_cases h2 : ch < b.length
    · simp [h2]
    · simp [h2, List.getElem?_eq_none (not_lt.1 h2)]
  · simp [h]

theorem length_setSample (b : Juce.Buffer) (ch i : Nat) (v : ℚ) :
    (Juce.setSample b ch i v).length = b.length := by
  simp [Juce.setSample]

theorem channel_length_setSample (b : Juce.Buffer) (ch i ch' : Nat) (v : ℚ) :
    ((Juce.setSample b ch i v).getD ch' []).length = (b.getD ch' []).length := by
  unfold Juce.setSample
  rw [getD_set_channel]
  split
  · rename_i h
    rw [List.length_set, h.1]
  · rfl

theorem getSample_setSample_self (b : Juce.Buffer) (ch i : Nat) (v : ℚ)
    (hch : ch < b.length) (hi : i < (b.getD ch []).length) :
    Juce.getSample (Juce.setSample b ch i v) ch i = v := by
  unfold Juce.getSample Juce.setSample
  rw [getD_set_channel, if_pos ⟨rfl, hch⟩]
  simp only [List.getD_eq_getElem?_getD, List.getElem?_set, if_true, List.length_set]
  rw [List.getD_eq_getElem?_getD] at hi
  simp [hi]

theorem getSample_setSample_ne (b : Juce.Buffer) (ch i ch' j : Nat) (v : ℚ)
    (h : ch' ≠ ch ∨ j ≠ i) :
    Juce.getSample (Juce.setSample b ch i v) ch' j = Juce.getSample b ch' j := by
  unfold Juce.getSample Juce.setSample
  rw [getD_set_channel]
  split
  · rename_i h2
    rcases h with h | h
    · exact absurd h2.1.symm h
    · rw [← h2.1]
      simp [List.getD_eq_getElem?_getD, List.getElem?_set, Ne.symm h]
  · rfl

end Juce

namespace DemoFxChain

/-! ## The sample loop of `BitCrush::process` -/

theorem capture_hard (hold : Int) (bc : BitCrush) (buffer : Juce.Buffer) (i : Nat) :
    (BitCrush.capture hold bc buffer i).hard = bc.hard := by
  unfold BitCrush.capture
  split <;> rfl

theorem sampleStep_length (fns : Juce.MathFns) (hold : Int) (step : ℚ)
    (s : BitCrush × Juce.Buffer) (i : Nat) :
    (BitCrush.sampleStep fns hold step s i).2.length = s.2.length := by
  unfold BitCrush.sampleStep
  simp only
  split <;> simp [Juce.length_setSample]

theorem sampleStep_channel_length (fns : Juce.MathFns) (hold : Int) (step : ℚ)
    (s : BitCrush × Juce.Buffer) (i ch : Nat) :
    ((BitCrush.sampleStep fns hold step s i).2.getD ch []).length
      = (s.2.getD ch []).length := by
  unfold BitCrush.sampleStep
  simp only
  split
  · rw [Juce.channel_length_setSample, Juce.channel_length_setSample]
  · rw [Juce.channel_length_setSample]

theorem sampleStep_getSample_ne (fns : Juce.MathFns) (hold : Int) (step : ℚ)
    (s : BitCrush × Juce.Buffer) (i ch j : Nat) (h : j ≠ i) :
    Juce.getSample (BitCrush.sampleStep fns hold step s i).2 ch j
      = Juce.getSample s.2 ch j := by
  unfold BitCrush.sampleStep
  simp only
  split
  · rw [Juce.getSample_setSample_ne _ _ _ _ _ _ (Or.inr h),
      Juce.getSample_setSample_ne _ _ _ _ _ _ (Or.inr h)]
  · rw [Juce.getSample_setSample_ne _ _ _ _ _ _ (Or.inr h)]

theorem sampleStep_getSample_self (fns : Juce.MathFns) (hold : Int) (step : ℚ)
    (s : BitCrush × Juce.Buffer) (i ch : Nat) (hch : ch < 2) (hlen : ch < s.2.length)
    (hi : i < (s.2.getD ch []).length) :
    Juce.getSample (BitCrush.sampleStep fns hold step s i).2 ch i
      = BitCrush.crush fns step s.1.hard
          (BitCrush.heldAt ch (BitCrush.capture hold s.1 s.2 i)) := by
  have hcases : ch = 0 ∨ ch = 1 := by omega
  unfold BitCrush.sampleStep
  simp only [capture_hard]
  rcases hcases with rfl | rfl
  · have h0 : Juce.getSample (Juce.setSample s.2 0 i
        (BitCrush.crush fns step s.1.hard (BitCrush.capture hold s.1 s.2 i).heldL)) 0 i
        = BitCrush.crush fns step s.1.hard (BitCrush.capture hold s.1 s.2 i).heldL :=
      Juce.getSample_setSample_self _ _ _ _ hlen hi
    split
    · rw [Juce.getSample_setSample_ne _ _ _ _ _ _ (Or.inl (by decide)), h0]
      simp [BitCrush.heldAt]
    · rw [h0]
      simp [BitCrush.heldAt]
  · rw [if_pos hlen]
    rw [Juce.getSample_setSample_self _ _ _ _
      (by rw [Juce.length_setSample]; exact hlen)
      (by rw [Juce.channel_length_setSample]; exact hi)]
    simp [BitCrush.heldAt]

theorem loop_succ (fns : Juce.MathFns) (bc : BitCrush) (buffer : Juce.Buffer) (n : Nat) :
    BitCrush.loop fns bc buffer (n + 1)
      = BitCrush.sampleStep fns bc.hold (bc.step fns) (BitCrush.loop fns bc buffer n) n := by
  simp [BitCrush.loop, List.range_succ, List.foldl_append]

theorem loop_hard (fns : Juce.MathFns) (bc : BitCrush) (buffer : Juce.Buffer) (n : Nat) :
    (BitCrush.loop fns bc buffer n).1.hard = bc.hard := by
  induction n with
  | zero => rfl
  | succ n ih =>
    rw [loop_succ]
    show (BitCrush.capture _ _ _ _).hard = _
    rw [capture_hard, ih]

theorem loop_length (fns : Juce.MathFns) (bc : BitCrush) (buffer : Juce.Buffer) (n : Nat) :
    (BitCrush.loop fns bc buffer n).2.length = buffer.length := by
  induction n with
  | zero => rfl
  | succ n ih => rw [loop_succ, sampleStep_length, ih]

theorem loop_channel_length (fns : Juce.MathFns) (bc : BitCrush) (buffer : Juce.Buffer)
    (n ch : Nat) :
    ((BitCrush.loop fns bc buffer n).2.getD ch []).length = (buffer.getD ch []).length := by
  induction n with
  | zero => rfl
  | succ n ih => rw [loop_succ, sampleStep_channel_length, ih]

theorem loop_getSample_later (fns : Juce.MathFns) (bc : BitCrush) (buffer : Juce.Buffer)
    (n ch j : Nat) (h : n ≤ j) :
    Juce.getSample (BitCrush.loop fns bc buffer n).2 ch j = Juce.getSample buffer ch j := by
  induction n with
  | zero => rfl
  | succ n ih =>
    rw [loop_succ, sampleStep_getSample_ne _ _ _ _ _ _ _ (by omega), ih (by omega)]

theorem loop_getSample (fns : Juce.MathFns) (bc : BitCrush) (buffer : Juce.Buffer)
    (n ch i : Nat) (hin : i < n) (hch : ch < 2) (hlen : ch < buffer.length)
    (hi : i < (buffer.getD ch []).length) :
    Juce.getSample (BitCrush.loop fns bc buffer n).2 ch i
      = BitCrush.crush fns (bc.step fns) bc.hard
          (BitCrush.heldAt ch (BitCrush.loop fns bc buffer (i + 1)).1) := by
  induction n with
  | zero => omega
  | succ n ih =>
    rw [loop_succ]
    by_cases hlt : i < n
    · rw [sampleStep_getSample_ne _ _ _ _ _ _ _ (by omega), ih hlt]
    · have hin' : i = n := by omega
      subst hin'
      rw [sampleStep_getSample_self fns bc.hold (bc.step fns) _ i ch hch
        (by rw [loop_length]; exact hlen) (by rw [loop_channel_length]; exact hi),
        loop_hard, loop_succ]
      rfl

theorem fullHard_step : BitCrush.fullHard.step Juce.exampleFns = 1 / 4 := by
  have h : Int.floor ((16 : ℚ) - 1 * 14) = 2 := by
    norm_num [Int.floor_eq_iff]
  simp only [BitCrush.step, BitCrush.fullHard, Juce.exampleFns, h]
  norm_num

theorem fullHard_hold : BitCrush.fullHard.hold = 1 := by
  have h : Juce.stdRound 1 = 1 := by
    norm_num [Juce.stdRound, Int.floor_eq_iff]
  simp [BitCrush.hold, BitCrush.fullHard, h, Juce.jlimitInt]

theorem fullHard_loop_one :
    (BitCrush.loop Juce.exampleFns BitCrush.fullHard [[2, 2]] 1).1
      = { BitCrush.fullHard with counter := 1 } := by
  rw [loop_succ]
  show BitCrush.capture _ _ _ _ = _
  rw [fullHard_hold]
  simp [BitCrush.loop, BitCrush.capture, BitCrush.fullHard]

theorem fullHard_loop_two :
    (BitCrush.loop Juce.exampleFns BitCrush.fullHard [[2, 2]] 2).1
      = { BitCrush.fullHard with heldL := 2, heldR := 2 } := by
  rw [loop_succ]
  show BitCrush.capture _ _ _ _ = _
  have hs : Juce.getSample
      (BitCrush.loop Juce.exampleFns BitCrush.fullHard [[2, 2]] 1).2 0 1 = 2 := by
    rw [loop_getSample_later _ _ _ _ _ _ (le_refl _)]
    simp [Juce.getSample]
  have hl : (BitCrush.loop Juce.exampleFns BitCrush.fullHard [[2, 2]] 1).2.length = 1 := by
    rw [loop_length]; rfl
  rw [fullHard_hold]
  have h1 := fullHard_loop_one
  generalize BitCrush.loop Juce.exampleFns BitCrush.fullHard [[2, 2]] 1 = L at h1 hs hl
  simp only [BitCrush.capture, h1, hs, hl]
  simp [BitCrush.fullHard]

theorem process_of_full_mix (fns : Juce.MathFns) (bc : BitCrush) (buffer : Juce.Buffer)
    (hmix : bc.mix = 1) :
    (bc.process fns buffer).2 = (BitCrush.loop fns bc buffer (Juce.numSamples buffer)).2 := by
  have h1 : ¬ ((1 : ℚ) ≤ 1 / 10000) := by norm_num
  have h2 : Juce.jlimit 0 1 (1 : ℚ) = 1 := by norm_num [Juce.jlimit]
  have h3 : (1 : ℚ) ≥ 999 / 1000 := by norm_num
  simp only [BitCrush.process, hmix, h1, if_false, mixWet, h2, h3, if_true]

/-- Counterexample to C15: with depth 1 (step `1 / 4`), hold factor 1, hard
mode and mix 1, the mono block `[2, 2]` makes the crusher hold the sample 2 at
index 1, and the output sample there is 1, the clamp bound, while
`floor (held / step) * step` is 2. -/
theorem hard_mode_clamps_loud_sample :
    BitCrush.fullHard.step Juce.exampleFns = 1 / 4
      ∧ (BitCrush.loop Juce.exampleFns BitCrush.fullHard [[2, 2]] 2).1.heldL = 2
      ∧ Juce.getSample (BitCrush.fullHard.process Juce.exampleFns [[2, 2]]).2 0 1 = 1
      ∧ (1 : ℚ) ≠ (Int.floor ((2 : ℚ) / (1 / 4)) : ℚ) * (1 / 4) := by
  have hfl : Int.floor ((2 : ℚ) / (1 / 4)) = 8 := by
    norm_num [Int.floor_eq_iff]
  refine ⟨fullHard_step, ?_, ?_, ?_⟩
  · rw [fullHard_loop_two]
  · rw [process_of_full_mix _ _ _ rfl]
    have hn : Juce.numSamples [[2, 2]] = 2 := rfl
    rw [hn, loop_getSample _ _ _ 2 0 1 (by norm_num) (by norm_num) (by decide) (by decide),
      fullHard_loop_two, fullHard_step]
    simp only [BitCrush.crush, BitCrush.quantise, BitCrush.heldAt, BitCrush.fullHard, hfl,
      if_true]
    norm_num [Juce.jlimit]
  · rw [hfl]; norm_num

/-- Claim C15 as amended: in hard mode (`hard > 0.5`) with mix 1, every output
sample of channels 0 and 1 is `jlimit (-1, 1, floor (held / step) * step)` for
the sample held after the iteration of that index; it is the integer multiple
`floor (held / step) * step` of the step itself whenever that multiple lies in
`[-1, 1]`. -/
theorem hard_mode_output_is_clamped_multiple (fns : Juce.MathFns) (bc : BitCrush)
    (buffer : Juce.Buffer) (ch i : Nat) (hhard : bc.hard > 1 / 2) (hmix : bc.mix = 1)
    (hch : ch < 2) (hlen : ch < buffer.length) (hi : i < Juce.numSamples buffer)
    (hic : i < (buffer.getD ch []).length) :
    Juce.getSample (bc.process fns buffer).2 ch i
        = Juce.jlimit (-1) 1
            (BitCrush.quantise (bc.step fns)
              (BitCrush.heldAt ch (BitCrush.loop fns bc buffer (i + 1)).1))
      ∧ (-1 ≤ BitCrush.quantise (bc.step fns)
              (BitCrush.heldAt ch (BitCrush.loop fns bc buffer (i + 1)).1)
          ∧ BitCrush.quantise (bc.step fns)
              (BitCrush.heldAt ch (BitCrush.loop fns bc buffer (i + 1)).1) ≤ 1 →
        Juce.getSample (bc.process fns buffer).2 ch i
          = (Int.floor (BitCrush.heldAt ch (BitCrush.loop fns bc buffer (i + 1)).1
              / bc.step fns) : ℚ) * bc.step fns) := by
  have h : Juce.getSample (bc.process fns buffer).2 ch i
      = Juce.jlimit (-1) 1
          (BitCrush.quantise (bc.step fns)
            (BitCrush.heldAt ch (BitCrush.loop fns bc buffer (i + 1)).1)) := by
    rw [process_of_full_mix fns bc buffer hmix,
      loop_getSample fns bc buffer _ ch i hi hch hlen hic]
    simp only [BitCrush.crush]
    rw [if_pos hhard]
  refine ⟨h, ?_⟩
  rintro ⟨h1, h2⟩
  rw [h, jlimit_of_mem h1 h2]
  rfl

/-- Witness of C15 as amended: the block `[2, 2]` through the crusher with
depth 1, hold factor 1, hard mode and mix 1, at index 1 of channel 0. -/
theorem hard_mode_output_is_clamped_multiple_witness :
    Juce.getSample (BitCrush.fullHard.process Juce.exampleFns [[2, 2]]).2 0 1
      = Juce.jlimit (-1) 1
          (BitCrush.quantise (BitCrush.fullHard.step Juce.exampleFns)
            (BitCrush.heldAt 0
              (BitCrush.loop Juce.exampleFns BitCrush.fullHard [[2, 2]] (1 + 1)).1)) :=
  (hard_mode_output_is_clamped_multiple Juce.exampleFns BitCrush.fullHard [[2, 2]] 0 1
    (by norm_num [BitCrush.fullHard]) rfl (by norm_num) (by decide) (by decide)
    (by decide)).1

end DemoFxChain

namespace TheRocket

/-! ## Tempo-synced tremolo rate of The Rocket -/

end TheRocket

namespace RocketRemake

/-! ## Normalised phase of the oscillators of RocketRemake -/

theorem phaseStep_mem {phaseInc phase : ℚ} (hi0 : 0 ≤ phaseInc) (hi1 : phaseInc < 1)
    (hp0 : 0 ≤ phase) (hp1 : phase < 1) :
    0 ≤ phaseStep phaseInc phase ∧ phaseStep phaseInc phase < 1 := by
  unfold phaseStep
  simp only
  split
  · constructor <;> linarith
  · constructor <;> linarith

theorem phaseAfterBlock_succ (phaseInc : ℚ) (n : Nat) (phase : ℚ) :
    phaseAfterBlock phaseInc (n + 1) phase
      = phaseStep phaseInc (phaseAfterBlock phaseInc n phase) := by
  simp [phaseAfterBlock, List.range_succ, List.foldl_append]

theorem phaseAfterBlock_mem {phaseInc : ℚ} (hi0 : 0 ≤ phaseInc) (hi1 : phaseInc < 1)
    (n : Nat) {phase : ℚ} (hp0 : 0 ≤ phase) (hp1 : phase < 1) :
    0 ≤ phaseAfterBlock phaseInc n phase ∧ phaseAfterBlock phaseInc n phase < 1 := by
  induction n with
  | zero => exact ⟨hp0, hp1⟩
  | succ n ih =>
    rw [phaseAfterBlock_succ]
    exact phaseStep_mem hi0 hi1 ih.1 ih.2

theorem phaseAfterBlocks_mem (blocks : List (ℚ × Nat))
    (hblocks : ∀ b ∈ blocks, 0 ≤ b.1 ∧ b.1 < 1) {phase : ℚ} (hp0 : 0 ≤ phase)
    (hp1 : phase < 1) :
    0 ≤ phaseAfterBlocks blocks phase ∧ phaseAfterBlocks blocks phase < 1 := by
  induction blocks generalizing phase with
  | nil => exact ⟨hp0, hp1⟩
  | cons b bs ih =>
    have hb := hblocks b (List.mem_cons_self _ _)
    have hstep := phaseAfterBlock_mem hb.1 hb.2 b.2 hp0 hp1
    exact ih (fun c hc => hblocks c (List.mem_cons_of_mem _ hc)) hstep.1 hstep.2

/-- Claim C22: for the normalised-phase oscillators of RocketRemake (flanger,
tremolo, ring modulator, tone generator), starting from the phase 0 that
`reset` sets, after any number of whole blocks of any lengths followed by any
number `n` of samples of a further block, hence after every processed sample,
the phase satisfies `0 <= phase < 1`, provided the increment of every block
lies in `[0, 1)` (exact arithmetic). -/
theorem normalized_phase_stays_in_unit_interval (blocks : List (ℚ × Nat))
    (phaseInc : ℚ) (n : Nat) (hblocks : ∀ b ∈ blocks, 0 ≤ b.1 ∧ b.1 < 1)
    (hi0 : 0 ≤ phaseInc) (hi1 : phaseInc < 1) :
    0 ≤ phaseAfterBlock phaseInc n (phaseAfterBlocks blocks phaseAtReset)
      ∧ phaseAfterBlock phaseInc n (phaseAfterBlocks blocks phaseAtReset) < 1 := by
  have h0 : (0 : ℚ) ≤ phaseAtReset := le_refl _
  have h1 : phaseAtReset < 1 := by unfold phaseAtReset; norm_num
  have hb := phaseAfterBlocks_mem blocks hblocks h0 h1
  exact phaseAfterBlock_mem hi0 hi1 n hb.1 hb.2

/-- Witness of C22: a block of 3 samples at increment `2 / 5`, then 2 samples
of a block at increment `3 / 4`. -/
theorem normalized_phase_stays_in_unit_interval_witness :
    0 ≤ phaseAfterBlock (3 / 4) 2 (phaseAfterBlocks [(2 / 5, 3)] phaseAtReset)
      ∧ phaseAfterBlock (3 / 4) 2 (phaseAfterBlocks [(2 / 5, 3)] phaseAtReset) < 1 :=
  normalized_phase_stays_in_unit_interval [(2 / 5, 3)] (3 / 4) 2
    (by intro b hb; simp at hb; subst hb; norm_num) (by norm_num) (by norm_num)

end RocketRemake

namespace DemoFxChain

/-! ## The helper `clampSafe` -/

theorem jlimit_mem {lo hi : ℚ} (h : lo ≤ hi) (v : ℚ) :
    lo ≤ Juce.jlimit lo hi v ∧ Juce.jlimit lo hi v ≤ hi := by
  unfold Juce.jlimit
  split
  · exact ⟨le_refl _, h⟩
  · split
    · exact ⟨h, le_refl _⟩
    · constructor <;> linarith

/-- Claim C30: for finite bounds `lo <= hi` and every float `v`, NaN and the
infinities included, `clampSafe (v, lo, hi)` is a finite value `r` with
`lo <= r <= hi`; it is `v` itself when `v` is finite and inside the bounds; it
is `lo` when `v` is NaN or an infinity; and clamping the result again changes
nothing. -/
theorem clampSafe_finite_bounded_idempotent (lo hi : ℚ) (h : lo ≤ hi) (v : Juce.Fl) :
    (∃ r : ℚ, clampSafe v (.finite lo) (.finite hi) = .finite r ∧ lo ≤ r ∧ r ≤ hi)
      ∧ (∀ q : ℚ, v = .finite q → lo ≤ q → q ≤ hi →
          clampSafe v (.finite lo) (.finite hi) = v)
      ∧ (v.isFinite = false → clampSafe v (.finite lo) (.finite hi) = .finite lo)
      ∧ clampSafe (clampSafe v (.finite lo) (.finite hi)) (.finite lo) (.finite hi)
          = clampSafe v (.finite lo) (.finite hi) := by
  have hlo : clampSafe (.finite lo) (.finite lo) (.finite hi) = .finite lo := by
    rw [clampSafe_finite, jlimit_of_mem (le_refl _) h]
  refine ⟨?_, ?_, ?_, ?_⟩
  · cases v with
    | finite q =>
      exact ⟨Juce.jlimit lo hi q, clampSafe_finite q lo hi, jlimit_mem h q⟩
    | nan => exact ⟨lo, clampSafe_nonfinite _ _ _ rfl, le_refl _, h⟩
    | negInf => exact ⟨lo, clampSafe_nonfinite _ _ _ rfl, le_refl _, h⟩
    | posInf => exact ⟨lo, clampSafe_nonfinite _ _ _ rfl, le_refl _, h⟩
  · intro q hv h1 h2
    rw [hv, clampSafe_finite, jlimit_of_mem h1 h2]
  · intro hv
    exact clampSafe_nonfinite _ _ _ hv
  · cases v with
    | finite q =>
      rw [clampSafe_finite, clampSafe_finite,
        jlimit_of_mem (jlimit_mem h q).1 (jlimit_mem h q).2]
    | nan => rw [clampSafe_nonfinite Juce.Fl.nan _ _ rfl, hlo]
    | negInf => rw [clampSafe_nonfinite Juce.Fl.negInf _ _ rfl, hlo]
    | posInf => rw [clampSafe_nonfinite Juce.Fl.posInf _ _ rfl, hlo]

/-- Witness of C30: NaN clamped to `[0, 1]` gives 0. -/
theorem clampSafe_finite_bounded_idempotent_witness :
    clampSafe .nan (.finite 0) (.finite 1) = .finite 0 :=
  (clampSafe_finite_bounded_idempotent 0 1 (by norm_num) .nan).2.2.1 rfl

/-! ## The delay length of `Delay::process` when the LFO is off -/

theorem delay_length_unmodulated_at_zero_depth (fns : Juce.MathFns) (d : Delay) (bpm : ℚ)
    (hdepth : d.lfoDepth = 0) :
    d.delaySamples fns bpm
      = Juce.jlimit 1 (d.sampleRate * 2)
          (if d.sync then
            rhythmToBeats d.rhythm * (60 / (if bpm > 0 then bpm else 120)) * d.sampleRate
          else d.timeMs * (1 / 1000) * d.sampleRate) := by
  simp only [Delay.delaySamples, hdepth]
  congr 1
  ring

/-- Claim C27, evaluated on a failing input: a delay at 48000 Hz set with
`setParams` to free time 1000 ms, mix 1, LFO rate 0 and LFO depth 1 has an
inactive LFO (the rate is 0), and its base length is 48000 samples, inside
the clamp `[1, 96000]`; `process` sets the length 43200 on both lines. -/
theorem inactive_lfo_with_depth_shortens_delay :
    (Delay.setParams { sampleRate := 48000 } 0 false 2 (.finite 1000) (.finite (3 / 10))
        (.finite 1) (.finite 20) (.finite 20000) (.finite 0) (.finite 1)).lfoRate = 0
      ∧ Delay.setDelayArgument Juce.exampleFns
          (Delay.setParams { sampleRate := 48000 } 0 false 2 (.finite 1000) (.finite (3 / 10))
            (.finite 1) (.finite 20) (.finite 20000) (.finite 0) (.finite 1)) 120
          = some 43200
      ∧ Juce.jlimit 1 (48000 * 2) ((1000 : ℚ) * (1 / 1000) * 48000) = 48000 := by
  refine ⟨?_, ?_, ?_⟩
  · norm_num [Delay.setParams, clampSafe_finite, Juce.Fl.toRat, Juce.jlimit]
  · norm_num [Delay.setDelayArgument, Delay.delaySamples, Delay.setParams, clampSafe_finite,
      Juce.Fl.toRat, Juce.jlimit, Juce.jlimitInt]
  · norm_num [Juce.jlimit]

/-! ## The method `DeEsser::process` -/

/-- Claim C25, evaluated on a failing input: a mono block `[1, 1]` whose
high-passed duplicate is 0 at both samples (a constant signal has no high
band) and whose compressor output equals its input, 0. The enabled de-esser
returns `[0, 0]`, the compressed high band, where the input `[1, 1]` and
`input - (H - C)` are `[1, 1]`. -/
theorem deEsser_returns_compressed_high_band :
    DeEsser.process true (fun _ _ => 0) (fun _ _ => 0) [[1, 1]] = [[0, 0]]
      ∧ ([[1, 1]] : Juce.Buffer) ≠ [[0, 0]] := by
  constructor
  · simp [DeEsser.process, Juce.overwrite, Juce.getSample, List.mapIdx_cons]
  · decide

end DemoFxChain

namespace TheRocket

/-! ## The modulated parameter value of The Rocket -/

theorem convertTo0to1_mem (range : Juce.NormalisableRange) (v : ℚ) :
    0 ≤ range.convertTo0to1 v ∧ range.convertTo0to1 v ≤ 1 :=
  DemoFxChain.jlimit_mem zero_le_one _

theorem convertFrom0to1_mem (range : Juce.NormalisableRange)
    (hlt : range.start < range.finish) (proportion : ℚ) :
    range.start ≤ range.convertFrom0to1 proportion
      ∧ range.convertFrom0to1 proportion ≤ range.finish := by
  have hp := DemoFxChain.jlimit_mem (zero_le_one (α := ℚ)) proportion
  have hw : 0 < range.finish - range.start := sub_pos.2 hlt
  unfold Juce.NormalisableRange.convertFrom0to1
  constructor
  · nlinarith [mul_nonneg hw.le hp.1]
  · nlinarith [mul_nonneg hw.le (sub_nonneg.2 hp.2)]

theorem convertFrom0to1_convertTo0to1 (range : Juce.NormalisableRange)
    (hlt : range.start < range.finish) (v : ℚ) :
    range.convertFrom0to1 (range.convertTo0to1 v)
      = Juce.jlimit range.start range.finish v := by
  have hw : 0 < range.finish - range.start := sub_pos.2 hlt
  have hne : range.finish - range.start ≠ 0 := ne_of_gt hw
  have hn := convertTo0to1_mem range v
  unfold Juce.NormalisableRange.convertFrom0to1
  rw [DemoFxChain.jlimit_of_mem hn.1 hn.2]
  unfold Juce.NormalisableRange.convertTo0to1 Juce.jlimit
  by_cases h1 : v < range.start
  · have hq : (v - range.start) / (range.finish - range.start) < 0 :=
      div_neg_of_neg_of_pos (by linarith) hw
    rw [if_pos hq, if_pos h1]
    ring
  · have hq : ¬ (v - range.start) / (range.finish - range.start) < 0 := by
      rw [not_lt]
      exact div_nonneg (by linarith) hw.le
    rw [if_neg hq, if_neg h1]
    by_cases h2 : range.finish < v
    · have hq2 : 1 < (v - range.start) / (range.finish - range.start) := by
        rw [lt_div_iff₀ hw]
        linarith
      rw [if_pos hq2, if_pos h2]
      ring
    · have hq2 : ¬ 1 < (v - range.start) / (range.finish - range.start) := by
        rw [not_lt, div_le_iff₀ hw]
        linarith
      rw [if_neg hq2, if_neg h2]
      field_simp

theorem blend_mem_unit {n d t : ℚ} (hn0 : 0 ≤ n) (hn1 : n ≤ 1) (hd0 : 0 ≤ d) (hd1 : d ≤ 1)
    (ht0 : 0 ≤ t) (ht1 : t ≤ 1) : 0 ≤ n + d * (t - n) ∧ n + d * (t - n) ≤ 1 := by
  constructor
  · nlinarith [mul_nonneg hd0 ht0, mul_nonneg hn0 (sub_nonneg.2 hd1)]
  · nlinarith [mul_nonneg hd0 (sub_nonneg.2 ht1),
      mul_nonneg (sub_nonneg.2 hn1) (sub_nonneg.2 hd1)]

theorem modulationStep_mem (range : Juce.NormalisableRange) (macroValue : ℚ)
    (paramID : String) {norm : ℚ} (h0 : 0 ≤ norm) (h1 : norm ≤ 1) (a : Assignment) :
    0 ≤ modulationStep range macroValue paramID norm a
      ∧ modulationStep range macroValue paramID norm a ≤ 1 := by
  have hd := DemoFxChain.jlimit_mem (zero_le_one (α := ℚ)) |a.amount|
  unfold modulationStep
  by_cases hp : a.paramID ≠ paramID
  · rw [if_pos hp]
    exact ⟨h0, h1⟩
  · rw [if_neg hp]
    by_cases hu : a.useRange = true
    · simp only [hu, if_true]
      exact blend_mem_unit h0 h1 hd.1 hd.2 (convertTo0to1_mem _ _).1 (convertTo0to1_mem _ _).2
    · simp only [hu]
      exact DemoFxChain.jlimit_mem zero_le_one _

theorem foldl_modulationStep_mem (range : Juce.NormalisableRange) (macroValue : ℚ)
    (paramID : String) (assignments : List Assignment) {norm : ℚ} (h0 : 0 ≤ norm)
    (h1 : norm ≤ 1) :
    0 ≤ assignments.foldl (modulationStep range macroValue paramID) norm
      ∧ assignments.foldl (modulationStep range macroValue paramID) norm ≤ 1 := by
  induction assignments generalizing norm with
  | nil => exact ⟨h0, h1⟩
  | cons a as ih =>
    have hs := modulationStep_mem range macroValue paramID h0 h1 a
    exact ih hs.1 hs.2

theorem foldl_modulationStep_of_no_match (range : Juce.NormalisableRange) (macroValue : ℚ)
    (paramID : String) (assignments : List Assignment) (norm : ℚ)
    (h : ∀ a ∈ assignments, a.paramID ≠ paramID) :
    assignments.foldl (modulationStep range macroValue paramID) norm = norm := by
  induction assignments with
  | nil => rfl
  | cons a as ih =>
    have ha : modulationStep range macroValue paramID norm a = norm := by
      unfold modulationStep
      rw [if_pos (h a (List.mem_cons_self _ _))]
    rw [List.foldl_cons, ha]
    exact ih (fun b hb => h b (List.mem_cons_of_mem _ hb))

/-- Claim C29: in The Rocket, for a registered parameter whose range is linear
from `lo` to `hi` with `lo < hi`, `getModulatedParamValue` returns a value in
`[lo, hi]` for every base value, every macro value and every assignment list
(any number of direct or ranged assignments on the target, any amounts, any
`min` and `max`); and when no assignment names the target, the result is the
base value clamped to `[lo, hi]`. -/
theorem modulated_value_stays_in_range (m : ModMatrix) (paramID : String)
    (range : Juce.NormalisableRange) (baseValue : ℚ)
    (hreg : m.params paramID = some range) (hlt : range.start < range.finish) :
    (range.start ≤ m.getModulatedParamValue paramID baseValue
        ∧ m.getModulatedParamValue paramID baseValue ≤ range.finish)
      ∧ ((∀ a ∈ m.assignments, a.paramID ≠ paramID) →
          m.getModulatedParamValue paramID baseValue
            = Juce.jlimit range.start range.finish baseValue) := by
  have hval : m.getModulatedParamValue paramID baseValue
      = range.convertFrom0to1
          (m.assignments.foldl (modulationStep range m.macroValue paramID)
            (range.convertTo0to1 baseValue)) := by
    simp only [ModMatrix.getModulatedParamValue, hreg]
  constructor
  · rw [hval]
    exact convertFrom0to1_mem range hlt _
  · intro hno
    rw [hval, foldl_modulationStep_of_no_match _ _ _ _ _ hno]
    exact convertFrom0to1_convertTo0to1 range hlt baseValue

/-- Witness of C29: a cutoff parameter from 20 to 20000 with a ranged and a
direct assignment on it, at macro 1 and base value 50000. -/
theorem modulated_value_stays_in_range_witness :
    20 ≤ ModMatrix.getModulatedParamValue
        { params := fun id => if id = "lpf_cutoff" then some ⟨20, 20000⟩ else none
          macroValue := 1
          assignments := [⟨"lpf_cutoff", -1, true, 100, 90000⟩, ⟨"lpf_cutoff", 3, false, 0, 1⟩] }
        "lpf_cutoff" 50000
      ∧ ModMatrix.getModulatedParamValue
        { params := fun id => if id = "lpf_cutoff" then some ⟨20, 20000⟩ else none
          macroValue := 1
          assignments := [⟨"lpf_cutoff", -1, true, 100, 90000⟩, ⟨"lpf_cutoff", 3, false, 0, 1⟩] }
        "lpf_cutoff" 50000 ≤ 20000 :=
  (modulated_value_stays_in_range _ "lpf_cutoff" ⟨20, 20000⟩ 50000 (by simp)
    (by norm_num)).1

end TheRocket

namespace Juce

theorem getSample_map_set (b : Juce.Buffer) (i : Nat) (g : ℚ) (ch j : Nat) :
    Juce.getSample (b.map (fun channel => channel.set i (channel.getD i 0 * g))) ch j
      = if j = i then Juce.getSample b ch i * g else Juce.getSample b ch j := by
  have hmap : (b.map (fun channel : List ℚ => channel.set i (channel.getD i 0 * g))).getD ch []
      = (b.getD ch []).set i ((b.getD ch []).getD i 0 * g) := by
    by_cases hch : ch < b.length
    · rw [List.getD_eq_getElem _ _ (by simpa using hch), List.getD_eq_getElem _ _ hch]
      simp
    · rw [List.getD_eq_default _ _ (by simpa using hch),
        List.getD_eq_default _ _ (not_lt.1 hch)]
      simp
  unfold Juce.getSample
  rw [hmap]
  generalize b.getD ch [] = c
  by_cases hji : j = i
  · subst hji
    rw [if_pos rfl]
    by_cases hj : j < c.length
    · simp [List.getD_eq_getElem?_getD, List.getElem?_set, hj]
    · have h1 : c.getD j 0 = 0 := List.getD_eq_default _ _ (not_lt.1 hj)
      have h2 : (c.set j (c.getD j 0 * g)).getD j 0 = 0 :=
        List.getD_eq_default _ _ (by simpa using not_lt.1 hj)
      rw [h2, h1, zero_mul]
  · rw [if_neg hji]
    simp [List.getD_eq_getElem?_getD, List.getElem?_set, Ne.symm hji]

end Juce

namespace TheRocket

/-! ## The preset pop guard of The Rocket -/

theorem popGuardGain_eq_spec (k : Nat) (hk : k < 512) :
    popGuardGain (512 - (k : Int)) = popGuardSpecGain k := by
  have hp : kPresetPopGuardTotalSamples - (512 - (k : Int)) = (k : Int) := by
    unfold kPresetPopGuardTotalSamples kPresetPopGuardHalfSamples
    ring
  unfold popGuardGain popGuardSpecGain
  simp only [hp]
  unfold kPresetPopGuardHalfSamples
  by_cases h : k < 256
  · have h2 : (k : Int) < 256 := by exact_mod_cast h
    rw [if_pos h2, if_pos h]
    push_cast
    ring
  · have h2 : ¬ (k : Int) < 256 := by
      intro hlt
      exact h (by exact_mod_cast hlt)
    rw [if_neg h2, if_neg h, if_pos hk]
    push_cast
    ring

theorem popGuardSpecGain_mem (k : Nat) :
    0 ≤ popGuardSpecGain k ∧ popGuardSpecGain k ≤ 1 := by
  unfold popGuardSpecGain
  by_cases h : k < 256
  · have h2 : (k : ℚ) < 256 := by exact_mod_cast h
    have h3 : (0 : ℚ) ≤ k := Nat.cast_nonneg k
    rw [if_pos h]
    constructor
    · linarith
    · linarith
  · rw [if_neg h]
    by_cases hk : k < 512
    · have h2 : (k : ℚ) < 512 := by exact_mod_cast hk
      have h3 : (256 : ℚ) ≤ k := by exact_mod_cast not_lt.1 h
      rw [if_pos hk]
      constructor
      · linarith
      · linarith
    · rw [if_neg hk]
      norm_num

theorem popGuardSpecGain_of_ge (k : Nat) (hk : 512 ≤ k) : popGuardSpecGain k = 1 := by
  unfold popGuardSpecGain
  rw [if_neg (by omega), if_neg (by omega)]

theorem foldl_popGuardStep (r : Int) (hr : 0 ≤ r) (b : Juce.Buffer) (n : Nat) :
    ((List.range n).foldl popGuardStep (r, b)).1 = r - min r (n : Int)
      ∧ ∀ ch i : Nat,
          Juce.getSample ((List.range n).foldl popGuardStep (r, b)).2 ch i
            = if i < n ∧ (i : Int) < r then Juce.getSample b ch i * popGuardGain (r - (i : Int))
              else Juce.getSample b ch i := by
  induction n with
  | zero =>
    constructor
    · simp [min_eq_right hr]
    · intro ch i
      simp
  | succ n ih =>
    rw [List.range_succ, List.foldl_append, List.foldl_cons, List.foldl_nil]
    obtain ⟨ih1, ih2⟩ := ih
    generalize (List.range n).foldl popGuardStep (r, b) = s at ih1 ih2
    unfold popGuardStep
    by_cases h : s.1 > 0
    · rw [if_pos h]
      have hnr : (n : Int) < r := by
        rw [ih1] at h
        rcases le_total r (n : Int) with hle | hle
        · rw [min_eq_left hle] at h
          omega
        · rw [min_eq_right hle] at h
          omega
      have hs1 : s.1 = r - (n : Int) := by
        rw [ih1, min_eq_right hnr.le]
      constructor
      · show s.1 - 1 = r - min r ((n + 1 : Nat) : Int)
        rw [hs1, min_eq_right (by push_cast; omega)]
        push_cast
        ring
      · intro ch i
        show Juce.getSample (s.2.map _) ch i = _
        rw [Juce.getSample_map_set]
        by_cases hin : i = n
        · subst hin
          rw [if_pos rfl, ih2, if_neg (by omega), if_pos ⟨by omega, hnr⟩, hs1]
        · rw [if_neg hin, ih2]
          by_cases hc : i < n ∧ (i : Int) < r
          · rw [if_pos hc, if_pos ⟨by omega, hc.2⟩]
          · rw [if_neg hc, if_neg (by omega)]
    · rw [if_neg h]
      have hrn : r ≤ (n : Int) := by
        rw [ih1] at h
        rcases le_total r (n : Int) with hle | hle
        · exact hle
        · rw [min_eq_right hle] at h
          omega
      constructor
      · rw [ih1, min_eq_left hrn, min_eq_left (by push_cast; omega)]
      · intro ch i
        rw [ih2]
        by_cases hc : i < n ∧ (i : Int) < r
        · rw [if_pos hc, if_pos ⟨by omega, hc.2⟩]
        · rw [if_neg hc, if_neg (by omega)]

theorem popGuard_counter (r : Int) (hr : 0 ≤ r) (b : Juce.Buffer) :
    (popGuard r b).1 = r - min r (Juce.numSamples b : Int) := by
  unfold popGuard
  by_cases h : r > 0
  · rw [if_pos h]
    exact (foldl_popGuardStep r hr b _).1
  · rw [if_neg h]
    have h0 : r = 0 := by omega
    subst h0
    simp

theorem popGuard_sample (e : Nat) (he : e ≤ 512) (b : Juce.Buffer) (ch i : Nat)
    (hi : i < Juce.numSamples b) :
    Juce.getSample (popGuard (512 - (e : Int)) b).2 ch i
      = popGuardSpecGain (e + i) * Juce.getSample b ch i := by
  unfold popGuard
  by_cases h : (512 - (e : Int)) > 0
  · rw [if_pos h, (foldl_popGuardStep _ (by omega) b _).2]
    by_cases hc : (i : Int) < 512 - (e : Int)
    · rw [if_pos ⟨hi, hc⟩]
      have hk : e + i < 512 := by omega
      have harg : 512 - (e : Int) - (i : Int) = 512 - ((e + i : Nat) : Int) := by
        push_cast
        ring
      rw [harg, popGuardGain_eq_spec _ hk]
      ring
    · rw [if_neg (by omega), popGuardSpecGain_of_ge _ (by omega), one_mul]
  · rw [if_neg h, popGuardSpecGain_of_ge _ (by omega), one_mul]

theorem popGuard_counter_elapsed (e : Nat) (he : e ≤ 512) (b : Juce.Buffer) :
    (popGuard (512 - (e : Int)) b).1
      = 512 - ((min 512 (e + Juce.numSamples b) : Nat) : Int) := by
  rw [popGuard_counter _ (by omega)]
  rcases le_total (512 - (e : Int)) (Juce.numSamples b : Int) with hle | hle
  · rw [min_eq_left hle, min_eq_left (by omega)]
    push_cast
    ring
  · rw [min_eq_right hle, min_eq_right (by omega)]
    push_cast
    ring

theorem popGuardBlocks_sample (blocks : List Juce.Buffer) (e : Nat) (he : e ≤ 512)
    (j ch i : Nat) (hi : i < Juce.numSamples (blocks.getD j [])) :
    Juce.getSample ((popGuardBlocks (512 - (e : Int)) blocks).2.getD j []) ch i
      = popGuardSpecGain (e + ((blocks.take j).map Juce.numSamples).sum + i)
          * Juce.getSample (blocks.getD j []) ch i := by
  induction blocks generalizing e j with
  | nil => simp [Juce.numSamples] at hi
  | cons b bs ih =>
    cases j with
    | zero =>
      simp only [popGuardBlocks, List.getD_cons_zero, List.take_zero, List.map_nil,
        List.sum_nil, Nat.add_zero]
      exact popGuard_sample e he b ch i (by simpa using hi)
    | succ j =>
      simp only [popGuardBlocks, List.getD_cons_succ, List.take_succ_cons, List.map_cons,
        List.sum_cons]
      rw [popGuard_counter_elapsed e he b]
      have hi2 : i < Juce.numSamples (bs.getD j []) := by simpa using hi
      rw [ih (min 512 (e + Juce.numSamples b)) (min_le_left _ _) j hi2]
      by_cases hlt : e + Juce.numSamples b ≤ 512
      · rw [min_eq_right hlt, ← Nat.add_assoc]
      · rw [popGuardSpecGain_of_ge _ (by omega), popGuardSpecGain_of_ge _ (by omega)]

theorem popGuardBlocks_counter (blocks : List Juce.Buffer) (r : Int) (hr : 0 ≤ r) :
    0 ≤ (popGuardBlocks r blocks).1 := by
  induction blocks generalizing r with
  | nil => exact hr
  | cons b bs ih =>
    simp only [popGuardBlocks]
    apply ih
    rw [popGuard_counter r hr b]
    rcases le_total r (Juce.numSamples b : Int) with hle | hle
    · rw [min_eq_left hle]
      omega
    · rw [min_eq_right hle]
      omega

/-- Claim C23: in The Rocket, after `notifyPresetLoaded` has set the counter to
512, for every way the audio is split into blocks (block `j`, sample `i` of
any channel, with `k` the number of samples of the earlier blocks plus `i`),
the pop guard multiplies the `k`-th sample by `1 - k / 256` for `k < 256` and
by `(k - 256) / 256` for `256 <= k < 512`, a gain in `[0, 1]`, and leaves the
sample as it is for `k >= 512`; each block lowers a non-negative counter by
exactly `min (remaining, blockSize)`, and the counter is never negative. -/
theorem pop_guard_fades_over_512_samples (blocks : List Juce.Buffer) (j ch i : Nat)
    (hi : i < Juce.numSamples (blocks.getD j [])) :
    Juce.getSample ((popGuardBlocks notifyPresetLoaded blocks).2.getD j []) ch i
        = popGuardSpecGain (((blocks.take j).map Juce.numSamples).sum + i)
            * Juce.getSample (blocks.getD j []) ch i
      ∧ (0 ≤ popGuardSpecGain (((blocks.take j).map Juce.numSamples).sum + i)
          ∧ popGuardSpecGain (((blocks.take j).map Juce.numSamples).sum + i) ≤ 1)
      ∧ (512 ≤ ((blocks.take j).map Juce.numSamples).sum + i →
          Juce.getSample ((popGuardBlocks notifyPresetLoaded blocks).2.getD j []) ch i
            = Juce.getSample (blocks.getD j []) ch i)
      ∧ (∀ (remaining : Int) (b : Juce.Buffer), 0 ≤ remaining →
          (popGuard remaining b).1 = remaining - min remaining (Juce.numSamples b : Int)
            ∧ 0 ≤ (popGuard remaining b).1)
      ∧ 0 ≤ (popGuardBlocks notifyPresetLoaded blocks).1 := by
  have hstart : notifyPresetLoaded = 512 - ((0 : Nat) : Int) := by
    unfold notifyPresetLoaded kPresetPopGuardTotalSamples kPresetPopGuardHalfSamples
    norm_num
  have hs : Juce.getSample ((popGuardBlocks notifyPresetLoaded blocks).2.getD j []) ch i
      = popGuardSpecGain (((blocks.take j).map Juce.numSamples).sum + i)
          * Juce.getSample (blocks.getD j []) ch i := by
    rw [hstart, popGuardBlocks_sample blocks 0 (by norm_num) j ch i hi, Nat.zero_add]
  refine ⟨hs, popGuardSpecGain_mem _, ?_, ?_, ?_⟩
  · intro hk
    rw [hs, popGuardSpecGain_of_ge _ hk, one_mul]
  · intro remaining b hr
    have hc := popGuard_counter remaining hr b
    refine ⟨hc, ?_⟩
    rw [hc]
    rcases le_total remaining (Juce.numSamples b : Int) with hle | hle
    · rw [min_eq_left hle]
      omega
    · rw [min_eq_right hle]
      omega
  · apply popGuardBlocks_counter
    unfold notifyPresetLoaded kPresetPopGuardTotalSamples kPresetPopGuardHalfSamples
    norm_num

end TheRocket

namespace TheRocket

/-- Witness of C23: a block of 3 samples followed by a block of 2 samples; the
second sample of the second block is the sample `k = 4` after the preset
load. -/
theorem pop_guard_fades_over_512_samples_witness :
    Juce.getSample
        ((popGuardBlocks notifyPresetLoaded
          ([[[1, 1, 1]], [[1, 1]]] : List Juce.Buffer)).2.getD 1 []) 0 1
      = popGuardSpecGain
          (((([[[1, 1, 1]], [[1, 1]]] : List Juce.Buffer).take 1).map Juce.numSamples).sum + 1)
          * Juce.getSample (([[[1, 1, 1]], [[1, 1]]] : List Juce.Buffer).getD 1 []) 0 1 :=
  (pop_guard_fades_over_512_samples ([[[1, 1, 1]], [[1, 1]]] : List Juce.Buffer) 1 0 1
    (by decide)).1

/-! ## The sample-and-hold of the bit crushers -/

theorem bitcrusher_hold_one :
    Juce.truncToInt (Juce.jlimit 1 32 ((Juce.stdRound 1 : Int) : ℚ)) = 1 := by
  have h : Juce.stdRound 1 = 1 := by
    norm_num [Juce.stdRound, Int.floor_eq_iff]
  rw [h]
  norm_num [Juce.jlimit, Juce.truncToInt]

theorem bitcrusher_step_two_bits : (1 : ℚ) / Juce.exampleFns.pow 2 2 = 1 / 4 := by
  have h : Int.floor (2 : ℚ) = 2 := by
    norm_num [Int.floor_eq_iff]
  simp only [Juce.exampleFns, h]
  norm_num

end TheRocket

namespace TheRocket

theorem crush_quarter_values :
    BitcrusherModule.crush (1 / 4) 0 = 0 ∧ BitcrusherModule.crush (1 / 4) (3 / 4) = 3 / 4
      ∧ BitcrusherModule.crush (1 / 4) (1 / 2) = 1 / 2 := by
  have h0 : Int.floor ((0 : ℚ) / (1 / 4)) = 0 := by norm_num
  have h3 : Int.floor ((3 / 4 : ℚ) / (1 / 4)) = 3 := by norm_num [Int.floor_eq_iff]
  have h2 : Int.floor ((1 / 2 : ℚ) / (1 / 4)) = 2 := by norm_num [Int.floor_eq_iff]
  refine ⟨?_, ?_, ?_⟩
  · unfold BitcrusherModule.crush
    rw [h0]
    norm_num
  · unfold BitcrusherModule.crush
    rw [h3]
    norm_num
  · unfold BitcrusherModule.crush
    rw [h2]
    norm_num

/-- Claim C26, evaluated on a failing input: both bit crushers just reset,
hold factor 1, step `1 / 4`, mix 1, on the mono block `[1/2, 3/4, 1/4]`, whose
samples are multiples of the step, so that `floor (input / step) * step` is
the input itself. The Rocket's `BitcrusherModule` (`bitcrusher_downsample` 1,
2 bits) and `DemoFxChain::BitCrush` (freq 1, depth 1, hard mode, which leaves
values in `[-1, 1]` alone) both return `[0, 3/4, 3/4]`: the first sample is not
captured, and a sample is captured every second index, not every index. -/
theorem hold_one_captures_every_second_sample :
    (BitcrusherModule.process Juce.exampleFns (fun _ => none) 2 1 1 {}
        [[1 / 2, 3 / 4, 1 / 4]]).2 = [[0, 3 / 4, 3 / 4]]
      ∧ (DemoFxChain.BitCrush.fullHard.process Juce.exampleFns
          [[1 / 2, 3 / 4, 1 / 4]]).2 = [[0, 3 / 4, 3 / 4]]
      ∧ BitcrusherModule.crush (1 / 4) (1 / 2) = 1 / 2 := by
  obtain ⟨c0, c3, c2⟩ := crush_quarter_values
  have hrange : List.range 3 = [0, 1, 2] := rfl
  have hn : Juce.numSamples [[1 / 2, 3 / 4, 1 / 4]] = 3 := rfl
  refine ⟨?_, ?_, c2⟩
  · simp only [BitcrusherModule.process, FxModule.isEnabled, bitcrusher_hold_one,
      bitcrusher_step_two_bits, hn, hrange, Bool.not_true, Bool.false_eq_true, if_false,
      List.foldl_cons, List.foldl_nil]
    simp [BitcrusherModule.sampleStep, Juce.setSample, Juce.getSample, applyMix]
    exact ⟨by simpa using c0, by simpa using c3⟩
  · have q0 : DemoFxChain.BitCrush.crush Juce.exampleFns (1 / 4) 1 0 = 0 := by
      have h := c0
      unfold BitcrusherModule.crush at h
      simp only [DemoFxChain.BitCrush.crush, DemoFxChain.BitCrush.quantise, h]
      norm_num [Juce.jlimit]
    have q3 : DemoFxChain.BitCrush.crush Juce.exampleFns (1 / 4) 1 (3 / 4) = 3 / 4 := by
      have h := c3
      unfold BitcrusherModule.crush at h
      simp only [DemoFxChain.BitCrush.crush, DemoFxChain.BitCrush.quantise, h]
      norm_num [Juce.jlimit]
    rw [DemoFxChain.process_of_full_mix _ _ _ rfl, hn]
    simp only [DemoFxChain.BitCrush.loop, DemoFxChain.fullHard_hold,
      DemoFxChain.fullHard_step, hrange, List.foldl_cons, List.foldl_nil]
    simp [DemoFxChain.BitCrush.sampleStep, DemoFxChain.BitCrush.capture,
      DemoFxChain.BitCrush.fullHard, Juce.setSample, Juce.getSample]
    exact ⟨by simpa using q0, by simpa using q3⟩

end TheRocket

namespace DemoFxChain

/-! ## Positions of the pitch shifter -/

theorem stdFmod_mem {x y : ℚ} (hx : 0 ≤ x) (hy : 0 < y) :
    0 ≤ Juce.stdFmod x y ∧ Juce.stdFmod x y < y := by
  have hq : 0 ≤ x / y := div_nonneg hx hy.le
  have hxy : x / y * y = x := div_mul_cancel₀ x (ne_of_gt hy)
  have h1 : ((Int.floor (x / y) : Int) : ℚ) ≤ x / y := Int.floor_le _
  have h2 : x / y < ((Int.floor (x / y) : Int) : ℚ) + 1 := Int.lt_floor_add_one _
  unfold Juce.stdFmod Juce.truncToInt
  rw [if_pos hq]
  constructor
  · nlinarith [mul_le_mul_of_nonneg_right h1 hy.le]
  · nlinarith [mul_lt_mul_of_pos_right h2 hy]

theorem advance_readPos_mem {rs speed pos : ℚ} {w : ℚ} (hrs : 2048 ≤ rs) (hs0 : 1 / 4 ≤ speed)
    (hs1 : speed ≤ 4) (hp0 : 0 ≤ pos) (hp1 : pos < rs) :
    0 ≤ (if |w - (if pos + speed ≥ rs then pos + speed - rs else pos + speed)| < 32 then
          Juce.stdFmod ((if pos + speed ≥ rs then pos + speed - rs else pos + speed)
            + rs * (1 / 2)) rs
        else (if pos + speed ≥ rs then pos + speed - rs else pos + speed))
      ∧ (if |w - (if pos + speed ≥ rs then pos + speed - rs else pos + speed)| < 32 then
          Juce.stdFmod ((if pos + speed ≥ rs then pos + speed - rs else pos + speed)
            + rs * (1 / 2)) rs
        else (if pos + speed ≥ rs then pos + speed - rs else pos + speed)) < rs := by
  have h2 : 0 ≤ (if pos + speed ≥ rs then pos + speed - rs else pos + speed)
      ∧ (if pos + speed ≥ rs then pos + speed - rs else pos + speed) < rs := by
    split
    · constructor <;> linarith
    · constructor <;> linarith
  generalize (if pos + speed ≥ rs then pos + speed - rs else pos + speed) = a2 at h2
  split
  · exact stdFmod_mem (by linarith [h2.1]) (by linarith)
  · exact h2

theorem advance_wellFormed (ps : PitchShifter) (h : ps.WellFormed) :
    ps.advance.WellFormed := by
  obtain ⟨⟨hr0, hr1⟩, ⟨hs0, hs1⟩, ⟨⟨hw0, hw1⟩, ⟨ha0, ha1⟩, ⟨hb0, hb1⟩⟩, hring⟩ := h
  have hrsq : (2048 : ℚ) ≤ (ps.ringSize : ℚ) := by exact_mod_cast hr0
  refine ⟨⟨hr0, hr1⟩, ⟨hs0, hs1⟩, ⟨⟨?_, ?_⟩, ?_, ?_⟩, hring⟩
  · exact Int.tmod_nonneg _ (by omega)
  · show Int.tmod (ps.writePos + 1) ps.ringSize < ps.ringSize
    rw [Int.tmod_eq_emod (by omega) (by omega)]
    exact Int.emod_lt_of_pos _ (by omega)
  · exact advance_readPos_mem hrsq hs0 hs1 ha0 ha1
  · exact advance_readPos_mem hrsq hs0 hs1 hb0 hb1

end DemoFxChain

namespace DemoFxChain

theorem ringSized_setSample (ring : Juce.Buffer) (rs : Int) (ch i : Nat) (v : ℚ)
    (h : ∀ c ∈ ring, (c.length : Int) = rs) :
    ∀ c ∈ Juce.setSample ring ch i v, (c.length : Int) = rs := by
  intro c hc
  unfold Juce.setSample at hc
  by_cases hch : ch < ring.length
  · rcases List.mem_or_eq_of_mem_set hc with hmem | heq
    · exact h c hmem
    · rw [heq, List.length_set, List.getD_eq_getElem _ _ hch]
      exact h _ (List.getElem_mem _)
  · rw [List.set_eq_of_length_le (not_lt.1 hch)] at hc
    exact h c hc

theorem channelStep_fst (wA wB norm : ℚ) (i : Nat) (s : PitchShifter × Juce.Buffer)
    (ch : Nat) :
    (PitchShifter.channelStep wA wB norm i s ch).1
      = { s.1 with
          ring := Juce.setSample s.1.ring ch s.1.writePos.toNat (Juce.getSample s.2 ch i) } :=
  rfl

theorem channelStep_wellFormed (wA wB norm : ℚ) (i : Nat) (s : PitchShifter × Juce.Buffer)
    (ch : Nat) (h : s.1.WellFormed) :
    (PitchShifter.channelStep wA wB norm i s ch).1.WellFormed := by
  obtain ⟨hr, hs, hp, hring⟩ := h
  rw [channelStep_fst]
  exact ⟨hr, hs, hp, ringSized_setSample _ _ _ _ _ hring⟩

theorem foldl_channelStep_wellFormed (wA wB norm : ℚ) (i : Nat) (chs : List Nat)
    (s : PitchShifter × Juce.Buffer) (h : s.1.WellFormed) :
    (chs.foldl (PitchShifter.channelStep wA wB norm i) s).1.WellFormed := by
  induction chs generalizing s with
  | nil => exact h
  | cons ch chs ih => exact ih _ (channelStep_wellFormed wA wB norm i s ch h)

theorem sampleStep_wellFormed (fns : Juce.MathFns) (s : PitchShifter × Juce.Buffer) (i : Nat)
    (h : s.1.WellFormed) : (PitchShifter.sampleStep fns s i).1.WellFormed := by
  unfold PitchShifter.sampleStep
  exact advance_wellFormed _ (foldl_channelStep_wellFormed _ _ _ _ _ _ h)

theorem foldl_sampleStep_wellFormed (fns : Juce.MathFns) (ps : PitchShifter)
    (buffer : Juce.Buffer) (n : Nat) (h : ps.WellFormed) :
    ((List.range n).foldl (PitchShifter.sampleStep fns) (ps, buffer)).1.WellFormed := by
  induction n with
  | zero => exact h
  | succ n ih =>
    rw [List.range_succ, List.foldl_append, List.foldl_cons, List.foldl_nil]
    exact sampleStep_wellFormed fns _ n ih

theorem process_wellFormed (fns : Juce.MathFns) (ps : PitchShifter) (buffer : Juce.Buffer)
    (h : ps.WellFormed) : (ps.process fns buffer).1.WellFormed := by
  unfold PitchShifter.process
  split
  · exact h
  · exact foldl_sampleStep_wellFormed fns ps buffer _ h

theorem prepare_ringSize_mem (ps : PitchShifter) (sr : ℚ) (ch : Nat) :
    2048 ≤ (ps.prepare sr ch).ringSize ∧ (ps.prepare sr ch).ringSize ≤ 131072 := by
  show 2048 ≤ Juce.jlimitInt 2048 131072 _ ∧ Juce.jlimitInt 2048 131072 _ ≤ 131072
  unfold Juce.jlimitInt
  split
  · omega
  · split <;> omega

theorem prepare_wellFormed (ps : PitchShifter) (sr : ℚ) (ch : Nat) :
    (ps.prepare sr ch).WellFormed := by
  have hrs := prepare_ringSize_mem ps sr ch
  have hq : (2048 : ℚ) ≤ ((ps.prepare sr ch).ringSize : ℚ) := by exact_mod_cast hrs.1
  refine ⟨hrs, ?_, ⟨⟨?_, ?_⟩, ⟨?_, ?_⟩, ⟨?_, ?_⟩⟩, ?_⟩
  · show (1 / 4 : ℚ) ≤ 1 ∧ (1 : ℚ) ≤ 4
    norm_num
  · show (0 : Int) ≤ 0
    exact le_refl _
  · show (0 : Int) < (ps.prepare sr ch).ringSize
    omega
  · show (0 : ℚ) ≤ 0
    exact le_refl _
  · show (0 : ℚ) < ((ps.prepare sr ch).ringSize : ℚ)
    linarith
  · show (0 : ℚ) ≤ ((ps.prepare sr ch).ringSize : ℚ) * (1 / 2)
    linarith
  · show ((ps.prepare sr ch).ringSize : ℚ) * (1 / 2) < ((ps.prepare sr ch).ringSize : ℚ)
    linarith
  · intro c hc
    have hc2 : c = List.replicate (ps.prepare sr ch).ringSize.toNat 0 :=
      List.eq_of_mem_replicate hc
    rw [hc2, List.length_replicate]
    exact Int.toNat_of_nonneg (by omega)

theorem reset_wellFormed (ps : PitchShifter) (h : ps.WellFormed) : ps.reset.WellFormed := by
  obtain ⟨hr, hs, _, hring⟩ := h
  have hq : (2048 : ℚ) ≤ (ps.ringSize : ℚ) := by exact_mod_cast hr.1
  refine ⟨hr, hs, ⟨⟨?_, ?_⟩, ⟨?_, ?_⟩, ⟨?_, ?_⟩⟩, ?_⟩
  · show (0 : Int) ≤ 0
    exact le_refl _
  · show (0 : Int) < ps.ringSize
    omega
  · show (0 : ℚ) ≤ 0
    exact le_refl _
  · show (0 : ℚ) < (ps.ringSize : ℚ)
    linarith
  · show (0 : ℚ) ≤ (ps.ringSize : ℚ) * (1 / 2)
    linarith
  · show (ps.ringSize : ℚ) * (1 / 2) < (ps.ringSize : ℚ)
    linarith
  · intro c hc
    have hc2 : c ∈ ps.ring.map (fun channel => channel.map (fun _ => (0 : ℚ))) := hc
    rw [List.mem_map] at hc2
    obtain ⟨c0, hc0, rfl⟩ := hc2
    rw [List.length_map]
    exact hring c0 hc0

theorem clampSafe_toRat_mem (v : Juce.Fl) (lo hi : ℚ) (h : lo ≤ hi) :
    lo ≤ (clampSafe v (.finite lo) (.finite hi)).toRat
      ∧ (clampSafe v (.finite lo) (.finite hi)).toRat ≤ hi := by
  cases v with
  | finite q =>
    rw [clampSafe_finite]
    exact jlimit_mem h q
  | nan =>
    rw [clampSafe_nonfinite Juce.Fl.nan _ _ rfl]
    exact ⟨le_refl _, h⟩
  | negInf =>
    rw [clampSafe_nonfinite Juce.Fl.negInf _ _ rfl]
    exact ⟨le_refl _, h⟩
  | posInf =>
    rw [clampSafe_nonfinite Juce.Fl.posInf _ _ rfl]
    exact ⟨le_refl _, h⟩

theorem setParams_wellFormed (fns : Juce.MathFns) (ps : PitchShifter) (st m : Juce.Fl)
    (hpow : ∀ e : ℚ, -2 ≤ e → e ≤ 2 → 1 / 4 ≤ fns.pow 2 e ∧ fns.pow 2 e ≤ 4)
    (h : ps.WellFormed) : (ps.setParams fns st m).WellFormed := by
  obtain ⟨hr, _, hp, hring⟩ := h
  have hst := clampSafe_toRat_mem st (-24) 24 (by norm_num)
  refine ⟨hr, ?_, hp, hring⟩
  show 1 / 4 ≤ fns.pow 2 ((clampSafe st (.finite (-24)) (.finite 24)).toRat / 12)
    ∧ fns.pow 2 ((clampSafe st (.finite (-24)) (.finite 24)).toRat / 12) ≤ 4
  exact hpow _ (by linarith [hst.1]) (by linarith [hst.2])

theorem indicesValid_of_mem (ps : PitchShifter) (pos : ℚ) (hr : 2048 ≤ ps.ringSize)
    (hring : ps.RingSized) (h0 : 0 ≤ pos) (h1 : pos < ps.ringSize) :
    ps.IndicesValid pos := by
  have hf0 : 0 ≤ Int.floor pos := Int.floor_nonneg.2 h0
  have hf1 : Int.floor pos < ps.ringSize := Int.floor_lt.2 h1
  have ht0 : 0 ≤ Int.tmod (Int.floor pos + 1) ps.ringSize := Int.tmod_nonneg _ (by omega)
  have ht1 : Int.tmod (Int.floor pos + 1) ps.ringSize < ps.ringSize := by
    rw [Int.tmod_eq_emod (by omega) (by omega)]
    exact Int.emod_lt_of_pos _ (by omega)
  refine ⟨⟨hf0, hf1⟩, ⟨ht0, ht1⟩, ?_⟩
  intro c hc
  have hlen := hring c hc
  constructor <;> omega

end DemoFxChain

namespace DemoFxChain

/-- Claim C28: `PitchShifter::prepare` leaves a ring size in `[2048, 131072]`,
speed 1, positions `0 <= writePos < ringSize`, `0 <= readPosA < ringSize`,
`0 <= readPosB < ringSize` and ring channels of the ring size. From any such
state with a speed in `[1/4, 4]`, `reset` and `setParams` (for a `pow` with
values in `[1/4, 4]` on exponents in `[-2, 2]`) keep these bounds, and so does
every processed sample: after any number `n` of iterations of the sample loop
and after the whole `process` call. In such a state both indices
`floor (pos)` and `(floor (pos) + 1) % ringSize` that `readSample` reads, for
either read position, are valid ring indices (exact arithmetic). -/
theorem pitch_positions_stay_inside_ring (fns : Juce.MathFns) (ps0 : PitchShifter)
    (sr : ℚ) (ch : Nat) :
    (ps0.prepare sr ch).WellFormed
      ∧ ∀ ps : PitchShifter, ps.WellFormed →
          ps.reset.WellFormed
            ∧ (∀ st m : Juce.Fl,
                (∀ e : ℚ, -2 ≤ e → e ≤ 2 → 1 / 4 ≤ fns.pow 2 e ∧ fns.pow 2 e ≤ 4) →
                (ps.setParams fns st m).WellFormed)
            ∧ (∀ (buffer : Juce.Buffer) (n : Nat),
                ((List.range n).foldl (PitchShifter.sampleStep fns) (ps, buffer)).1.WellFormed)
            ∧ (∀ buffer : Juce.Buffer, (ps.process fns buffer).1.WellFormed)
            ∧ ps.IndicesValid ps.readPosA
            ∧ ps.IndicesValid ps.readPosB := by
  refine ⟨prepare_wellFormed ps0 sr ch, ?_⟩
  intro ps h
  refine ⟨reset_wellFormed ps h, ?_, ?_, ?_, ?_, ?_⟩
  · intro st m hpow
    exact setParams_wellFormed fns ps st m hpow h
  · intro buffer n
    exact foldl_sampleStep_wellFormed fns ps buffer n h
  · intro buffer
    exact process_wellFormed fns ps buffer h
  · exact indicesValid_of_mem ps _ h.1.1 h.2.2.2 h.2.2.1.2.1.1 h.2.2.1.2.1.2
  · exact indicesValid_of_mem ps _ h.1.1 h.2.2.2 h.2.2.1.2.2.1 h.2.2.1.2.2.2

/-- Witness of C28: a stereo shifter prepared at 44100 Hz, after two
iterations of the sample loop on the block `[[1, 2], [3, 4]]`. -/
theorem pitch_positions_stay_inside_ring_witness :
    ((List.range 2).foldl (PitchShifter.sampleStep Juce.exampleFns)
      (PitchShifter.prepare {} 44100 2, [[1, 2], [3, 4]])).1.WellFormed :=
  ((pitch_positions_stay_inside_ring Juce.exampleFns {} 44100 2).2
    (PitchShifter.prepare {} 44100 2)
    (pitch_positions_stay_inside_ring Juce.exampleFns {} 44100 2).1).2.2.1 [[1, 2], [3, 4]] 2

end DemoFxChain

namespace DemoFxChain

/-! ## The guard distance of the pitch shifter -/

theorem advance_eq_withRingAndHeads (ps : PitchShifter) :
    ps.advance = ps.withRingAndHeads ps.ring (advanceHeads ps.ringSize ps.speed ps.heads) :=
  rfl

theorem foldl_channelStep_eq (wA wB norm : ℚ) (i : Nat) (chs : List Nat)
    (s : PitchShifter × Juce.Buffer) :
    ∃ r, (chs.foldl (PitchShifter.channelStep wA wB norm i) s).1
      = s.1.withRingAndHeads r s.1.heads := by
  induction chs generalizing s with
  | nil => exact ⟨s.1.ring, rfl⟩
  | cons ch chs ih =>
    obtain ⟨r, hr⟩ := ih (PitchShifter.channelStep wA wB norm i s ch)
    exact ⟨r, by rw [List.foldl_cons, hr]; rfl⟩

theorem sampleStep_eq (fns : Juce.MathFns) (s : PitchShifter × Juce.Buffer) (i : Nat) :
    ∃ r, (PitchShifter.sampleStep fns s i).1
      = s.1.withRingAndHeads r (advanceHeads s.1.ringSize s.1.speed s.1.heads) := by
  unfold PitchShifter.sampleStep
  simp only
  obtain ⟨r, hr⟩ := foldl_channelStep_eq
    (fns.sin (Juce.jlimit 0 1 (Juce.stdFmod ((s.1.writePos : ℚ) - s.1.readPosA
      + (s.1.ringSize : ℚ)) (s.1.ringSize : ℚ) / ((s.1.ringSize : ℚ) * (1 / 2))) * fns.pi))
    (fns.sin (Juce.jlimit 0 1 (Juce.stdFmod ((s.1.writePos : ℚ) - s.1.readPosB
      + (s.1.ringSize : ℚ)) (s.1.ringSize : ℚ) / ((s.1.ringSize : ℚ) * (1 / 2))) * fns.pi))
    _ i (List.range s.2.length) s
  exact ⟨r, by rw [hr]; rfl⟩

theorem foldl_sampleStep_eq (fns : Juce.MathFns) (ps : PitchShifter) (buffer : Juce.Buffer)
    (n : Nat) :
    ∃ r, ((List.range n).foldl (PitchShifter.sampleStep fns) (ps, buffer)).1
      = ps.withRingAndHeads r ((advanceHeads ps.ringSize ps.speed)^[n] ps.heads) := by
  induction n with
  | zero => exact ⟨ps.ring, rfl⟩
  | succ n ih =>
    obtain ⟨r, hr⟩ := ih
    rw [List.range_succ, List.foldl_append, List.foldl_cons, List.foldl_nil]
    obtain ⟨r2, hr2⟩ := sampleStep_eq fns
      ((List.range n).foldl (PitchShifter.sampleStep fns) (ps, buffer)) n
    refine ⟨r2, ?_⟩
    rw [hr2, hr, Function.iterate_succ_apply']
    rfl

theorem process_eq_of_active (fns : Juce.MathFns) (ps : PitchShifter) (buffer : Juce.Buffer)
    (he : ps.enabled = true) (hm : 1 / 10000 < ps.mix) (hs : 1 / 1000 ≤ |ps.semitones|) :
    ∃ r, (ps.process fns buffer).1
      = ps.withRingAndHeads r
          ((advanceHeads ps.ringSize ps.speed)^[Juce.numSamples buffer] ps.heads) := by
  unfold PitchShifter.process
  have hc : (!ps.enabled || decide (ps.mix ≤ 1 / 10000)
      || decide (|ps.semitones| < 1 / 1000)) = false := by
    rw [he, decide_eq_false (not_le.2 hm), decide_eq_false (not_lt.2 hs)]
    rfl
  rw [hc]
  exact foldl_sampleStep_eq fns ps buffer _

theorem advanceHeads_plain (rs : Int) (speed : ℚ) (w : Int) (a b : ℚ) (hw0 : 0 ≤ w + 1)
    (hw1 : w + 1 < rs) (ha1 : a + speed < rs)
    (ha2 : 32 ≤ |((w + 1 : Int) : ℚ) - (a + speed)|) (hb1 : b + speed < rs)
    (hb2 : 32 ≤ |((w + 1 : Int) : ℚ) - (b + speed)|) :
    advanceHeads rs speed (w, a, b) = (w + 1, a + speed, b + speed) := by
  unfold advanceHeads PitchShifter.advance PitchShifter.heads
  simp only [Int.tmod_eq_of_lt hw0 hw1]
  rw [if_neg (not_le.2 ha1), if_neg (not_le.2 hb1), if_neg (not_lt.2 ha2),
    if_neg (not_lt.2 hb2)]

theorem iterate_advanceHeads_linear (rs : Int) (speed : ℚ) (w : Int) (a b : ℚ) (n : Nat)
    (hw0 : 0 ≤ w) (hwn : w + (n : Int) < rs)
    (ha : ∀ j : Nat, 1 ≤ j → j ≤ n →
      a + (j : ℚ) * speed < rs ∧ 32 ≤ |((w + (j : Int) : Int) : ℚ) - (a + (j : ℚ) * speed)|)
    (hb : ∀ j : Nat, 1 ≤ j → j ≤ n →
      b + (j : ℚ) * speed < rs ∧ 32 ≤ |((w + (j : Int) : Int) : ℚ) - (b + (j : ℚ) * speed)|) :
    (advanceHeads rs speed)^[n] (w, a, b)
      = (w + (n : Int), a + (n : ℚ) * speed, b + (n : ℚ) * speed) := by
  induction n with
  | zero => simp
  | succ n ih =>
    have hprev := ih (by push_cast at hwn; omega)
      (fun j h1 h2 => ha j h1 (by omega)) (fun j h1 h2 => hb j h1 (by omega))
    have hA := ha (n + 1) (by omega) (le_refl _)
    have hB := hb (n + 1) (by omega) (le_refl _)
    have e1 : a + ((n + 1 : Nat) : ℚ) * speed = a + (n : ℚ) * speed + speed := by
      push_cast
      ring
    have e2 : b + ((n + 1 : Nat) : ℚ) * speed = b + (n : ℚ) * speed + speed := by
      push_cast
      ring
    have e3 : w + ((n + 1 : Nat) : Int) = w + (n : Int) + 1 := by
      push_cast
      ring
    rw [e1, e3] at hA
    rw [e2, e3] at hB
    rw [Function.iterate_succ_apply', hprev,
      advanceHeads_plain rs speed _ _ _ (by omega) (by rw [← e3]; exact hwn) hA.1 hA.2 hB.1
        hB.2, e1, e2, e3]

theorem trace_first_step :
    advanceHeads 5292 (1 / 2) (0, 0, 2646) = (1, 5293 / 2, 5293 / 2) := by
  have hfl : Int.floor ((5293 / 2 : ℚ) / 5292) = 0 := by
    norm_num [Int.floor_eq_iff]
  have hfm : Juce.stdFmod (5293 / 2) 5292 = 5293 / 2 := by
    unfold Juce.stdFmod Juce.truncToInt
    rw [if_pos (by norm_num), hfl]
    norm_num
  have ht : Int.tmod (0 + 1) 5292 = 1 := by decide
  unfold advanceHeads PitchShifter.advance PitchShifter.heads
  simp only [ht]
  norm_num [abs_lt, hfm]

theorem trace_down_segment :
    (advanceHeads 5292 (1 / 2))^[1785] (1, 5293 / 2, 5293 / 2) = (1786, 3539, 3539) := by
  have hseg : ∀ j : Nat, 1 ≤ j → j ≤ 1785 →
      (5293 / 2 : ℚ) + (j : ℚ) * (1 / 2) < ((5292 : Int) : ℚ)
        ∧ 32 ≤ |(((1 : Int) + (j : Int) : Int) : ℚ) - (5293 / 2 + (j : ℚ) * (1 / 2))| := by
    intro j h1 h2
    have hj1 : (1 : ℚ) ≤ j := by exact_mod_cast h1
    have hj2 : (j : ℚ) ≤ 1785 := by exact_mod_cast h2
    constructor
    · push_cast
      linarith
    · rw [le_abs]
      right
      push_cast
      linarith
  rw [iterate_advanceHeads_linear 5292 (1 / 2) 1 (5293 / 2) (5293 / 2) 1785 (by norm_num)
    (by norm_num) hseg hseg]
  norm_num

theorem trace_up_segment_one :
    (advanceHeads 5292 2)^[876] (1786, 3539, 3539) = (2662, 5291, 5291) := by
  have hseg : ∀ j : Nat, 1 ≤ j → j ≤ 876 →
      (3539 : ℚ) + (j : ℚ) * 2 < ((5292 : Int) : ℚ)
        ∧ 32 ≤ |(((1786 : Int) + (j : Int) : Int) : ℚ) - (3539 + (j : ℚ) * 2)| := by
    intro j h1 h2
    have hj1 : (1 : ℚ) ≤ j := by exact_mod_cast h1
    have hj2 : (j : ℚ) ≤ 876 := by exact_mod_cast h2
    constructor
    · push_cast
      linarith
    · rw [le_abs]
      right
      push_cast
      linarith
  rw [iterate_advanceHeads_linear 5292 2 1786 3539 3539 876 (by norm_num)
    (by norm_num) hseg hseg]
  norm_num

theorem trace_read_wrap :
    advanceHeads 5292 2 (2662, 5291, 5291) = (2663, 1, 1) := by
  have ht : Int.tmod (2662 + 1) 5292 = 2663 := by decide
  unfold advanceHeads PitchShifter.advance PitchShifter.heads
  simp only [ht]
  norm_num [abs_lt]

theorem trace_up_segment_two :
    (advanceHeads 5292 2)^[2628] (2663, 1, 1) = (5291, 5257, 5257) := by
  have hseg : ∀ j : Nat, 1 ≤ j → j ≤ 2628 →
      (1 : ℚ) + (j : ℚ) * 2 < ((5292 : Int) : ℚ)
        ∧ 32 ≤ |(((2663 : Int) + (j : Int) : Int) : ℚ) - (1 + (j : ℚ) * 2)| := by
    intro j h1 h2
    have hj1 : (1 : ℚ) ≤ j := by exact_mod_cast h1
    have hj2 : (j : ℚ) ≤ 2628 := by exact_mod_cast h2
    constructor
    · push_cast
      linarith
    · rw [le_abs]
      left
      push_cast
      linarith
  rw [iterate_advanceHeads_linear 5292 2 2663 1 1 2628 (by norm_num)
    (by norm_num) hseg hseg]
  norm_num

theorem trace_write_wrap :
    (advanceHeads 5292 2)^[3] (5291, 5257, 5257) = (2, 5263, 5263) := by
  have ht0 : Int.tmod (5291 + 1) 5292 = 0 := by decide
  have ht1 : Int.tmod (0 + 1) 5292 = 1 := by decide
  have ht2 : Int.tmod (1 + 1) 5292 = 2 := by decide
  have s1 : advanceHeads 5292 2 (5291, 5257, 5257) = (0, 5259, 5259) := by
    unfold advanceHeads PitchShifter.advance PitchShifter.heads
    simp only [ht0]
    norm_num [abs_lt]
  have s2 : advanceHeads 5292 2 (0, 5259, 5259) = (1, 5261, 5261) := by
    unfold advanceHeads PitchShifter.advance PitchShifter.heads
    simp only [ht1]
    norm_num [abs_lt]
  have s3 : advanceHeads 5292 2 (1, 5261, 5261) = (2, 5263, 5263) := by
    unfold advanceHeads PitchShifter.advance PitchShifter.heads
    simp only [ht2]
    norm_num [abs_lt]
  show advanceHeads 5292 2 (advanceHeads 5292 2 (advanceHeads 5292 2 (5291, 5257, 5257))) = _
  rw [s1, s2, s3]

theorem trace_down :
    (advanceHeads 5292 (1 / 2))^[1786] (0, 0, 2646) = (1786, 3539, 3539) := by
  rw [show (1786 : Nat) = 1785 + 1 from rfl, Function.iterate_add_apply]
  show (advanceHeads 5292 (1 / 2))^[1785] (advanceHeads 5292 (1 / 2) (0, 0, 2646)) = _
  rw [trace_first_step, trace_down_segment]

theorem trace_up :
    (advanceHeads 5292 2)^[3508] (1786, 3539, 3539) = (2, 5263, 5263) := by
  rw [show (3508 : Nat) = 3 + (2628 + (1 + 876)) from rfl, Function.iterate_add_apply,
    Function.iterate_add_apply, Function.iterate_add_apply, trace_up_segment_one]
  show (advanceHeads 5292 2)^[3] ((advanceHeads 5292 2)^[2628]
    (advanceHeads 5292 2 (2662, 5291, 5291))) = _
  rw [trace_read_wrap, trace_up_segment_two, trace_write_wrap]

theorem trace_distance : circularDistance 5292 2 5263 = 31 := by
  have h1 : Int.floor ((((2 : Int) : ℚ) - 5263) / ((5292 : Int) : ℚ)) = -1 := by
    norm_num [Int.floor_eq_iff]
  have h2 : Int.floor (((5263 : ℚ) - ((2 : Int) : ℚ)) / ((5292 : Int) : ℚ)) = 0 := by
    norm_num [Int.floor_eq_iff]
  unfold circularDistance
  simp only [h1, h2]
  norm_num

theorem octaveDown_eq :
    PitchShifter.octaveDown
      = PitchShifter.mk true 44100 1 (List.replicate 1 (List.replicate 5292 0)) 0 5292
          (-12) 1 0 2646 (1 / 2) := by
  have hround : Juce.stdRound ((44100 : ℚ) * (12 / 100)) = 5292 := by
    norm_num [Juce.stdRound, Int.floor_eq_iff]
  have hfl : Int.floor ((-12 : ℚ) / 12) = -1 := by
    norm_num [Int.floor_eq_iff]
  have hst : (clampSafe (.finite (-12)) (.finite (-24)) (.finite 24)).toRat = -12 := by
    rw [clampSafe_finite]
    norm_num [Juce.Fl.toRat, Juce.jlimit]
  have hmix : (clampSafe (.finite 1) (.finite 0) (.finite 1)).toRat = 1 := by
    rw [clampSafe_finite]
    norm_num [Juce.Fl.toRat, Juce.jlimit]
  unfold PitchShifter.octaveDown PitchShifter.setParams PitchShifter.setEnabled
    PitchShifter.prepare
  simp only [hround, hst, hmix, Juce.exampleFns, hfl]
  norm_num [Juce.jlimitInt]
  rfl

theorem octaveUpAfterDown_eq :
    ∃ r, PitchShifter.octaveUpAfterDown
      = PitchShifter.mk true 44100 1 r 1786 5292 12 1 3539 3539 2 := by
  have hfl : Int.floor ((12 : ℚ) / 12) = 1 := by
    norm_num [Int.floor_eq_iff]
  have hst : (clampSafe (.finite 12) (.finite (-24)) (.finite 24)).toRat = 12 := by
    rw [clampSafe_finite]
    norm_num [Juce.Fl.toRat, Juce.jlimit]
  have hmix : (clampSafe (.finite 1) (.finite 0) (.finite 1)).toRat = 1 := by
    rw [clampSafe_finite]
    norm_num [Juce.Fl.toRat, Juce.jlimit]
  have hn : Juce.numSamples [List.replicate 1786 (0 : ℚ)] = 1786 := by
    unfold Juce.numSamples
    rw [List.getD_cons_zero, List.length_replicate]
  obtain ⟨r, hr⟩ := process_eq_of_active Juce.exampleFns PitchShifter.octaveDown
    [List.replicate 1786 0] (by rw [octaveDown_eq]) (by rw [octaveDown_eq]; norm_num)
    (by rw [octaveDown_eq]; norm_num)
  refine ⟨r, ?_⟩
  unfold PitchShifter.octaveUpAfterDown
  rw [hr, hn, octaveDown_eq]
  simp only [PitchShifter.heads]
  rw [trace_down]
  unfold PitchShifter.setParams PitchShifter.withRingAndHeads
  simp only [hst, hmix, Juce.exampleFns, hfl]
  norm_num

/-- Claim C24, evaluated on a failing input: a mono shifter prepared at
44100 Hz (ring size 5292), enabled, processes 1786 samples one octave down
and is then set one octave up (write position 1786, both read positions 3539,
speed 2). After 3508 further samples the write position is 2 and both read
positions are 5263: the distance around the ring is 31, below the guard
distance 32, and the guard, which compares `|writePos - readPos| = 5261` with
32, has not moved the read heads. -/
theorem guard_misses_wrap_around :
    PitchShifter.octaveUpAfterDown.heads = (1786, 3539, 3539)
      ∧ PitchShifter.octaveUpAfterDown.speed = 2
      ∧ (PitchShifter.octaveUpAfterDown.process Juce.exampleFns
          [List.replicate 3508 0]).1.ringSize = 5292
      ∧ (PitchShifter.octaveUpAfterDown.process Juce.exampleFns
          [List.replicate 3508 0]).1.heads = (2, 5263, 5263)
      ∧ circularDistance 5292 2 5263 = 31
      ∧ (31 : ℚ) < 32 := by
  obtain ⟨r, hr⟩ := octaveUpAfterDown_eq
  have hn : Juce.numSamples [List.replicate 3508 (0 : ℚ)] = 3508 := by
    unfold Juce.numSamples
    rw [List.getD_cons_zero, List.length_replicate]
  obtain ⟨r2, hr2⟩ := process_eq_of_active Juce.exampleFns PitchShifter.octaveUpAfterDown
    [List.replicate 3508 0] (by rw [hr]) (by rw [hr]; norm_num) (by rw [hr]; norm_num)
  have hheads : (PitchShifter.octaveUpAfterDown.process Juce.exampleFns
      [List.replicate 3508 0]).1.heads = (2, 5263, 5263) := by
    rw [hr2, hn, hr]
    simp only [PitchShifter.heads, PitchShifter.withRingAndHeads]
    rw [trace_up]
  refine ⟨by rw [hr]; rfl, by rw [hr], ?_, hheads, trace_distance, by norm_num⟩
  rw [hr2, hr]
  rfl

end DemoFxChain
